import Mathlib

/-!
Shallow embedding of the orchestration engine (`foo-copy.py`, `directory_hash.py`)
and proofs about its specification claims.

Conventions of the embedding:
* Python strings are `List Char`; Python `str.isspace`/`\s` is `Char.isWhitespace`
  (the inputs relevant to the claims use only plain spaces).
* Machine status codes are `Nat` (0 = success, nonzero = failure).
* The dynamically-typed `self.result` cache of a node is `Option PyVal`, where
  `PyVal` separates Python ints from Python bools (the code stores an int for
  script nodes and a bool for operator nodes).
* Evaluation side effects (task invocations) are made explicit: `evaluate`
  returns, besides its boolean, the ordered list of `invoke(name, args)` calls
  it performed and the updated tree (with result caches written).
-/

/-- A dynamically-typed Python value stored in a node's `result` cache:
either an integer status code or a boolean. -/
inductive PyVal where
  | int (n : Nat) : PyVal
  | bool (b : Bool) : PyVal
deriving DecidableEq, Repr

/-- Expression-tree nodes of `foo-copy.py`.
`script` = `ScriptNode(name, args)` (atom), `notN` = `NotNode(child)`,
`andN`/`orN` = `AndNode`/`OrNode` with their `circuit_breaking` flag and
ordered children.  Every node carries its `self.result` cache
(initialized to `None` by the constructors / the recursive-descent routines). -/
inductive Node where
  | script (name : String) (args : List String) (cache : Option PyVal) : Node
  | notN (child : Option Node) (cache : Option PyVal) : Node
  | andN (circuitBreaking : Bool) (children : List Node) (cache : Option PyVal) : Node
  | orN (circuitBreaking : Bool) (children : List Node) (cache : Option PyVal) : Node
deriving Repr

/-- The task-invoker collaborator: `invoke(name, args) -> statusCode`. -/
abbrev Invoke := String → List String → Nat

/-- The ordered record of task invocations performed during an evaluation. -/
abbrev Trace := List (String × List String)

mutual

/-- `Node.evaluate` of `foo-copy.py`, with side effects made explicit:
returns (boolean result, ordered invocation trace, updated tree).
An atom calls the invoker once and caches the raw status code; `NotNode`
with no child returns `False` touching nothing; the operator nodes run
the loop of `AndNode.evaluate`/`OrNode.evaluate`. -/
def evalNode (invoke : Invoke) : Node → Bool × Trace × Node
  | Node.script n a _ =>
      let status := invoke n a
      (status == 0, [(n, a)], Node.script n a (some (PyVal.int status)))
  | Node.notN none c => (false, [], Node.notN none c)
  | Node.notN (some ch) _ =>
      let r := evalNode invoke ch
      (!r.1, r.2.1, Node.notN (some r.2.2) (some (PyVal.bool (!r.1))))
  | Node.andN cb cs _ =>
      let r := evalAndChildren invoke cb cs true
      (r.1, r.2.1, Node.andN cb r.2.2 (some (PyVal.bool r.1)))
  | Node.orN cb cs _ =>
      let r := evalOrChildren invoke cb cs false
      (r.1, r.2.1, Node.orN cb r.2.2 (some (PyVal.bool r.1)))

/-- The child loop of `AndNode.evaluate`: `acc` is the running `result`
variable; on a false child, `result` is set to `False` and, if
`circuit_breaking`, the loop breaks (later children untouched). -/
def evalAndChildren (invoke : Invoke) (cb : Bool) :
    List Node → Bool → Bool × Trace × List Node
  | [], acc => (acc, [], [])
  | c :: rest, acc =>
      let r := evalNode invoke c
      if r.1 then
        let t := evalAndChildren invoke cb rest acc
        (t.1, r.2.1 ++ t.2.1, r.2.2 :: t.2.2)
      else
        if cb then (false, r.2.1, r.2.2 :: rest)
        else
          let t := evalAndChildren invoke cb rest false
          (t.1, r.2.1 ++ t.2.1, r.2.2 :: t.2.2)

/-- The child loop of `OrNode.evaluate` (dual to the `AndNode` loop). -/
def evalOrChildren (invoke : Invoke) (cb : Bool) :
    List Node → Bool → Bool × Trace × List Node
  | [], acc => (acc, [], [])
  | c :: rest, acc =>
      let r := evalNode invoke c
      if r.1 then
        if cb then (true, r.2.1, r.2.2 :: rest)
        else
          let t := evalOrChildren invoke cb rest true
          (t.1, r.2.1 ++ t.2.1, r.2.2 :: t.2.2)
      else
        let t := evalOrChildren invoke cb rest acc
        (t.1, r.2.1 ++ t.2.1, r.2.2 :: t.2.2)

end

/-- Boolean result of an evaluation. -/
def evalB (invoke : Invoke) (t : Node) : Bool := (evalNode invoke t).1

/-- Invocation trace of an evaluation. -/
def evalT (invoke : Invoke) (t : Node) : Trace := (evalNode invoke t).2.1

example :
    evalB (fun n _ => if n = "A" then 0 else 1)
      (Node.andN true [Node.script "A" [] none, Node.script "B" [] none] none) = false := by
  simp [evalB, evalNode, evalAndChildren]

example :
    evalT (fun n _ => if n = "A" then 0 else 1)
      (Node.andN true [Node.script "B" [] none, Node.script "A" [] none] none)
      = [("B", [])] := by
  simp [evalT, evalNode, evalAndChildren]

/-! ### Evaluator lemmas -/

theorem evalAnd_result (invoke : Invoke) (cb : Bool) :
    ∀ (cs : List Node) (acc : Bool),
      (evalAndChildren invoke cb cs acc).1 = (acc && cs.all (evalB invoke)) := by
  intro cs
  induction cs with
  | nil => intro acc; simp [evalAndChildren]
  | cons c rest ih =>
      intro acc
      unfold evalAndChildren
      rcases h : evalB invoke c with _ | _ <;>
        rcases cb with _ | _ <;>
          simp [evalB] at h <;> simp [h, ih, evalB, Bool.and_comm, Bool.and_assoc]

theorem evalOr_result (invoke : Invoke) (cb : Bool) :
    ∀ (cs : List Node) (acc : Bool),
      (evalOrChildren invoke cb cs acc).1 = (acc || cs.any (evalB invoke)) := by
  intro cs
  induction cs with
  | nil => intro acc; simp [evalOrChildren]
  | cons c rest ih =>
      intro acc
      unfold evalOrChildren
      rcases h : evalB invoke c with _ | _ <;>
        rcases cb with _ | _ <;>
          simp [evalB] at h <;> simp [h, ih, evalB, Bool.or_comm, Bool.or_assoc]

theorem evalAnd_trace_nosc (invoke : Invoke) :
    ∀ (cs : List Node) (acc : Bool),
      (evalAndChildren invoke false cs acc).2.1 = (cs.map (evalT invoke)).flatten := by
  intro cs
  induction cs with
  | nil => intro acc; simp [evalAndChildren]
  | cons c rest ih =>
      intro acc
      unfold evalAndChildren
      rcases h : evalB invoke c with _ | _ <;>
        simp [evalB] at h <;> simp [h, ih, evalB, evalT]

theorem evalOr_trace_nosc (invoke : Invoke) :
    ∀ (cs : List Node) (acc : Bool),
      (evalOrChildren invoke false cs acc).2.1 = (cs.map (evalT invoke)).flatten := by
  intro cs
  induction cs with
  | nil => intro acc; simp [evalOrChildren]
  | cons c rest ih =>
      intro acc
      unfold evalOrChildren
      rcases h : evalB invoke c with _ | _ <;>
        simp [evalB] at h <;> simp [h, ih, evalB, evalT]

theorem evalAnd_trace_alltrue (invoke : Invoke) (cb : Bool) :
    ∀ (cs : List Node) (acc : Bool), cs.all (evalB invoke) = true →
      (evalAndChildren invoke cb cs acc).2.1 = (cs.map (evalT invoke)).flatten := by
  intro cs
  induction cs with
  | nil => intro acc _; simp [evalAndChildren]
  | cons c rest ih =>
      intro acc hall
      simp only [List.all_cons, Bool.and_eq_true] at hall
      unfold evalAndChildren
      have h : evalB invoke c = true := hall.1
      simp [evalB] at h
      simp [h, ih _ hall.2, evalT]

theorem evalOr_trace_allfalse (invoke : Invoke) (cb : Bool) :
    ∀ (cs : List Node) (acc : Bool), cs.any (evalB invoke) = false →
      (evalOrChildren invoke cb cs acc).2.1 = (cs.map (evalT invoke)).flatten := by
  intro cs
  induction cs with
  | nil => intro acc _; simp [evalOrChildren]
  | cons c rest ih =>
      intro acc hall
      simp only [List.any_cons, Bool.or_eq_false_iff] at hall
      unfold evalOrChildren
      have h : evalB invoke c = false := hall.1
      simp [evalB] at h
      simp [h, ih _ hall.2, evalT]

theorem evalAnd_trace_sc (invoke : Invoke) :
    ∀ (pre : List Node) (acc : Bool) (c : Node) (post : List Node),
      (∀ d ∈ pre, evalB invoke d = true) → evalB invoke c = false →
      (evalAndChildren invoke true (pre ++ c :: post) acc).2.1
        = (pre.map (evalT invoke)).flatten ++ evalT invoke c := by
  intro pre
  induction pre with
  | nil =>
      intro acc c post _ hc
      simp [evalB] at hc
      unfold evalAndChildren
      simp [hc, evalT]
  | cons d rest ih =>
      intro acc c post hall hc
      have hd : evalB invoke d = true := hall d (by simp)
      simp [evalB] at hd
      unfold evalAndChildren
      simp [hd, evalT,
        ih acc c post (fun x hx => hall x (by simp [hx])) hc]

theorem evalOr_trace_sc (invoke : Invoke) :
    ∀ (pre : List Node) (acc : Bool) (c : Node) (post : List Node),
      (∀ d ∈ pre, evalB invoke d = false) → evalB invoke c = true →
      (evalOrChildren invoke true (pre ++ c :: post) acc).2.1
        = (pre.map (evalT invoke)).flatten ++ evalT invoke c := by
  intro pre
  induction pre with
  | nil =>
      intro acc c post _ hc
      simp [evalB] at hc
      unfold evalOrChildren
      simp [hc, evalT]
  | cons d rest ih =>
      intro acc c post hall hc
      have hd : evalB invoke d = false := hall d (by simp)
      simp [evalB] at hd
      unfold evalOrChildren
      simp [hd, evalT,
        ih acc c post (fun x hx => hall x (by simp [hx])) hc]

/-! ### Claim theorems about the evaluator -/

/-- C2: a short-circuiting `And` evaluates children left-to-right, stops at the
first false child and returns false (children past the stopping point are never
invoked), returning true only if every child is true; short-circuiting `Or`
dually stops at the first true child; the non-short-circuiting variants invoke
every child (their full traces occur, in order) and return the conjunction
resp. disjunction of the children's results. -/
theorem and_or_evaluation_semantics :
    ∀ (invoke : Invoke) (cs : List Node) (cache : Option PyVal),
      (evalB invoke (Node.andN true cs cache) = cs.all (evalB invoke)) ∧
      (evalB invoke (Node.orN true cs cache) = cs.any (evalB invoke)) ∧
      (evalB invoke (Node.andN false cs cache) = cs.all (evalB invoke)) ∧
      (evalB invoke (Node.orN false cs cache) = cs.any (evalB invoke)) ∧
      (evalT invoke (Node.andN false cs cache) = (cs.map (evalT invoke)).flatten) ∧
      (evalT invoke (Node.orN false cs cache) = (cs.map (evalT invoke)).flatten) ∧
      (cs.all (evalB invoke) = true →
        evalT invoke (Node.andN true cs cache) = (cs.map (evalT invoke)).flatten) ∧
      (cs.any (evalB invoke) = false →
        evalT invoke (Node.orN true cs cache) = (cs.map (evalT invoke)).flatten) ∧
      (∀ pre c post, cs = pre ++ c :: post →
        (∀ d ∈ pre, evalB invoke d = true) → evalB invoke c = false →
        evalT invoke (Node.andN true cs cache)
          = (pre.map (evalT invoke)).flatten ++ evalT invoke c) ∧
      (∀ pre c post, cs = pre ++ c :: post →
        (∀ d ∈ pre, evalB invoke d = false) → evalB invoke c = true →
        evalT invoke (Node.orN true cs cache)
          = (pre.map (evalT invoke)).flatten ++ evalT invoke c) := by
  intro invoke cs cache
  refine ⟨?_, ?_, ?_, ?_, ?_, ?_, ?_, ?_, ?_, ?_⟩
  · simp [evalB, evalNode, evalAnd_result]
  · simp [evalB, evalNode, evalOr_result]
  · simp [evalB, evalNode, evalAnd_result]
  · simp [evalB, evalNode, evalOr_result]
  · simp [evalT, evalNode, evalAnd_trace_nosc invoke cs true]
  · simp [evalT, evalNode, evalOr_trace_nosc invoke cs false]
  · intro hall; simp [evalT, evalNode, evalAnd_trace_alltrue invoke true cs true hall]
  · intro hall; simp [evalT, evalNode, evalOr_trace_allfalse invoke true cs false hall]
  · intro pre c post hcs hall hc
    subst hcs
    simp [evalT, evalNode, evalAnd_trace_sc invoke pre true c post hall hc]
  · intro pre c post hcs hall hc
    subst hcs
    simp [evalT, evalNode, evalOr_trace_sc invoke pre false c post hall hc]

/-- C2 witness: with script `A` succeeding and everything else failing,
the short-circuiting And over children `A, B, C` invokes `A` then `B` and
stops, and its value is false. -/
theorem and_or_evaluation_semantics_witness :
    evalT (fun n _ => if n = "A" then 0 else 1)
        (Node.andN true
          [Node.script "A" [] none, Node.script "B" [] none, Node.script "C" [] none]
          none)
      = [("A", []), ("B", [])] ∧
    (([Node.script "A" [] none] : List Node).all
        (evalB (fun n _ => if n = "A" then 0 else 1)) = true) := by
  constructor
  · have h := (and_or_evaluation_semantics (fun n _ => if n = "A" then 0 else 1)
      [Node.script "A" [] none, Node.script "B" [] none, Node.script "C" [] none]
      none).2.2.2.2.2.2.2.2.1
      [Node.script "A" [] none] (Node.script "B" [] none) [Node.script "C" [] none]
      rfl
      (by intro d hd; simp at hd; subst hd; simp [evalB, evalNode])
      (by simp [evalB, evalNode])
    rw [h]
    simp [evalT, evalNode]
  · simp [evalB, evalNode]

/-- C3 (amended): an atom evaluation calls `invoke(name, args)` exactly once
(the trace is that single call), returns true iff the status code is 0, and
stores the raw integer status code - not the boolean - in the node's result
cache. -/
theorem atom_evaluation_semantics :
    ∀ (invoke : Invoke) (n : String) (a : List String) (cache : Option PyVal),
      evalNode invoke (Node.script n a cache)
        = (invoke n a == 0, [(n, a)],
           Node.script n a (some (PyVal.int (invoke n a)))) := by
  intro invoke n a cache
  simp [evalNode]

/-- C3 counterexample: with an invoker returning status 0 the atom evaluates
to `true`, but the cached result is the Python integer `0`, not the boolean
`true` the claim says is stored. -/
theorem atom_evaluation_cache_counterexample :
    (evalNode (fun _ _ => 0) (Node.script "A" [] none)).1 = true ∧
    (evalNode (fun _ _ => 0) (Node.script "A" [] none)).2.2
      = Node.script "A" [] (some (PyVal.int 0)) ∧
    some (PyVal.int 0) ≠ some (PyVal.bool true) := by
  refine ⟨by simp [evalNode], by simp [evalNode], by simp⟩

/-- C4: `Not` with a child returns the negation of the child's result and the
child's side effects still occur (same trace); `Not` with no child evaluates
to false with no invocations and leaves the node untouched. -/
theorem not_evaluation_semantics :
    ∀ (invoke : Invoke) (c : Node) (cache : Option PyVal),
      evalB invoke (Node.notN (some c) cache) = !(evalB invoke c) ∧
      evalT invoke (Node.notN (some c) cache) = evalT invoke c ∧
      evalNode invoke (Node.notN none cache) = (false, [], Node.notN none cache) := by
  intro invoke c cache
  refine ⟨by simp [evalB, evalNode], by simp [evalT, evalNode], by simp [evalNode]⟩

/-- C9: an `And` with no children evaluates to true and an `Or` with no
children evaluates to false, in both circuit-breaking variants, with zero
task invocations. -/
theorem empty_operator_identities :
    ∀ (invoke : Invoke) (cb : Bool) (cache : Option PyVal),
      evalNode invoke (Node.andN cb [] cache)
        = (true, [], Node.andN cb [] (some (PyVal.bool true))) ∧
      evalNode invoke (Node.orN cb [] cache)
        = (false, [], Node.orN cb [] (some (PyVal.bool false))) := by
  intro invoke cb cache
  refine ⟨by simp [evalNode, evalAndChildren], by simp [evalNode, evalOrChildren]⟩

/-! ### Pre-flight verification (driver, `main` of `foo-copy.py`) -/

mutual

/-- `collect_script_names_from_tree` of `foo-copy.py`. -/
def collect_script_names_from_tree : Node → List String
  | Node.script n _ _ => [n]
  | Node.notN none _ => []
  | Node.notN (some c) _ => collect_script_names_from_tree c
  | Node.andN _ cs _ => collectNamesList cs
  | Node.orN _ cs _ => collectNamesList cs

/-- Concatenated names of a list of children (the operator case of
`collect_script_names_from_tree`). -/
def collectNamesList : List Node → List String
  | [] => []
  | c :: rest => collect_script_names_from_tree c ++ collectNamesList rest

end

/-- Model of `list(set(names))`: duplicate removal.  CPython's set order is
arbitrary; we fix first-occurrence order, which the claims do not depend on. -/
def dedupFirst (seen : List String) : List String → List String
  | [] => []
  | x :: rest =>
      if x ∈ seen then dedupFirst seen rest
      else x :: dedupFirst (seen ++ [x]) rest

/-- The three pre-flight checks `main` performs for one script name, in source
order: the task-unit directory exists; the name has a registry entry; the
freshly computed fingerprint equals the registry value (a missing registry
entry is a failure, not a skip). -/
def checkName (dirExists : String → Bool) (calcHash : String → Option String)
    (registry : String → Option String) (n : String) : Bool :=
  dirExists n &&
    match registry n with
    | some h => calcHash n == some h
    | none => false

/-- The pre-flight loop of `main` (STEP 2): checks names in order, breaking at
the first failure.  Returns `all_hashes_valid` and the list of names actually
checked. -/
def preflight (dirExists : String → Bool) (calcHash : String → Option String)
    (registry : String → Option String) : List String → Bool × List String
  | [] => (true, [])
  | n :: rest =>
      if checkName dirExists calcHash registry n then
        let r := preflight dirExists calcHash registry rest
        (r.1, n :: r.2)
      else (false, [n])

/-- The driver from the point where parsing succeeded: collect and dedup the
referenced names, run pre-flight verification, abort with exit code 1 (and no
invocations) on failure, otherwise evaluate and map `true` to 0, `false` to 1.
Returns (exit code, invocation trace). -/
def driverAfterParse (dirExists : String → Bool) (calcHash : String → Option String)
    (registry : String → Option String) (invoke : Invoke) (tree : Node) : Nat × Trace :=
  let names := dedupFirst [] (collect_script_names_from_tree tree)
  if (preflight dirExists calcHash registry names).1 then
    let r := evalNode invoke tree
    (if r.1 then 0 else 1, r.2.1)
  else (1, [])

theorem preflight_false_of_mem (dirExists : String → Bool)
    (calcHash : String → Option String) (registry : String → Option String) :
    ∀ (l : List String), (∃ n ∈ l, checkName dirExists calcHash registry n = false) →
      (preflight dirExists calcHash registry l).1 = false := by
  intro l
  induction l with
  | nil => rintro ⟨n, hn, _⟩; simp at hn
  | cons x rest ih =>
      rintro ⟨n, hn, hc⟩
      unfold preflight
      rcases List.mem_cons.mp hn with h | h
      · subst h; simp [hc]
      · rcases hx : checkName dirExists calcHash registry x with _ | _
        · simp [hx]
        · simp [hx, ih ⟨n, h, hc⟩]

theorem mem_dedupFirst :
    ∀ (l : List String) (seen : List String) (n : String),
      n ∈ dedupFirst seen l ↔ n ∈ l ∧ n ∉ seen := by
  intro l
  induction l with
  | nil => intro seen n; simp [dedupFirst]
  | cons x rest ih =>
      intro seen n
      unfold dedupFirst
      by_cases hx : x ∈ seen
      · simp only [if_pos hx, ih]
        constructor
        · rintro ⟨h1, h2⟩; exact ⟨List.mem_cons_of_mem _ h1, h2⟩
        · rintro ⟨h1, h2⟩
          rcases List.mem_cons.mp h1 with h | h
          · subst h; exact absurd hx h2
          · exact ⟨h, h2⟩
      · simp only [if_neg hx, List.mem_cons, ih]
        constructor
        · rintro (h | ⟨h1, h2⟩)
          · subst h; exact ⟨Or.inl rfl, hx⟩
          · constructor
            · exact Or.inr h1
            · intro hc; exact h2 (by simp [hc])
        · rintro ⟨h1 | h1, h2⟩
          · exact Or.inl h1
          · by_cases hnx : n = x
            · exact Or.inl hnx
            · refine Or.inr ⟨h1, ?_⟩
              intro hc
              simp [List.mem_append] at hc
              rcases hc with hc | hc
              · exact h2 hc
              · exact hnx hc

/-- C1: if any distinct atom name referenced in the tree fails one of the three
pre-flight checks, the driver exits with code 1 and performs zero task
invocations; the pre-flight loop checks exactly the names before the first
failing one (no further names are checked); and a name absent from the
registry is itself a verification failure even when its directory exists. -/
theorem preflight_failfast :
    ∀ (dirExists : String → Bool) (calcHash : String → Option String)
      (registry : String → Option String) (invoke : Invoke) (tree : Node),
      ((∃ n ∈ collect_script_names_from_tree tree,
          checkName dirExists calcHash registry n = false) →
        driverAfterParse dirExists calcHash registry invoke tree = (1, [])) ∧
      (∀ (pre : List String) (n : String) (post : List String),
        (∀ m ∈ pre, checkName dirExists calcHash registry m = true) →
        checkName dirExists calcHash registry n = false →
        preflight dirExists calcHash registry (pre ++ n :: post) = (false, pre ++ [n])) ∧
      (∀ n, dirExists n = true → registry n = none →
        checkName dirExists calcHash registry n = false) := by
  intro dirExists calcHash registry invoke tree
  refine ⟨?_, ?_, ?_⟩
  · rintro ⟨n, hn, hc⟩
    have hmem : n ∈ dedupFirst [] (collect_script_names_from_tree tree) :=
      (mem_dedupFirst _ [] n).mpr ⟨hn, by simp⟩
    have hfail := preflight_false_of_mem dirExists calcHash registry _ ⟨n, hmem, hc⟩
    unfold driverAfterParse
    simp [hfail]
  · intro pre
    induction pre with
    | nil => intro n post _ hc; unfold preflight; simp [hc]
    | cons m rest ih =>
        intro n post hall hc
        have hm : checkName dirExists calcHash registry m = true := hall m (by simp)
        have hrest := ih n post (fun x hx => hall x (by simp [hx])) hc
        unfold preflight
        simp [hm, hrest]
  · intro n _ hr
    unfold checkName
    simp [hr]

/-- C1 witness: with a registry containing only `A` (whose fingerprint
matches) and `B` referenced but absent from the registry, the driver aborts
with exit code 1 and no invocation, after checking exactly `A` then `B`. -/
theorem preflight_failfast_witness :
    driverAfterParse (fun _ => true) (fun _ => some "h")
        (fun n => if n = "A" then some "h" else none) (fun _ _ => 0)
        (Node.andN true [Node.script "A" [] none, Node.script "B" [] none] none)
      = (1, []) ∧
    preflight (fun _ => true) (fun _ => some "h")
        (fun n => if n = "A" then some "h" else none) ["A", "B"]
      = (false, ["A", "B"]) := by
  constructor
  · exact (preflight_failfast (fun _ => true) (fun _ => some "h")
      (fun n => if n = "A" then some "h" else none) (fun _ _ => 0)
      (Node.andN true [Node.script "A" [] none, Node.script "B" [] none] none)).1
      ⟨"B", by simp [collect_script_names_from_tree, collectNamesList],
        by simp [checkName]⟩
  · exact (preflight_failfast (fun _ => true) (fun _ => some "h")
      (fun n => if n = "A" then some "h" else none) (fun _ _ => 0)
      (Node.andN true [] none)).2.1
      ["A"] "B" [] (by intro m hm; simp at hm; subst hm; simp [checkName])
      (by simp [checkName])

/-! ### `verify_directory_hash` (`directory_hash.py`) -/

/-- `verify_directory_hash` with the fingerprint computation abstracted as
`calcHash` (it returns `none` when the directory is missing or empty).
Returns the boolean verdict and the number of fingerprint computations
performed.  A falsy `expected_hash` (absent or empty) skips verification. -/
def verify_directory_hash (calcHash : String → Option String) (path : String)
    (expected : Option String) : Bool × Nat :=
  match expected with
  | none => (true, 0)
  | some e => if e = "" then (true, 0) else (calcHash path == some e, 1)

/-- C10: verification is silently skipped (result true, no fingerprint
computed) when the expected hash is absent or empty; otherwise exactly one
fingerprint is computed and the result is true iff it equals the expected
hash. -/
theorem verify_directory_hash_spec :
    ∀ (calcHash : String → Option String) (path : String),
      verify_directory_hash calcHash path none = (true, 0) ∧
      verify_directory_hash calcHash path (some "") = (true, 0) ∧
      ∀ e, e ≠ "" →
        verify_directory_hash calcHash path (some e) = (calcHash path == some e, 1) := by
  intro calcHash path
  refine ⟨rfl, by simp [verify_directory_hash], ?_⟩
  intro e he
  simp [verify_directory_hash, he]

/-- C10 witness at a concrete nonempty expected hash matching the computed
fingerprint. -/
theorem verify_directory_hash_spec_witness :
    verify_directory_hash (fun _ => some "ab") "d" (some "ab") = (true, 1) := by
  have h := (verify_directory_hash_spec (fun _ => some "ab") "d").2.2 "ab" (by decide)
  simpa using h

/-! ### Parser embedding: character utilities -/

/-- Character access `expr[i]` (all uses are guarded by bounds checks). -/
def charAt (e : List Char) (i : Nat) : Char := e.getD i ' '

/-- Python `str.strip()`: drop whitespace from both ends. -/
def pyStrip (l : List Char) : List Char :=
  ((l.dropWhile Char.isWhitespace).reverse.dropWhile Char.isWhitespace).reverse

/-- Length of the longest prefix satisfying `p`. -/
def countLeading (p : Char → Bool) : List Char → Nat
  | [] => 0
  | c :: rest => if p c then countLeading p rest + 1 else 0

/-- A Python loop `while pos < len(e) and p(e[pos]): pos += 1`. -/
def skipIdx (p : Char → Bool) (e : List Char) (i : Nat) : Nat :=
  i + countLeading p (e.drop i)

/-- First index (relative) at which `pat` occurs as a substring, if any. -/
def findPre (pat : List Char) : List Char → Option Nat
  | [] => if pat = [] then some 0 else none
  | c :: rest =>
      if pat.isPrefixOf (c :: rest) then some 0
      else (findPre pat rest).map (· + 1)

/-- Python `e.find(pat, start)`: absolute index of the first occurrence of
`pat` at or after `start`, or `-1`. -/
def pyFind (e : List Char) (pat : List Char) (start : Nat) : Int :=
  match findPre pat (e.drop start) with
  | none => -1
  | some j => ((start + j : Nat) : Int)

/-- Python slice `e[a:b]` where `b` may be negative (counted from the end,
as in `expr[pos:-1]` when `find` returned `-1`). -/
def pySlice (e : List Char) (a : Nat) (b : Int) : List Char :=
  (e.take (if b < 0 then ((e.length : Int) + b).toNat else b.toNat)).drop a

/-- The characters the parser's error recovery stops at (`"()[],&|"`). -/
def structuralChar (ch : Char) : Bool :=
  ch == '(' || ch == ')' || ch == '[' || ch == ']' ||
  ch == ',' || ch == '&' || ch == '|'

/-! ### Parser embedding: normalization (the `re.sub` passes) -/

/-- One `re.sub(r'\s*C\s*', r, s)` pass for a non-whitespace literal `C`:
leftmost-first replacement of each whitespace-padded occurrence of `c` by
`r`.  `skipping` means we are consuming the trailing whitespace of a match;
`pend` buffers whitespace that may yet become the leading part of a match
(emitted verbatim if no `c` follows). -/
def subA (c : Char) (r : List Char) : Bool → List Char → List Char → List Char
  | _, pend, [] => pend
  | true, _, x :: rest =>
      if x.isWhitespace then subA c r true [] rest
      else if x == c then r ++ subA c r true [] rest
      else x :: subA c r false [] rest
  | false, pend, x :: rest =>
      if x == c then r ++ subA c r true [] rest
      else if x.isWhitespace then subA c r false (pend ++ [x]) rest
      else pend ++ x :: subA c r false [] rest

/-- One `re.sub(r'\s+', ' ', s)` pass: collapse every whitespace run to one
space. -/
def collapseRun : Bool → List Char → List Char
  | _, [] => []
  | inRun, x :: rest =>
      if x.isWhitespace then
        if inRun then collapseRun true rest else ' ' :: collapseRun true rest
      else x :: collapseRun false rest

/-- The normalization block of `parse_logical_expression`: space out
`[`, `]`, `(`, `)`, put `, ` after commas, collapse whitespace runs, strip. -/
def normalizeExpr (s : List Char) : List Char :=
  let s1 := subA '[' [' ', '[', ' '] false [] s
  let s2 := subA ']' [' ', ']', ' '] false [] s1
  let s3 := subA '(' [' ', '(', ' '] false [] s2
  let s4 := subA ')' [' ', ')', ' '] false [] s3
  let s5 := subA ',' [',', ' '] false [] s4
  pyStrip (collapseRun false s5)

example : normalizeExpr "&&[(A),(B:x , y)]".toList
    = "&& [ ( A ), ( B:x, y ) ]".toList := by decide

/-! ### Parser embedding: `validate_expression_format` -/

/-- The per-operator scan loop of `validate_expression_format`: every
occurrence of `op` (a lone `&`/`|` pairs up with a following duplicate and is
skipped) must be followed, after optional whitespace, by `[`.  The Python
loop's cursor strictly increases, so fuel `e.length + 2` always suffices. -/
def validateOpsF (e : List Char) (op : List Char) : Nat → Nat → Bool
  | 0, _ => false
  | fuel+1, i =>
      match pyFind e op i with
      | Int.negSucc _ => true
      | Int.ofNat j =>
          if op.length == 1 && decide (j+1 < e.length) &&
              (charAt e (j+1) == charAt e j) then
            validateOpsF e op fuel (j+1)
          else
            let k := skipIdx Char.isWhitespace e (j + op.length)
            if k ≥ e.length ∨ charAt e k ≠ '[' then false
            else validateOpsF e op fuel (j + op.length)

/-- `validate_expression_format`: balanced bracket/parenthesis counts and the
four operator-adjacency scans. -/
def validate_expression_format (s : List Char) : Bool :=
  (s.count '[' == s.count ']') &&
  (s.count '(' == s.count ')') &&
  validateOpsF s ['&', '&'] (s.length + 2) 0 &&
  validateOpsF s ['|', '|'] (s.length + 2) 0 &&
  validateOpsF s ['&'] (s.length + 2) 0 &&
  validateOpsF s ['|'] (s.length + 2) 0

example : validate_expression_format "&& [ (A), (B) ]".toList = true := by decide
example : validate_expression_format "&& (A)".toList = false := by decide
example : validate_expression_format "&& [ ) ( ]".toList = true := by decide

/-! ### Parser embedding: `_parse_script_node` -/

/-- Final processing of one collected argument: strip whitespace, then strip
one pair of surrounding double quotes if present. -/
def parseArgFinish (current : List Char) : String :=
  if (pyStrip current).length ≥ 2 && (charAt (pyStrip current) 0 == '"') &&
      ((pyStrip current).getLastD ' ' == '"') then
    String.mk (((pyStrip current).drop 1).dropLast)
  else String.mk (pyStrip current)

/-- The argument-scanning loop of `_parse_script_node`: backslash escapes the
next character (anywhere, tracked by an explicit escape flag; a trailing
backslash is a plain character), double quotes toggle `in_quotes` and are
kept for now, commas outside quotes close the current argument, and a final
nonempty buffer yields a last argument. -/
def parseArgsLoopE : Bool → List Char → List Char → Bool → List String → List String
  | _, [], current, _, args =>
      if current.isEmpty then args else args ++ [parseArgFinish current]
  | true, ch :: rest, current, inq, args =>
      parseArgsLoopE false rest (current ++ [ch]) inq args
  | false, ch :: rest, current, inq, args =>
      if ch == '\\' && !rest.isEmpty then parseArgsLoopE true rest current inq args
      else if ch == '"' then parseArgsLoopE false rest (current ++ ['"']) (!inq) args
      else if ch == ',' && !inq then
        parseArgsLoopE false rest [] inq (args ++ [parseArgFinish current])
      else parseArgsLoopE false rest (current ++ [ch]) inq args

/-- The argument-scanning loop, from its initial state (the escape flag says
the previous character was a backslash consuming this one literally). -/
def parseArgsLoop (s current : List Char) (inq : Bool) (args : List String) :
    List String :=
  parseArgsLoopE false s current inq args

/-- `_parse_script_node`: parse `(Name)` or `(Name:arg1,arg2)` starting at the
opening parenthesis; `find` results of `-1` flow through Python's negative
slice/position arithmetic exactly as in the source. -/
def parseScriptNode (e : List Char) (pos0 : Nat) : Option Node × Nat :=
  if pyFind e [':'] (pos0 + 1) ≠ -1 ∧
      pyFind e [':'] (pos0 + 1) < pyFind e [')'] (pos0 + 1) then
    (some (Node.script
        (String.mk (pyStrip (pySlice e (pos0 + 1)
          ((pyFind e [':'] (pos0 + 1)).toNat : Int))))
        (if (pyStrip (pySlice e ((pyFind e [':'] (pos0 + 1)).toNat + 1)
              ((pyFind e [')'] (pos0 + 1)).toNat : Int))).isEmpty then []
         else parseArgsLoop (pyStrip (pySlice e ((pyFind e [':'] (pos0 + 1)).toNat + 1)
              ((pyFind e [')'] (pos0 + 1)).toNat : Int))) [] false [])
        none),
     (pyFind e [')'] (pos0 + 1)).toNat + 1)
  else
    (some (Node.script
        (String.mk (pyStrip (pySlice e (pos0 + 1) (pyFind e [')'] (pos0 + 1)))))
        [] none),
     (pyFind e [')'] (pos0 + 1) + 1).toNat)

example : parseScriptNode "( A:x, y )".toList 0
    = (some (Node.script "A" ["x", "y"] none), 10) := rfl
example : parseArgsLoop "\"x,y\",z".toList [] false [] = ["x,y", "z"] := by decide

/-! ### Parser embedding: `_parse_expression` / `_parse_operator_children`

The Python recursion has no global termination measure (the child loop can
fail to advance, see the claim about parser totality), so the embedding
carries explicit fuel; `none` means the recursion did not finish within the
given fuel. -/

mutual

/-- `_parse_expression(expr, pos)`: returns the parsed node (possibly Python
`None`) and the new position. -/
def parseExprF : Nat → List Char → Nat → Option (Option Node × Nat)
  | 0, _, _ => none
  | fuel+1, e, pos0 =>
      let pos := skipIdx Char.isWhitespace e pos0
      if pos ≥ e.length then some (none, pos)
      else if charAt e pos == '!' then
        let pos1 := skipIdx Char.isWhitespace e (pos+1)
        if pos1 < e.length then
          match parseExprF fuel e pos1 with
          | none => none
          | some (child, pos2) => some (some (Node.notN child none), pos2)
        else some (some (Node.notN none none), pos1)
      else if decide (pos+1 < e.length) && charAt e pos == '&' &&
          charAt e (pos+1) == '&' then
        match parseChildrenF fuel e (pos+2) with
        | none => none
        | some (cs, p) => some (some (Node.andN true cs none), p)
      else if decide (pos+1 < e.length) && charAt e pos == '|' &&
          charAt e (pos+1) == '|' then
        match parseChildrenF fuel e (pos+2) with
        | none => none
        | some (cs, p) => some (some (Node.orN true cs none), p)
      else if charAt e pos == '&' &&
          (decide (pos+1 ≥ e.length) || charAt e (pos+1) != '&') then
        match parseChildrenF fuel e (pos+1) with
        | none => none
        | some (cs, p) => some (some (Node.andN false cs none), p)
      else if charAt e pos == '|' &&
          (decide (pos+1 ≥ e.length) || charAt e (pos+1) != '|') then
        match parseChildrenF fuel e (pos+1) with
        | none => none
        | some (cs, p) => some (some (Node.orN false cs none), p)
      else if charAt e pos == '(' then
        some (parseScriptNode e pos)
      else
        some (none, skipIdx (fun ch => !(structuralChar ch)) e pos)

/-- The `while pos < len(expr) and expr[pos] != "]"` child loop of
`_parse_operator_children`; `acc` is the children accumulated so far. -/
def childLoopF : Nat → List Char → Nat → List Node → Option (List Node × Nat)
  | 0, _, _, _ => none
  | fuel+1, e, pos, acc =>
      if decide (pos < e.length) && charAt e pos != ']' then
        let pos1 := skipIdx (fun ch => ch.isWhitespace || ch == ',') e pos
        if decide (pos1 < e.length) && charAt e pos1 != ']' then
          match parseExprF fuel e pos1 with
          | none => none
          | some (some c, pos2) => childLoopF fuel e pos2 (acc ++ [c])
          | some (none, pos2) => childLoopF fuel e pos2 acc
        else some (acc, pos1)
      else some (acc, pos)

/-- `_parse_operator_children(expr, pos, node)`: expect `[`, run the child
loop, then skip the closing `]` if present. -/
def parseChildrenF : Nat → List Char → Nat → Option (List Node × Nat)
  | 0, _, _ => none
  | fuel+1, e, pos =>
      let pos1 := skipIdx Char.isWhitespace e pos
      if decide (pos1 < e.length) && charAt e pos1 == '[' then
        match childLoopF fuel e (pos1+1) [] with
        | none => none
        | some (cs, pos2) =>
            if decide (pos2 < e.length) && charAt e pos2 == ']' then some (cs, pos2+1)
            else some (cs, pos2)
      else some ([], pos1)

end

/-- `parse_logical_expression`: format pre-check (a failure yields Python
`None`, i.e. `some none`), normalization, then the recursive-descent parse.
The outer `none` means the Python code would not terminate within `fuel`. -/
def parse_logical_expression (fuel : Nat) (s : List Char) : Option (Option Node) :=
  if !validate_expression_format s then some none
  else
    let e := normalizeExpr s
    match parseExprF fuel e 0 with
    | none => none
    | some (node, _) => some node

example : parse_logical_expression 50 "|| [ && [ (A:hello,world), (B) ], !(C) ]".toList
    = some (some (Node.orN true
        [Node.andN true
          [Node.script "A" ["hello", "world"] none, Node.script "B" [] none] none,
         Node.notN (some (Node.script "C" [] none)) none] none)) := rfl

example : parse_logical_expression 50 "& [ (A), | [ (B), (C) ] ]".toList
    = some (some (Node.andN false
        [Node.script "A" [] none,
         Node.orN false
          [Node.script "B" [] none, Node.script "C" [] none] none] none)) := rfl

example : parse_logical_expression 50 "(A:\"x,y\",z)".toList
    = some (some (Node.script "A" ["x, y", "z"] none)) := rfl

example : parse_logical_expression 50 "&& (A)".toList = some none := rfl

/-! ### C7: the parser is not total -/

theorem childLoop_stuck_aux :
    ∀ (g : Nat) (acc : List Node),
      childLoopF g ("&& [ ) ( ]".toList) 5 acc = none := by
  intro g
  induction g with
  | zero => intro acc; rfl
  | succ h ih =>
      intro acc
      cases h with
      | zero => rfl
      | succ k => exact ih acc

theorem childLoop_stuck_start :
    ∀ (g : Nat) (acc : List Node),
      childLoopF g ("&& [ ) ( ]".toList) 4 acc = none := by
  intro g acc
  cases g with
  | zero => rfl
  | succ h =>
      cases h with
      | zero => rfl
      | succ k => exact childLoop_stuck_aux (k+1) acc

/-- C7 (refuting totality): on the input `&& [ ) ( ]` - which passes the
format pre-check, its brackets and parentheses being balanced - the
child-parsing loop of `_parse_operator_children` never advances past the
stray `)` (the recovery scan of `_parse_expression` stops at structural
characters without consuming them), so the parse does not terminate for any
amount of fuel. -/
theorem parse_nontermination :
    ∀ (fuel : Nat),
      parse_logical_expression fuel ("&& [ ) ( ]".toList) = none := by
  intro fuel
  have hv : validate_expression_format ("&& [ ) ( ]".toList) = true := by decide
  have hn : normalizeExpr ("&& [ ) ( ]".toList) = "&& [ ) ( ]".toList := by decide
  unfold parse_logical_expression
  rw [hv, hn]
  simp only [Bool.not_true, Bool.false_eq_true, if_false]
  cases fuel with
  | zero => rfl
  | succ f =>
      cases f with
      | zero => rfl
      | succ g =>
          have h5 : parseChildrenF (g+1) ("&& [ ) ( ]".toList) 2 = none := by
            have hstep : parseChildrenF (g+1) ("&& [ ) ( ]".toList) 2
                = (match childLoopF g ("&& [ ) ( ]".toList) 4 [] with
                   | none => none
                   | some (cs, pos2) =>
                       if decide (pos2 < ("&& [ ) ( ]".toList).length) &&
                           (charAt ("&& [ ) ( ]".toList) pos2 == ']') then
                         some (cs, pos2+1)
                       else some (cs, pos2)) := rfl
            rw [hstep, childLoop_stuck_start g []]
          have h6 : parseExprF (g+2) ("&& [ ) ( ]".toList) 0 = none := by
            have hstep : parseExprF (g+2) ("&& [ ) ( ]".toList) 0
                = (match parseChildrenF (g+1) ("&& [ ) ( ]".toList) 2 with
                   | none => none
                   | some (cs, p) => some (some (Node.andN true cs none), p)) := rfl
            rw [hstep, h5]
          rw [h6]

/-! ### C5: driver exit codes -/

/-- `main` from the point where the command line was accepted: parse the
expression; a parse failure exits with code 1 (and no evaluation); then run
pre-flight verification and evaluation via `driverAfterParse`.  The outer
`none` again means the parse did not terminate within `fuel`. -/
def mainRun (fuel : Nat) (dirExists : String → Bool) (calcHash : String → Option String)
    (registry : String → Option String) (invoke : Invoke) (exprStr : List Char) :
    Option (Nat × Trace) :=
  match parse_logical_expression fuel exprStr with
  | none => none
  | some none => some (1, [])
  | some (some tree) =>
      some (driverAfterParse dirExists calcHash registry invoke tree)

/-- C5: a parse failure exits with code 1 without evaluating (empty trace);
a pre-flight failure exits with code 1 without evaluating; otherwise the
tree's boolean result maps to the exit code as true to 0 and false to 1. -/
theorem driver_exit_codes :
    ∀ (fuel : Nat) (dirExists : String → Bool) (calcHash : String → Option String)
      (registry : String → Option String) (invoke : Invoke) (exprStr : List Char),
      (parse_logical_expression fuel exprStr = some none →
        mainRun fuel dirExists calcHash registry invoke exprStr = some (1, [])) ∧
      (∀ tree, parse_logical_expression fuel exprStr = some (some tree) →
        (preflight dirExists calcHash registry
            (dedupFirst [] (collect_script_names_from_tree tree))).1 = false →
        mainRun fuel dirExists calcHash registry invoke exprStr = some (1, [])) ∧
      (∀ tree, parse_logical_expression fuel exprStr = some (some tree) →
        (preflight dirExists calcHash registry
            (dedupFirst [] (collect_script_names_from_tree tree))).1 = true →
        mainRun fuel dirExists calcHash registry invoke exprStr
          = some (if evalB invoke tree then 0 else 1, evalT invoke tree)) := by
  intro fuel dirExists calcHash registry invoke exprStr
  refine ⟨?_, ?_, ?_⟩
  · intro hp; simp [mainRun, hp]
  · intro tree hp hpre
    simp [mainRun, hp, driverAfterParse, hpre]
  · intro tree hp hpre
    simp [mainRun, hp, driverAfterParse, hpre, evalB, evalT]

/-- C5 witness: the three branches at concrete inputs - a format error
(`&& (A)`), a missing registry entry, and a successful run of `(A)`. -/
theorem driver_exit_codes_witness :
    mainRun 10 (fun _ => true) (fun _ => some "h") (fun _ => some "h")
        (fun _ _ => 0) ("&& (A)".toList) = some (1, []) ∧
    mainRun 10 (fun _ => true) (fun _ => some "h") (fun _ => none)
        (fun _ _ => 0) ("(A)".toList) = some (1, []) ∧
    mainRun 10 (fun _ => true) (fun _ => some "h") (fun _ => some "h")
        (fun _ _ => 0) ("(A)".toList) = some (0, [("A", [])]) := by
  refine ⟨?_, ?_, ?_⟩
  · exact (driver_exit_codes 10 _ _ _ _ _).1 rfl
  · exact (driver_exit_codes 10 _ _ _ _ _).2.1 (Node.script "A" [] none) rfl rfl
  · have h := (driver_exit_codes 10 (fun _ => true) (fun _ => some "h")
      (fun _ => some "h") (fun _ _ => 0) ("(A)".toList)).2.2
      (Node.script "A" [] none) rfl rfl
    rw [h]
    simp [evalB, evalT, evalNode]

/-! ### C8: quoted-argument parsing -/

theorem parseArgsLoop_escape (c : Char) (rest current : List Char) (inq : Bool)
    (args : List String) :
    parseArgsLoop ('\\' :: c :: rest) current inq args
      = parseArgsLoop rest (current ++ [c]) inq args := by
  rfl

theorem parseArgsLoop_quote (rest current : List Char) (inq : Bool)
    (args : List String) :
    parseArgsLoop ('"' :: rest) current inq args
      = parseArgsLoop rest (current ++ ['"']) (!inq) args := by
  rfl

theorem parseArgsLoop_comma (rest current : List Char) (args : List String) :
    parseArgsLoop (',' :: rest) current false args
      = parseArgsLoop rest [] false (args ++ [parseArgFinish current]) := by
  rfl

theorem parseArgsLoop_plain (ch : Char) (rest current : List Char) (inq : Bool)
    (args : List String) (h1 : ch ≠ '\\') (h2 : ch ≠ '"')
    (h3 : ¬(ch = ',' ∧ inq = false)) :
    parseArgsLoop (ch :: rest) current inq args
      = parseArgsLoop rest (current ++ [ch]) inq args := by
  have g1 : (ch == '\\') = false := by simp [h1]
  have g2 : (ch == '"') = false := by simp [h2]
  have g3 : (ch == ',' && !inq) = false := by
    rcases inq with _ | _
    · have hne : ch ≠ ',' := fun hc => h3 ⟨hc, rfl⟩
      simp [hne]
    · simp
  show parseArgsLoopE false (ch :: rest) current inq args = _
  conv_lhs => unfold parseArgsLoopE
  simp [g1, g2, g3]
  rfl

theorem pyStrip_quote_wrap (inner : List Char) :
    pyStrip ('"' :: inner ++ ['"']) = '"' :: inner ++ ['"'] := by
  unfold pyStrip
  have hq : ('"' : Char).isWhitespace = false := by decide
  have h1 : (('"' :: inner ++ ['"']).dropWhile Char.isWhitespace)
      = '"' :: inner ++ ['"'] := by
    rw [show ('"' :: inner ++ ['"']) = '"' :: (inner ++ ['"']) from rfl,
      List.dropWhile_cons]
    simp [hq]
  rw [h1]
  have h2 : ('"' :: inner ++ ['"']).reverse = '"' :: (inner.reverse ++ ['"']) := by
    simp
  rw [h2, List.dropWhile_cons]
  simp [hq]

theorem parseArgFinish_quoted (inner : List Char) :
    parseArgFinish ('"' :: inner ++ ['"']) = String.mk inner := by
  unfold parseArgFinish
  rw [pyStrip_quote_wrap]
  have hlen : ('"' :: inner ++ ['"']).length = inner.length + 2 := by simp
  have hfst : charAt ('"' :: inner ++ ['"']) 0 = '"' := rfl
  have hlast : ('"' :: inner ++ ['"']).getLastD ' ' = '"' := by
    rw [List.getLastD_eq_getLast?, List.getLast?_concat]
    rfl
  rw [hlen, hfst, hlast]
  simp

theorem parseArgs_quoted_scan :
    ∀ (inner current : List Char) (args : List String) (rest : List Char),
      (∀ ch ∈ inner, ch ≠ '"' ∧ ch ≠ '\\') →
      parseArgsLoop (inner ++ '"' :: ',' :: rest) current true args
        = parseArgsLoop rest [] false
            (args ++ [parseArgFinish (current ++ inner ++ ['"'])]) := by
  intro inner
  induction inner with
  | nil =>
      intro current args rest _
      simp only [List.nil_append, List.append_nil]
      rw [parseArgsLoop_quote]
      simp only [Bool.not_true]
      rw [parseArgsLoop_comma]
  | cons ch inner ih =>
      intro current args rest hch
      have h1 : ch ≠ '"' := (hch ch (by simp)).1
      have h2 : ch ≠ '\\' := (hch ch (by simp)).2
      rw [List.cons_append, parseArgsLoop_plain ch _ _ _ _ h2 h1 (by simp),
        ih (current ++ [ch]) args rest (fun x hx => hch x (by simp [hx]))]
      simp

theorem parseArgs_quoted_scan_end :
    ∀ (inner current : List Char) (args : List String),
      (∀ ch ∈ inner, ch ≠ '"' ∧ ch ≠ '\\') →
      parseArgsLoop (inner ++ ['"']) current true args
        = args ++ [parseArgFinish (current ++ inner ++ ['"'])] := by
  intro inner
  induction inner with
  | nil =>
      intro current args _
      simp only [List.nil_append, List.append_nil]
      rw [parseArgsLoop_quote]
      show parseArgsLoopE false [] (current ++ ['"']) false args = _
      unfold parseArgsLoopE
      simp
  | cons ch inner ih =>
      intro current args hch
      have h1 : ch ≠ '"' := (hch ch (by simp)).1
      have h2 : ch ≠ '\\' := (hch ch (by simp)).2
      rw [List.cons_append, parseArgsLoop_plain ch _ _ _ _ h2 h1 (by simp),
        ih (current ++ [ch]) args (fun x hx => hch x (by simp [hx]))]
      simp

/-- C8: a double-quoted token forms one argument with its surrounding quotes
stripped; commas inside the quotes (`inner` may contain commas) are literal
rather than separators; a backslash escapes the following character
literally; and the argument string `"x,y",z` parses to exactly the two
arguments `x,y` and `z`. -/
theorem quoted_argument_parsing :
    ∀ (inner rest : List Char) (args : List String),
      (∀ ch ∈ inner, ch ≠ '"' ∧ ch ≠ '\\') →
      (parseArgsLoop ('"' :: inner ++ '"' :: ',' :: rest) [] false args
        = parseArgsLoop rest [] false (args ++ [String.mk inner])) ∧
      (parseArgsLoop ('"' :: inner ++ ['"']) [] false args
        = args ++ [String.mk inner]) ∧
      (∀ (c : Char) (rest2 current : List Char) (inq : Bool) (args2 : List String),
        parseArgsLoop ('\\' :: c :: rest2) current inq args2
          = parseArgsLoop rest2 (current ++ [c]) inq args2) ∧
      parseArgsLoop ("\"x,y\",z".toList) [] false [] = ["x,y", "z"] := by
  intro inner rest args hch
  refine ⟨?_, ?_, ?_, rfl⟩
  · rw [show ('"' :: inner ++ '"' :: ',' :: rest)
        = '"' :: (inner ++ '"' :: ',' :: rest) from by simp]
    rw [parseArgsLoop_quote]
    simp only [Bool.not_false, List.nil_append]
    rw [parseArgs_quoted_scan inner ['"'] args rest hch]
    rw [show (['"'] ++ inner ++ ['"']) = ('"' :: inner ++ ['"']) from by simp]
    rw [parseArgFinish_quoted]
  · rw [show ('"' :: inner ++ ['"']) = '"' :: (inner ++ ['"']) from by simp]
    rw [parseArgsLoop_quote]
    simp only [Bool.not_false, List.nil_append]
    rw [parseArgs_quoted_scan_end inner ['"'] args hch]
    rw [show (['"'] ++ inner ++ ['"']) = ('"' :: inner ++ ['"']) from by simp]
    rw [parseArgFinish_quoted]
  · intro c rest2 current inq args2
    exact parseArgsLoop_escape c rest2 current inq args2

/-- C8 witness: the quoted token `"x,y"` followed by `,z` yields exactly the
two arguments `x,y` and `z`. -/
theorem quoted_argument_parsing_witness :
    parseArgsLoop ('"' :: "x,y".toList ++ '"' :: ',' :: "z".toList) [] false []
      = ["x,y", "z"] := by
  have h := (quoted_argument_parsing ("x,y".toList) ("z".toList) [] (by decide)).1
  rw [h]
  rfl

/-! ### C6: serialization (`__str__`) and the canonical form -/

/-- `','.join(args)` as a character list. -/
def strArgs : List String → List Char
  | [] => []
  | a :: rest => a.toList ++ (if rest = [] then [] else ',' :: strArgs rest)

mutual

/-- `str(node)`: `(name)` / `(name:a1,a2)` for atoms, `!child` for Not
(`str(None)` is `None` for a childless Not), and `op [ c1, c2 ]` for the
operator nodes. -/
def strNode : Node → List Char
  | Node.script n args _ =>
      if args = [] then '(' :: n.toList ++ [')']
      else '(' :: n.toList ++ ':' :: strArgs args ++ [')']
  | Node.notN c _ => '!' :: strOptChild c
  | Node.andN cb cs _ =>
      (if cb then ['&', '&'] else ['&']) ++ ' ' :: '[' :: ' ' :: strChildren cs
        ++ [' ', ']']
  | Node.orN cb cs _ =>
      (if cb then ['|', '|'] else ['|']) ++ ' ' :: '[' :: ' ' :: strChildren cs
        ++ [' ', ']']

/-- `str` of an optional child (Python prints `None` for a missing one). -/
def strOptChild : Option Node → List Char
  | none => ['N', 'o', 'n', 'e']
  | some c => strNode c

/-- `", ".join(str(child) for child in children)`. -/
def strChildren : List Node → List Char
  | [] => []
  | c :: rest =>
      strNode c ++ (if rest.isEmpty then [] else ',' :: ' ' :: strChildren rest)

end

/-- A well-formed token: nonempty and alphanumeric (the grammar's
identifiers). -/
def goodTok (s : String) : Bool := !s.toList.isEmpty && s.toList.all Char.isAlphanum

mutual

/-- The well-formed trees for the amended round-trip claim: atom names and
arguments are nonempty alphanumeric tokens and no result cache is set (as
holds for every parser-produced tree).  A childless `Not` is allowed. -/
def wfNode : Node → Bool
  | Node.script n args cache => goodTok n && args.all goodTok && cache.isNone
  | Node.notN none cache => cache.isNone
  | Node.notN (some c) cache => wfNode c && cache.isNone
  | Node.andN _ cs cache => wfChildren cs && cache.isNone
  | Node.orN _ cs cache => wfChildren cs && cache.isNone

/-- All children well-formed. -/
def wfChildren : List Node → Bool
  | [] => true
  | c :: rest => wfNode c && wfChildren rest

end

/-- Whether a node is an atom (its serialization starts with `(`). -/
def isScript : Node → Bool
  | Node.script _ _ _ => true
  | _ => false

/-- Whether the rightmost leaf of the serialized text is a childless `Not`
(whose `None` text is consumed by the recovery scan, which also eats any
following non-structural characters). -/
def endsNoneNot : Node → Bool
  | Node.notN none _ => true
  | Node.notN (some c) _ => endsNoneNot c
  | _ => false

/-- Arguments in normalized canonical form: `a1, a2, a3`. -/
def canonArgs : List String → List Char
  | [] => []
  | a :: rest => a.toList ++ (if rest = [] then [] else ',' :: ' ' :: canonArgs rest)

mutual

/-- The normalized form of a serialized well-formed tree
(`normalizeExpr (strNode t)`), defined structurally: `( A )`, `( A:x, y )`,
`!None`, `!` before a child (with a space if the child is an atom), and
`op [ c1, c2 ]` / `op [ ]`. -/
def canonNode : Node → List Char
  | Node.script n args _ =>
      if args = [] then '(' :: ' ' :: n.toList ++ [' ', ')']
      else '(' :: ' ' :: n.toList ++ ':' :: canonArgs args ++ [' ', ')']
  | Node.notN none _ => ['!', 'N', 'o', 'n', 'e']
  | Node.notN (some c) _ =>
      '!' :: (if isScript c then ' ' :: canonNode c else canonNode c)
  | Node.andN cb cs _ =>
      (if cb then ['&', '&'] else ['&']) ++ ' ' :: '[' :: canonChildren cs
        ++ [' ', ']']
  | Node.orN cb cs _ =>
      (if cb then ['|', '|'] else ['|']) ++ ' ' :: '[' :: canonChildren cs
        ++ [' ', ']']

/-- Canonical children: ` c1, c2` (empty for no children; the closing ` ]`
is added by the parent). -/
def canonChildren : List Node → List Char
  | [] => []
  | c :: rest =>
      ' ' :: canonNode c ++ (if rest.isEmpty then [] else ',' :: canonChildren rest)

end

mutual

/-- Sufficient parser fuel for a canonical tree. -/
def nodeFuel : Node → Nat
  | Node.script _ _ _ => 1
  | Node.notN none _ => 2
  | Node.notN (some c) _ => nodeFuel c + 1
  | Node.andN _ cs _ => childrenFuel cs + 2
  | Node.orN _ cs _ => childrenFuel cs + 2

/-- Sufficient child-loop fuel for a canonical child list. -/
def childrenFuel : List Node → Nat
  | [] => 1
  | c :: rest => nodeFuel c + childrenFuel rest + 1

end

/-- Position slack after parsing a canonical tree: a trailing childless `Not`
consumes the following non-structural characters of the suffix. -/
def extraOf (t : Node) (post : List Char) : Nat :=
  if endsNoneNot t then countLeading (fun ch => !(structuralChar ch)) post else 0

example :
    strNode (Node.orN true
      [Node.andN true [Node.script "A" ["x", "y"] none] none,
       Node.notN (some (Node.script "C" [] none)) none] none)
      = "|| [ && [ (A:x,y) ], !(C) ]".toList := by
  simp [strNode, strChildren, strArgs, strOptChild]

example :
    canonNode (Node.orN true
      [Node.andN true [Node.script "A" ["x", "y"] none] none,
       Node.notN (some (Node.script "C" [] none)) none] none)
      = "|| [ && [ ( A:x, y ) ], ! ( C ) ]".toList := by
  simp [canonNode, canonChildren, canonArgs, isScript]

example :
    normalizeExpr "|| [ && [ (A:x,y) ], !(C) ]".toList
      = "|| [ && [ ( A:x, y ) ], ! ( C ) ]".toList := by decide

/-! ### C6 toolkit: character classes, suffix access, scanning -/

theorem alphanum_ne {c d : Char} (h : c.isAlphanum = true)
    (hd : d.isAlphanum = false) : c ≠ d := by
  intro he
  rw [he, hd] at h
  exact Bool.false_ne_true h

theorem alphanum_not_ws {c : Char} (h : c.isAlphanum = true) :
    c.isWhitespace = false := by
  rcases hb : c.isWhitespace with _ | _
  · rfl
  · exfalso
    simp only [Char.isWhitespace, Bool.or_eq_true, decide_eq_true_eq] at hb
    have hcases : c = ' ' ∨ c = '\t' ∨ c = '\r' ∨ c = '\n' := by tauto
    rcases hcases with h1 | h1 | h1 | h1 <;> subst h1 <;>
      exact absurd h (by decide)

theorem alphanum_not_structural {c : Char} (h : c.isAlphanum = true) :
    structuralChar c = false := by
  unfold structuralChar
  have h1 := alphanum_ne h (show ('(').isAlphanum = false by decide)
  have h2 := alphanum_ne h (show (')').isAlphanum = false by decide)
  have h3 := alphanum_ne h (show ('[').isAlphanum = false by decide)
  have h4 := alphanum_ne h (show (']').isAlphanum = false by decide)
  have h5 := alphanum_ne h (show (',').isAlphanum = false by decide)
  have h6 := alphanum_ne h (show ('&').isAlphanum = false by decide)
  have h7 := alphanum_ne h (show ('|').isAlphanum = false by decide)
  simp [h1, h2, h3, h4, h5, h6, h7]

theorem charAt_drop (e : List Char) (pos k : Nat) :
    charAt e (pos + k) = charAt (e.drop pos) k := by
  unfold charAt
  rw [List.getD_eq_getElem?_getD, List.getD_eq_getElem?_getD, List.getElem?_drop]

theorem drop_pos_add (e : List Char) (pos k : Nat) :
    e.drop (pos + k) = (e.drop pos).drop k := by
  rw [List.drop_drop, Nat.add_comm]

theorem length_of_drop_eq {e u : List Char} {pos : Nat} (h : e.drop pos = u)
    (hne : u ≠ []) : pos + u.length = e.length := by
  have h1 : (e.drop pos).length = e.length - pos := List.length_drop pos e
  rw [h] at h1
  have h2 : pos ≤ e.length := by
    by_contra hc
    rw [List.drop_eq_nil_of_le (by omega)] at h
    exact hne h.symm
  omega

theorem countLeading_append_all {p : Char → Bool} {x : List Char}
    (hx : x.all p = true) (y : List Char) :
    countLeading p (x ++ y) = x.length + countLeading p y := by
  induction x with
  | nil => simp [countLeading]
  | cons c rest ih =>
      simp only [List.all_cons, Bool.and_eq_true] at hx
      simp [countLeading, hx.1, ih hx.2]
      omega

theorem countLeading_cons_neg {p : Char → Bool} {c : Char} (h : p c = false)
    (rest : List Char) : countLeading p (c :: rest) = 0 := by
  simp [countLeading, h]

theorem skipIdx_of_drop {e u : List Char} {pos : Nat} (p : Char → Bool)
    (h : e.drop pos = u) (k : Nat) :
    skipIdx p e (pos + k) = pos + k + countLeading p (u.drop k) := by
  unfold skipIdx
  rw [drop_pos_add, h]

theorem findPre_single_not_mem {c : Char} {x : List Char} (hx : ∀ a ∈ x, a ≠ c)
    (y : List Char) :
    findPre [c] (x ++ y) = (findPre [c] y).map (· + x.length) := by
  induction x with
  | nil =>
      simp only [List.nil_append, List.length_nil]
      cases h : findPre [c] y <;> simp [h]
  | cons a rest ih =>
      have ha : a ≠ c := hx a (by simp)
      have hpre : ([c].isPrefixOf (a :: (rest ++ y))) = false := by
        simp [List.isPrefixOf, Ne.symm ha]
      show (if [c].isPrefixOf (a :: (rest ++ y)) = true then some 0
            else (findPre [c] (rest ++ y)).map (· + 1)) = _
      rw [hpre]
      simp only [Bool.false_eq_true, if_false]
      rw [ih (fun b hb => hx b (by simp [hb]))]
      cases findPre [c] y with
      | none => rfl
      | some v =>
          simp only [Option.map_some', List.length_cons]
          exact congrArg some (by omega)

theorem findPre_single_self (c : Char) (rest : List Char) :
    findPre [c] (c :: rest) = some 0 := by
  simp [findPre, List.isPrefixOf]

theorem string_mk_toList (s : String) : String.mk s.toList = s := rfl

theorem pyStrip_cons_space (l : List Char) : pyStrip (' ' :: l) = pyStrip l := by
  unfold pyStrip
  rw [List.dropWhile_cons]
  simp

theorem dropWhile_eq_self_of_head {p : Char → Bool} {l : List Char}
    (h : ∀ c, l.head? = some c → p c = false) : l.dropWhile p = l := by
  cases l with
  | nil => rfl
  | cons a rest =>
      rw [List.dropWhile_cons, h a rfl]
      simp

theorem pyStrip_self {x : List Char}
    (hh : ∀ c, x.head? = some c → c.isWhitespace = false)
    (hl : ∀ c, x.getLast? = some c → c.isWhitespace = false) :
    pyStrip x = x := by
  unfold pyStrip
  rw [dropWhile_eq_self_of_head hh]
  rw [dropWhile_eq_self_of_head (fun c hc => hl c (by rwa [List.head?_reverse] at hc))]
  exact List.reverse_reverse x

theorem pyStrip_trailing {x : List Char} (hne : x ≠ [])
    (hh : ∀ c, x.head? = some c → c.isWhitespace = false)
    (hl : ∀ c, x.getLast? = some c → c.isWhitespace = false) :
    pyStrip (x ++ [' ']) = x := by
  unfold pyStrip
  have h1 : (x ++ [' ']).dropWhile Char.isWhitespace = x ++ [' '] := by
    apply dropWhile_eq_self_of_head
    intro c hc
    rcases x with _ | ⟨a, rest⟩
    · exact absurd rfl hne
    · simp at hc
      exact hc ▸ hh a rfl
  rw [h1]
  have h2 : (x ++ [' ']).reverse = ' ' :: x.reverse := by simp
  rw [h2, List.dropWhile_cons]
  simp only [show (' ').isWhitespace = true from rfl, if_true]
  rw [dropWhile_eq_self_of_head (fun c hc => hl c (by rwa [List.head?_reverse] at hc))]
  exact List.reverse_reverse x

theorem goodTok_unfold {a : String} (h : goodTok a = true) :
    a.toList ≠ [] ∧ a.toList.all Char.isAlphanum = true := by
  unfold goodTok at h
  simp only [Bool.and_eq_true, Bool.not_eq_true'] at h
  exact ⟨by simpa using h.1, h.2⟩

theorem parseArgs_scan_tok :
    ∀ (tok s current : List Char) (acc : List String),
      (∀ c ∈ tok, c ≠ '\\' ∧ c ≠ '"' ∧ c ≠ ',') →
      parseArgsLoop (tok ++ s) current false acc
        = parseArgsLoop s (current ++ tok) false acc := by
  intro tok
  induction tok with
  | nil => intro s current acc _; simp
  | cons c rest ih =>
      intro s current acc hch
      have h := hch c (by simp)
      rw [List.cons_append,
        parseArgsLoop_plain c _ _ _ _ h.1 h.2.1 (fun hx => h.2.2 hx.1),
        ih s (current ++ [c]) acc (fun x hx => hch x (by simp [hx]))]
      simp

theorem parseArgFinish_tok {lead tok : List Char}
    (hlead : lead = [] ∨ lead = [' ']) (hne : tok ≠ [])
    (htok : tok.all Char.isAlphanum = true) :
    parseArgFinish (lead ++ tok) = String.mk tok := by
  have hh : ∀ c, tok.head? = some c → c.isWhitespace = false := by
    intro c hc
    rcases tok with _ | ⟨a, r⟩
    · simp at hc
    · simp at hc
      subst hc
      exact alphanum_not_ws (by simp [List.all_cons] at htok; exact htok.1)
  have hl : ∀ c, tok.getLast? = some c → c.isWhitespace = false := by
    intro c hc
    have hmem : c ∈ tok := by
      rcases List.mem_getLast?_eq_getLast (by rw [hc]; rfl) with ⟨hn, he⟩
      rw [he]
      exact List.getLast_mem hn
    exact alphanum_not_ws (by rw [List.all_eq_true] at htok; exact htok c hmem)
  have hstrip : pyStrip (lead ++ tok) = tok := by
    rcases hlead with h | h
    · subst h
      simp only [List.nil_append]
      exact pyStrip_self hh hl
    · subst h
      rw [show ([' '] ++ tok) = ' ' :: tok from rfl, pyStrip_cons_space]
      exact pyStrip_self hh hl
  unfold parseArgFinish
  rw [hstrip]
  have hq : (charAt tok 0 == '"') = false := by
    rcases tok with _ | ⟨a, r⟩
    · exact absurd rfl hne
    · have : a.isAlphanum = true := by simp [List.all_cons] at htok; exact htok.1
      have hne2 : a ≠ '"' := alphanum_ne this (by decide)
      simp [charAt, hne2]
  rw [hq]
  simp

theorem parseArgs_canon :
    ∀ (args : List String) (acc : List String) (lead : List Char),
      args ≠ [] → args.all goodTok = true → (lead = [] ∨ lead = [' ']) →
      parseArgsLoop (lead ++ canonArgs args) [] false acc = acc ++ args := by
  intro args
  induction args with
  | nil => intro acc lead h _ _; exact absurd rfl h
  | cons a rest ih =>
      intro acc lead _ hall hlead
      simp only [List.all_cons, Bool.and_eq_true] at hall
      obtain ⟨hane, haan⟩ := goodTok_unfold hall.1
      have hscan : ∀ c ∈ lead ++ a.toList, c ≠ '\\' ∧ c ≠ '"' ∧ c ≠ ',' := by
        intro c hc
        rcases List.mem_append.mp hc with h | h
        · rcases hlead with hl | hl <;> subst hl <;> simp at h
          subst h
          refine ⟨by decide, by decide, by decide⟩
        · have hca : c.isAlphanum = true := by
            rw [List.all_eq_true] at haan; exact haan c h
          exact ⟨alphanum_ne hca (by decide), alphanum_ne hca (by decide),
            alphanum_ne hca (by decide)⟩
      by_cases hr : rest = []
      · -- single argument
        subst hr
        have hcanon : canonArgs [a] = a.toList := by simp [canonArgs]
        rw [hcanon]
        rw [show (lead ++ a.toList : List Char) = (lead ++ a.toList) ++ [] from by simp]
        rw [parseArgs_scan_tok (lead ++ a.toList) [] [] acc hscan]
        show parseArgsLoopE false [] ([] ++ (lead ++ a.toList)) false acc = acc ++ [a]
        unfold parseArgsLoopE
        have hbne : ([] ++ (lead ++ a.toList) : List Char).isEmpty = false := by
          rcases hlead with hl | hl <;> subst hl <;>
            rcases hx : a.toList with _ | _ <;> simp_all
        rw [hbne]
        simp only [Bool.false_eq_true, if_false, List.nil_append]
        rw [parseArgFinish_tok hlead hane haan, string_mk_toList]
      · -- more arguments follow
        have hrne : rest ≠ [] := hr
        have hcanon : canonArgs (a :: rest)
            = a.toList ++ ',' :: ' ' :: canonArgs rest := by
          simp [canonArgs, hrne]
        rw [hcanon, show (lead ++ (a.toList ++ ',' :: ' ' :: canonArgs rest))
            = (lead ++ a.toList) ++ (',' :: ' ' :: canonArgs rest) from by simp]
        rw [parseArgs_scan_tok (lead ++ a.toList) _ [] acc hscan]
        simp only [List.nil_append]
        rw [parseArgsLoop_comma]
        rw [parseArgFinish_tok hlead hane haan, string_mk_toList]
        rw [show (' ' :: canonArgs rest) = [' '] ++ canonArgs rest from rfl]
        rw [ih (acc ++ [a]) [' '] hrne hall.2 (Or.inr rfl)]
        simp

/-- The statement of the canonical-parse property: parsing the canonical text
of `t`, embedded as a suffix at `pos` with arbitrary following text `post`,
yields exactly `t` and lands right after it (up to the slack consumed by a
trailing childless `Not`). -/
def ParsesCanon (t : Node) : Prop :=
  ∀ (fuel : Nat) (e post : List Char) (pos : Nat),
    fuel ≥ nodeFuel t →
    e.drop pos = canonNode t ++ post →
    parseExprF fuel e pos = some (some t, pos + (canonNode t).length + extraOf t post)

theorem charAt_of_drop {e u post : List Char} {pos : Nat}
    (h : e.drop pos = u ++ post) (k : Nat) (hk : k < u.length) :
    charAt e (pos + k) = charAt u k := by
  rw [charAt_drop, h]
  unfold charAt
  rw [List.getD_eq_getElem?_getD, List.getD_eq_getElem?_getD]
  simp [List.getElem?_append, hk]

theorem pos_lt_of_drop {e u post : List Char} {pos : Nat}
    (h : e.drop pos = u ++ post) (hu : u ≠ []) : pos < e.length := by
  have := length_of_drop_eq h (by simp [hu])
  have hlen : (u ++ post).length = u.length + post.length := by simp
  have hul : 0 < u.length := List.length_pos.mpr hu
  omega

theorem pos_le_of_drop {e u : List Char} {pos : Nat}
    (h : e.drop pos = u) (hu : u ≠ []) : pos ≤ e.length := by
  have := length_of_drop_eq h hu
  omega

theorem skipIdx_of_head {e u post : List Char} {pos : Nat} {p : Char → Bool}
    {c : Char} (h : e.drop pos = (c :: u) ++ post) (hc : p c = false) :
    skipIdx p e pos = pos := by
  unfold skipIdx
  rw [h]
  rw [show ((c :: u) ++ post) = c :: (u ++ post) from rfl,
    countLeading_cons_neg hc]
  omega

theorem pyFind_of_drop {e u : List Char} {start : Nat} (h : e.drop start = u)
    (c : Char) :
    pyFind e [c] start
      = (match findPre [c] u with
         | none => (-1 : Int)
         | some j => ((start + j : Nat) : Int)) := by
  unfold pyFind
  rw [h]

theorem pySlice_of_drop {e u : List Char} {pos : Nat} (h : e.drop pos = u)
    (hpos : pos ≤ e.length) (a b : Nat) :
    pySlice e (pos + a) (((pos + b : Nat) : Int)) = (u.take b).drop a := by
  unfold pySlice
  rw [if_neg (by omega), show (((pos + b : Nat) : Int)).toNat = pos + b from rfl]
  rw [List.take_add]
  rw [h]
  have hlen : (e.take pos).length = pos := by
    simp [List.length_take]
    omega
  rw [show pos + a = (e.take pos).length + a from by rw [hlen]]
  rw [List.drop_append]

theorem canonArgs_chars {args : List String} (h : args.all goodTok = true) :
    ∀ c ∈ canonArgs args, c.isAlphanum = true ∨ c = ',' ∨ c = ' ' := by
  induction args with
  | nil => intro c hc; simp [canonArgs] at hc
  | cons a rest ih =>
      simp only [List.all_cons, Bool.and_eq_true] at h
      intro c hc
      unfold canonArgs at hc
      rcases List.mem_append.mp hc with h1 | h1
      · left
        have := (goodTok_unfold h.1).2
        rw [List.all_eq_true] at this
        exact this c h1
      · by_cases hr : rest = []
        · simp [hr] at h1
        · simp only [if_neg (by simpa using hr)] at h1
          rcases List.mem_cons.mp h1 with h2 | h2
          · right; left; exact h2
          · rcases List.mem_cons.mp h2 with h3 | h3
            · right; right; exact h3
            · exact ih h.2 c h3

theorem canonArgs_ne_nil {args : List String} (hne : args ≠ [])
    (h : args.all goodTok = true) : canonArgs args ≠ [] := by
  rcases args with _ | ⟨a, rest⟩
  · exact absurd rfl hne
  · simp only [List.all_cons, Bool.and_eq_true] at h
    have := (goodTok_unfold h.1).1
    unfold canonArgs
    rcases ha : a.toList with _ | _
    · exact absurd ha this
    · simp [ha]

theorem canonArgs_head? {args : List String} (hne : args ≠ [])
    (h : args.all goodTok = true) :
    ∀ c, (canonArgs args).head? = some c → c.isWhitespace = false := by
  rcases args with _ | ⟨a, rest⟩
  · exact absurd rfl hne
  · simp only [List.all_cons, Bool.and_eq_true] at h
    obtain ⟨hane, haan⟩ := goodTok_unfold h.1
    intro c hc
    unfold canonArgs at hc
    rcases ha : a.toList with _ | ⟨x, xs⟩
    · exact absurd ha hane
    · rw [ha] at hc
      simp at hc
      subst hc
      apply alphanum_not_ws
      rw [ha, List.all_cons] at haan
      exact (Bool.and_eq_true _ _ |>.mp haan).1

theorem canonArgs_getLast? {args : List String} (hne : args ≠ [])
    (h : args.all goodTok = true) :
    ∀ c, (canonArgs args).getLast? = some c → c.isWhitespace = false := by
  induction args with
  | nil => exact absurd rfl hne
  | cons a rest ih =>
      simp only [List.all_cons, Bool.and_eq_true] at h
      obtain ⟨hane, haan⟩ := goodTok_unfold h.1
      intro c hc
      unfold canonArgs at hc
      by_cases hr : rest = []
      · simp only [if_pos (by simpa using hr), List.append_nil] at hc
        apply alphanum_not_ws
        rw [List.all_eq_true] at haan
        apply haan
        rcases List.mem_getLast?_eq_getLast (by rw [hc]; rfl) with ⟨hn2, he⟩
        rw [he]
        exact List.getLast_mem hn2
      · rw [if_neg (by simpa using hr)] at hc
        have hcr : canonArgs rest ≠ [] := canonArgs_ne_nil hr h.2
        rw [show (a.toList ++ ',' :: ' ' :: canonArgs rest)
            = (a.toList ++ [',', ' ']) ++ canonArgs rest from by simp] at hc
        rw [List.getLast?_append_of_ne_nil _ hcr] at hc
        exact ih hr h.2 c hc

theorem parseScriptNode_canon_noargs {e post : List Char} {pos : Nat} {n : String}
    (hn : goodTok n = true)
    (h : e.drop pos = canonNode (Node.script n [] none) ++ post) :
    parseScriptNode e pos
      = (some (Node.script n [] none),
         pos + (canonNode (Node.script n [] none)).length) := by
  obtain ⟨hne, han⟩ := goodTok_unfold hn
  have hcanon : canonNode (Node.script n [] none)
      = '(' :: ' ' :: n.toList ++ [' ', ')'] := by simp [canonNode]
  have hclen : (canonNode (Node.script n [] none)).length = n.toList.length + 4 := by
    rw [hcanon]; simp
  have hpos : pos ≤ e.length := pos_le_of_drop h (by rw [hcanon]; simp)
  have hdrop1 : e.drop (pos + 1) = (' ' :: n.toList ++ [' ']) ++ ')' :: post := by
    rw [drop_pos_add, h, hcanon]; simp
  have hmemclose : ∀ a ∈ ' ' :: n.toList ++ [' '], a ≠ ')' := by
    intro a ha
    rcases List.mem_cons.mp ha with h1 | h1
    · subst h1; decide
    · rcases List.mem_append.mp h1 with h2 | h2
      · rw [List.all_eq_true] at han
        exact alphanum_ne (han a h2) (by decide)
      · simp at h2; subst h2; decide
  have hclose : pyFind e [')'] (pos + 1)
      = ((pos + (n.toList.length + 3) : Nat) : Int) := by
    rw [pyFind_of_drop hdrop1, findPre_single_not_mem hmemclose]
    rw [findPre_single_self]
    simp only [Option.map_some', Nat.zero_add, List.length_cons, List.length_append,
      List.length_cons, List.length_nil]
    exact congrArg _ (by omega)
  have hdrop1' : e.drop (pos + 1) = (' ' :: n.toList ++ [' ', ')']) ++ post := by
    rw [hdrop1]; simp
  have hmemcolon : ∀ a ∈ ' ' :: n.toList ++ [' ', ')'], a ≠ ':' := by
    intro a ha
    rcases List.mem_cons.mp ha with h1 | h1
    · subst h1; decide
    · rcases List.mem_append.mp h1 with h2 | h2
      · rw [List.all_eq_true] at han
        exact alphanum_ne (han a h2) (by decide)
      · rcases List.mem_cons.mp h2 with h3 | h3
        · subst h3; decide
        · simp at h3; subst h3; decide
  have hcolon : pyFind e [':'] (pos + 1)
      = (match findPre [':'] post with
         | none => (-1 : Int)
         | some j => (((pos + 1) + (j + (n.toList.length + 3)) : Nat) : Int)) := by
    rw [pyFind_of_drop hdrop1', findPre_single_not_mem hmemcolon]
    cases hfp : findPre [':'] post with
    | none => simp
    | some j =>
        simp only [Option.map_some', List.length_cons, List.length_append,
          List.length_cons, List.length_nil]
  have hcond : ¬(pyFind e [':'] (pos + 1) ≠ -1 ∧
      pyFind e [':'] (pos + 1) < pyFind e [')'] (pos + 1)) := by
    rw [hcolon, hclose]
    cases hfp : findPre [':'] post with
    | none => simp
    | some j =>
        show ¬(((((pos + 1) + (j + (n.toList.length + 3)) : Nat) : Int) ≠ -1) ∧
          ((((pos + 1) + (j + (n.toList.length + 3)) : Nat) : Int)
            < ((pos + (n.toList.length + 3) : Nat) : Int)))
        rintro ⟨_, hlt⟩
        have h2 : ((pos + 1) + (j + (n.toList.length + 3)))
            < (pos + (n.toList.length + 3)) := by exact_mod_cast hlt
        omega
  unfold parseScriptNode
  rw [if_neg hcond, hclose]
  have hslice : pySlice e (pos + 1) ((pos + (n.toList.length + 3) : Nat) : Int)
      = ' ' :: n.toList ++ [' '] := by
    rw [pySlice_of_drop h hpos 1 (n.toList.length + 3)]
    rw [hcanon]
    rw [show (('(' :: ' ' :: n.toList ++ [' ', ')']) ++ post)
        = ('(' :: ' ' :: n.toList ++ [' ']) ++ (')' :: post) from by simp]
    rw [List.take_left' (by simp)]
    rfl
  rw [hslice]
  have hstrip : pyStrip (' ' :: n.toList ++ [' ']) = n.toList := by
    rw [show (' ' :: n.toList ++ [' ']) = ' ' :: (n.toList ++ [' ']) from rfl,
      pyStrip_cons_space]
    apply pyStrip_trailing hne
    · intro c hc
      rcases hx : n.toList with _ | ⟨x, xs⟩
      · exact absurd hx hne
      · rw [hx] at hc; simp at hc; subst hc
        apply alphanum_not_ws
        rw [hx, List.all_cons] at han
        exact (Bool.and_eq_true _ _ |>.mp han).1
    · intro c hc
      apply alphanum_not_ws
      rw [List.all_eq_true] at han
      apply han
      rcases List.mem_getLast?_eq_getLast (by rw [hc]; rfl) with ⟨hn2, he⟩
      rw [he]
      exact List.getLast_mem hn2
  rw [hstrip, string_mk_toList, hclen]
  have : (((pos + (n.toList.length + 3) : Nat) : Int) + 1).toNat
      = pos + (n.toList.length + 4) := by omega
  rw [this]

theorem parseScriptNode_canon_args {e post : List Char} {pos : Nat} {n : String}
    {args : List String} (hn : goodTok n = true) (hargsne : args ≠ [])
    (hargs : args.all goodTok = true)
    (h : e.drop pos = canonNode (Node.script n args none) ++ post) :
    parseScriptNode e pos
      = (some (Node.script n args none),
         pos + (canonNode (Node.script n args none)).length) := by
  obtain ⟨hne, han⟩ := goodTok_unfold hn
  have hcanon : canonNode (Node.script n args none)
      = '(' :: ' ' :: n.toList ++ ':' :: canonArgs args ++ [' ', ')'] := by
    simp [canonNode, hargsne]
  have hclen : (canonNode (Node.script n args none)).length
      = n.toList.length + (canonArgs args).length + 5 := by
    rw [hcanon]; simp; omega
  have hpos : pos ≤ e.length := pos_le_of_drop h (by rw [hcanon]; simp)
  have hdrop1 : e.drop (pos + 1)
      = (' ' :: n.toList ++ ':' :: canonArgs args ++ [' ']) ++ ')' :: post := by
    rw [drop_pos_add, h, hcanon]; simp
  have hmemclose : ∀ a ∈ ' ' :: n.toList ++ ':' :: canonArgs args ++ [' '],
      a ≠ ')' := by
    intro a ha
    rcases List.mem_append.mp ha with h1 | h1
    · rcases List.mem_append.mp h1 with h2 | h2
      · rcases List.mem_cons.mp h2 with h3 | h3
        · subst h3; decide
        · rw [List.all_eq_true] at han
          exact alphanum_ne (han a h3) (by decide)
      · rcases List.mem_cons.mp h2 with h3 | h3
        · subst h3; decide
        · rcases canonArgs_chars hargs a h3 with h5 | h5 | h5
          · exact alphanum_ne h5 (by decide)
          · subst h5; decide
          · subst h5; decide
    · simp at h1; subst h1; decide
  have hclose : pyFind e [')'] (pos + 1)
      = ((pos + (n.toList.length + (canonArgs args).length + 4) : Nat) : Int) := by
    rw [pyFind_of_drop hdrop1, findPre_single_not_mem hmemclose,
      findPre_single_self]
    simp only [Option.map_some', Nat.zero_add, List.length_cons,
      List.length_append, List.length_nil]
    exact congrArg _ (by omega)
  have hdropc : e.drop (pos + 1)
      = (' ' :: n.toList) ++ ':' :: (canonArgs args ++ [' ', ')'] ++ post) := by
    rw [hdrop1]; simp
  have hmemcolon : ∀ a ∈ ' ' :: n.toList, a ≠ ':' := by
    intro a ha
    rcases List.mem_cons.mp ha with h1 | h1
    · subst h1; decide
    · rw [List.all_eq_true] at han
      exact alphanum_ne (han a h1) (by decide)
  have hcolon : pyFind e [':'] (pos + 1)
      = ((pos + (n.toList.length + 2) : Nat) : Int) := by
    rw [pyFind_of_drop hdropc, findPre_single_not_mem hmemcolon,
      findPre_single_self]
    simp only [Option.map_some', Nat.zero_add, List.length_cons,
      List.length_append, List.length_nil]
    exact congrArg _ (by omega)
  have hcond : pyFind e [':'] (pos + 1) ≠ -1 ∧
      pyFind e [':'] (pos + 1) < pyFind e [')'] (pos + 1) := by
    rw [hcolon, hclose]
    constructor
    · omega
    · have : (pos + (n.toList.length + 2))
          < (pos + (n.toList.length + (canonArgs args).length + 4)) := by omega
      exact_mod_cast this
  unfold parseScriptNode
  rw [if_pos hcond, hcolon, hclose]
  have htn1 : (((pos + (n.toList.length + 2) : Nat) : Int)).toNat
      = pos + (n.toList.length + 2) := rfl
  have htn2 : (((pos + (n.toList.length + (canonArgs args).length + 4) : Nat)
      : Int)).toNat = pos + (n.toList.length + (canonArgs args).length + 4) := rfl
  rw [htn1, htn2]
  have hslice1 : pySlice e (pos + 1)
      ((pos + (n.toList.length + 2) : Nat) : Int) = ' ' :: n.toList := by
    rw [pySlice_of_drop h hpos 1 (n.toList.length + 2)]
    rw [hcanon]
    rw [show (('(' :: ' ' :: n.toList ++ ':' :: canonArgs args ++ [' ', ')']) ++ post)
        = ('(' :: ' ' :: n.toList) ++ (':' :: canonArgs args ++ [' ', ')'] ++ post)
        from by simp]
    rw [List.take_left' (by simp)]
    rfl
  have hstrip1 : pyStrip (' ' :: n.toList) = n.toList := by
    rw [pyStrip_cons_space]
    apply pyStrip_self
    · intro c hc
      rcases hx : n.toList with _ | ⟨x, xs⟩
      · exact absurd hx hne
      · rw [hx] at hc; simp at hc; subst hc
        apply alphanum_not_ws
        rw [hx, List.all_cons] at han
        exact (Bool.and_eq_true _ _ |>.mp han).1
    · intro c hc
      apply alphanum_not_ws
      rw [List.all_eq_true] at han
      apply han
      rcases List.mem_getLast?_eq_getLast (by rw [hc]; rfl) with ⟨hn2, he⟩
      rw [he]
      exact List.getLast_mem hn2
  have hslice2 : pySlice e (pos + (n.toList.length + 2) + 1)
      ((pos + (n.toList.length + (canonArgs args).length + 4) : Nat) : Int)
      = canonArgs args ++ [' '] := by
    rw [show pos + (n.toList.length + 2) + 1 = pos + (n.toList.length + 3) from
      by omega]
    rw [pySlice_of_drop h hpos (n.toList.length + 3)
      (n.toList.length + (canonArgs args).length + 4)]
    rw [hcanon]
    rw [show (('(' :: ' ' :: n.toList ++ ':' :: canonArgs args ++ [' ', ')']) ++ post)
        = ('(' :: ' ' :: n.toList ++ ':' :: canonArgs args ++ [' '])
          ++ (')' :: post) from by simp]
    rw [List.take_left' (by simp; omega)]
    rw [show ('(' :: ' ' :: n.toList ++ ':' :: canonArgs args ++ [' '])
        = ('(' :: ' ' :: n.toList ++ [':']) ++ (canonArgs args ++ [' '])
        from by simp]
    rw [List.drop_left' (by simp)]
  have hstrip2 : pyStrip (canonArgs args ++ [' ']) = canonArgs args :=
    pyStrip_trailing (canonArgs_ne_nil hargsne hargs)
      (canonArgs_head? hargsne hargs) (canonArgs_getLast? hargsne hargs)
  have hempty : (canonArgs args).isEmpty = false := by
    rcases hx : canonArgs args with _ | _
    · exact absurd hx (canonArgs_ne_nil hargsne hargs)
    · rfl
  rw [hslice1, hstrip1, string_mk_toList, hslice2, hstrip2, hempty]
  have hpa : parseArgsLoop (canonArgs args) [] false [] = args := by
    have := parseArgs_canon args [] [] hargsne hargs (Or.inl rfl)
    simpa using this
  simp only [Bool.false_eq_true, if_false]
  rw [hpa, hclen]
  congr 1

theorem parsesCanon_script {n : String} {args : List String}
    (hn : goodTok n = true) (hargs : args.all goodTok = true) :
    ParsesCanon (Node.script n args none) := by
  intro fuel e post pos hfuel h
  obtain ⟨f, rfl⟩ : ∃ f, fuel = f + 1 :=
    ⟨fuel - 1, by unfold nodeFuel at hfuel; omega⟩
  have hhead : ∃ u, canonNode (Node.script n args none) = '(' :: u := by
    by_cases ha : args = []
    · refine ⟨' ' :: n.toList ++ [' ', ')'], ?_⟩
      simp [canonNode, ha]
    · refine ⟨' ' :: n.toList ++ ':' :: canonArgs args ++ [' ', ')'], ?_⟩
      simp [canonNode, ha]
  obtain ⟨u, hu⟩ := hhead
  have h' : e.drop pos = ('(' :: u) ++ post := by rw [h, hu]
  have hlt : pos < e.length := pos_lt_of_drop h' (by simp)
  have hskip : skipIdx Char.isWhitespace e pos = pos :=
    skipIdx_of_head h' (by decide)
  have hc0 : charAt e pos = '(' := by
    have := charAt_of_drop h' 0 (by simp)
    simpa [charAt] using this
  have hb1 : (('(' : Char) == '!') = false := rfl
  have hb2 : (('(' : Char) == '&') = false := rfl
  have hb3 : (('(' : Char) == '|') = false := rfl
  have hb4 : (('(' : Char) == '(') = true := rfl
  have hext : extraOf (Node.script n args none) post = 0 := by
    simp [extraOf, endsNoneNot]
  rw [hext, Nat.add_zero]
  show parseExprF (f + 1) e pos = _
  simp only [parseExprF, hskip, hc0, hb1, hb2, hb3, hb4, Bool.false_and,
    Bool.and_false, Bool.false_eq_true, if_false, Bool.true_eq_false, if_true,
    ge_iff_le, if_neg (show ¬(e.length ≤ pos) from by omega)]
  by_cases ha : args = []
  · subst ha
    rw [parseScriptNode_canon_noargs hn h]
    simp
  · rw [parseScriptNode_canon_args hn ha hargs h]
    simp

theorem canonNode_head (t : Node) :
    ∃ c0 u, canonNode t = c0 :: u ∧ c0.isWhitespace = false ∧
      (c0 = '(' ∨ c0 = '!' ∨ c0 = '&' ∨ c0 = '|') := by
  cases t with
  | script n args cache =>
      by_cases ha : args = []
      · refine ⟨'(', ' ' :: n.toList ++ [' ', ')'], ?_, by decide, Or.inl rfl⟩
        simp [canonNode, ha]
      · refine ⟨'(', ' ' :: n.toList ++ ':' :: canonArgs args ++ [' ', ')'],
          ?_, by decide, Or.inl rfl⟩
        simp [canonNode, ha]
  | notN c cache =>
      cases c with
      | none => exact ⟨'!', ['N', 'o', 'n', 'e'], rfl, by decide, Or.inr (Or.inl rfl)⟩
      | some c =>
          refine ⟨'!', (if isScript c then ' ' :: canonNode c else canonNode c),
            ?_, by decide, Or.inr (Or.inl rfl)⟩
          simp [canonNode]
  | andN cb cs cache =>
      cases cb with
      | true =>
          refine ⟨'&', '&' :: ' ' :: '[' :: canonChildren cs ++ [' ', ']'],
            ?_, by decide, Or.inr (Or.inr (Or.inl rfl))⟩
          simp [canonNode]
      | false =>
          refine ⟨'&', ' ' :: '[' :: canonChildren cs ++ [' ', ']'],
            ?_, by decide, Or.inr (Or.inr (Or.inl rfl))⟩
          simp [canonNode]
  | orN cb cs cache =>
      cases cb with
      | true =>
          refine ⟨'|', '|' :: ' ' :: '[' :: canonChildren cs ++ [' ', ']'],
            ?_, by decide, Or.inr (Or.inr (Or.inr rfl))⟩
          simp [canonNode]
      | false =>
          refine ⟨'|', ' ' :: '[' :: canonChildren cs ++ [' ', ']'],
            ?_, by decide, Or.inr (Or.inr (Or.inr rfl))⟩
          simp [canonNode]

/-! One-step evaluation lemmas for the fuel parser (the inner recursive
calls keep a variable fuel, so they stay opaque). -/

theorem parseExprF_step_bang {f : Nat} {e : List Char} {pos : Nat}
    (hlt : pos < e.length)
    (hskip : skipIdx Char.isWhitespace e pos = pos)
    (hc : charAt e pos = '!')
    (hlt1 : skipIdx Char.isWhitespace e (pos + 1) < e.length) :
    parseExprF (f + 1) e pos
      = match parseExprF f e (skipIdx Char.isWhitespace e (pos + 1)) with
        | none => none
        | some (child, pos2) => some (some (Node.notN child none), pos2) := by
  conv_lhs => unfold parseExprF
  simp only [hskip, hc, ge_iff_le, if_neg (not_le.mpr hlt),
    show (('!' : Char) == '!') = true from rfl, if_true, if_pos hlt1]

theorem parseExprF_step_junk {f : Nat} {e : List Char} {pos : Nat}
    (hlt : pos < e.length)
    (hskip : skipIdx Char.isWhitespace e pos = pos)
    (h1 : (charAt e pos == '!') = false)
    (h2 : (charAt e pos == '&') = false)
    (h3 : (charAt e pos == '|') = false)
    (h4 : (charAt e pos == '(') = false) :
    parseExprF (f + 1) e pos
      = some (none, skipIdx (fun ch => !(structuralChar ch)) e pos) := by
  conv_lhs => unfold parseExprF
  simp only [hskip, h1, h2, h3, h4, ge_iff_le, if_neg (not_le.mpr hlt),
    Bool.false_and, Bool.and_false, Bool.false_eq_true, if_false]

theorem parseExprF_step_and2 {f : Nat} {e : List Char} {pos : Nat}
    (hlt : pos < e.length)
    (hskip : skipIdx Char.isWhitespace e pos = pos)
    (hlt1 : pos + 1 < e.length)
    (hc : charAt e pos = '&') (hc1 : charAt e (pos + 1) = '&') :
    parseExprF (f + 1) e pos
      = match parseChildrenF f e (pos + 2) with
        | none => none
        | some (cs, p) => some (some (Node.andN true cs none), p) := by
  conv_lhs => unfold parseExprF
  simp only [hskip, hc, hc1, ge_iff_le, if_neg (not_le.mpr hlt),
    show (('&' : Char) == '!') = false from rfl, Bool.false_eq_true, if_false,
    show (('&' : Char) == '&') = true from rfl, Bool.and_true,
    decide_eq_true hlt1, Bool.true_and, if_true]

theorem parseExprF_step_or2 {f : Nat} {e : List Char} {pos : Nat}
    (hlt : pos < e.length)
    (hskip : skipIdx Char.isWhitespace e pos = pos)
    (hlt1 : pos + 1 < e.length)
    (hc : charAt e pos = '|') (hc1 : charAt e (pos + 1) = '|') :
    parseExprF (f + 1) e pos
      = match parseChildrenF f e (pos + 2) with
        | none => none
        | some (cs, p) => some (some (Node.orN true cs none), p) := by
  conv_lhs => unfold parseExprF
  simp only [hskip, hc, hc1, ge_iff_le, if_neg (not_le.mpr hlt),
    show (('|' : Char) == '!') = false from rfl, Bool.false_eq_true, if_false,
    show (('|' : Char) == '&') = false from rfl,
    show (('|' : Char) == '|') = true from rfl, Bool.and_true, Bool.and_false,
    decide_eq_true hlt1, Bool.true_and, if_true]

theorem parseExprF_step_and1 {f : Nat} {e : List Char} {pos : Nat}
    (hlt : pos < e.length)
    (hskip : skipIdx Char.isWhitespace e pos = pos)
    (hc : charAt e pos = '&')
    (hc1 : (charAt e (pos + 1) == '&') = false) :
    parseExprF (f + 1) e pos
      = match parseChildrenF f e (pos + 1) with
        | none => none
        | some (cs, p) => some (some (Node.andN false cs none), p) := by
  conv_lhs => unfold parseExprF
  simp only [hskip, hc, hc1, ge_iff_le, if_neg (not_le.mpr hlt),
    show (('&' : Char) == '!') = false from rfl, Bool.false_eq_true, if_false,
    show (('&' : Char) == '|') = false from rfl,
    show (('&' : Char) == '&') = true from rfl, Bool.and_true, Bool.and_false,
    Bool.false_and, Bool.true_and, bne_iff_ne, ne_eq, Bool.or_true,
    show ((charAt e (pos + 1) != '&')) = true from by
      simp [bne_iff_ne]
      intro hx
      rw [hx] at hc1
      simp at hc1,
    if_true]

theorem parseExprF_step_or1 {f : Nat} {e : List Char} {pos : Nat}
    (hlt : pos < e.length)
    (hskip : skipIdx Char.isWhitespace e pos = pos)
    (hc : charAt e pos = '|')
    (hc1 : (charAt e (pos + 1) == '|') = false) :
    parseExprF (f + 1) e pos
      = match parseChildrenF f e (pos + 1) with
        | none => none
        | some (cs, p) => some (some (Node.orN false cs none), p) := by
  conv_lhs => unfold parseExprF
  simp only [hskip, hc, hc1, ge_iff_le, if_neg (not_le.mpr hlt),
    show (('|' : Char) == '!') = false from rfl, Bool.false_eq_true, if_false,
    show (('|' : Char) == '&') = false from rfl,
    show (('|' : Char) == '|') = true from rfl, Bool.and_true, Bool.and_false,
    Bool.false_and, Bool.true_and, bne_iff_ne, ne_eq, Bool.or_true,
    show ((charAt e (pos + 1) != '|')) = true from by
      simp [bne_iff_ne]
      intro hx
      rw [hx] at hc1
      simp at hc1,
    if_true]

theorem parseChildrenF_step {f : Nat} {e : List Char} {pos : Nat}
    (hlt : skipIdx Char.isWhitespace e pos < e.length)
    (hc : charAt e (skipIdx Char.isWhitespace e pos) = '[') :
    parseChildrenF (f + 1) e pos
      = match childLoopF f e (skipIdx Char.isWhitespace e pos + 1) [] with
        | none => none
        | some (cs, pos2) =>
            if decide (pos2 < e.length) && (charAt e pos2 == ']') then
              some (cs, pos2 + 1)
            else some (cs, pos2) := by
  conv_lhs => unfold parseChildrenF
  simp only [hc, decide_eq_true hlt, show (('[' : Char) == '[') = true from rfl,
    Bool.and_true, Bool.true_and, if_true]

theorem childLoopF_step_parse {f : Nat} {e : List Char} {pos : Nat}
    {acc : List Node}
    (hlt : pos < e.length) (hne : charAt e pos ≠ ']')
    (hlt1 : skipIdx (fun ch => ch.isWhitespace || ch == ',') e pos < e.length)
    (hne1 : charAt e (skipIdx (fun ch => ch.isWhitespace || ch == ',') e pos) ≠ ']') :
    childLoopF (f + 1) e pos acc
      = match parseExprF f e
          (skipIdx (fun ch => ch.isWhitespace || ch == ',') e pos) with
        | none => none
        | some (some c, pos2) => childLoopF f e pos2 (acc ++ [c])
        | some (none, pos2) => childLoopF f e pos2 acc := by
  conv_lhs => unfold childLoopF
  simp only [decide_eq_true hlt, decide_eq_true hlt1, Bool.true_and,
    show (charAt e pos != ']') = true from by simpa [bne_iff_ne] using hne,
    show (charAt e (skipIdx (fun ch => ch.isWhitespace || ch == ',') e pos) != ']')
      = true from by simpa [bne_iff_ne] using hne1,
    if_true]

theorem childLoopF_step_close {f : Nat} {e : List Char} {pos : Nat}
    {acc : List Node}
    (hlt : pos < e.length) (hne : charAt e pos ≠ ']')
    (hcond : (decide (skipIdx (fun ch => ch.isWhitespace || ch == ',') e pos
        < e.length) &&
      (charAt e (skipIdx (fun ch => ch.isWhitespace || ch == ',') e pos) != ']'))
      = false) :
    childLoopF (f + 1) e pos acc
      = some (acc, skipIdx (fun ch => ch.isWhitespace || ch == ',') e pos) := by
  conv_lhs => unfold childLoopF
  simp only [decide_eq_true hlt, Bool.true_and, hcond,
    show (charAt e pos != ']') = true from by simpa [bne_iff_ne] using hne,
    Bool.false_eq_true, if_false, if_true]

theorem childLoopF_step_exit {f : Nat} {e : List Char} {pos : Nat}
    {acc : List Node}
    (hcond : (decide (pos < e.length) && (charAt e pos != ']')) = false) :
    childLoopF (f + 1) e pos acc = some (acc, pos) := by
  conv_lhs => unfold childLoopF
  simp only [hcond, Bool.false_eq_true, if_false]

theorem parsesCanon_notNone : ParsesCanon (Node.notN none none) := by
  intro fuel e post pos hfuel h
  obtain ⟨f, rfl⟩ : ∃ f, fuel = f + 2 :=
    ⟨fuel - 2, by unfold nodeFuel at hfuel; omega⟩
  have hcanon : canonNode (Node.notN none none) = '!' :: ['N', 'o', 'n', 'e'] := rfl
  rw [hcanon] at h
  have hlt : pos < e.length := pos_lt_of_drop h (by simp)
  have hskip : skipIdx Char.isWhitespace e pos = pos :=
    skipIdx_of_head h (by decide)
  have hc0 : charAt e pos = '!' := by
    have := charAt_of_drop h 0 (by simp)
    simpa [charAt] using this
  have hdrop1 : e.drop (pos + 1) = ['N', 'o', 'n', 'e'] ++ post := by
    rw [drop_pos_add, h]
    rfl
  have hlt1 : pos + 1 < e.length := pos_lt_of_drop hdrop1 (by simp)
  have hskip1 : skipIdx Char.isWhitespace e (pos + 1) = pos + 1 :=
    skipIdx_of_head hdrop1 (by decide)
  have hc1 : charAt e (pos + 1) = 'N' := by
    have := charAt_of_drop hdrop1 0 (by simp)
    simpa [charAt] using this
  have hskipN : skipIdx (fun ch => !(structuralChar ch)) e (pos + 1)
      = pos + 5 + countLeading (fun ch => !(structuralChar ch)) post := by
    unfold skipIdx
    rw [hdrop1, countLeading_append_all (by decide)]
    simp
    omega
  have hinner : parseExprF (f + 1) e (pos + 1)
      = some (none, pos + 5 + countLeading (fun ch => !(structuralChar ch)) post) := by
    rw [parseExprF_step_junk hlt1 hskip1 (by rw [hc1]; rfl) (by rw [hc1]; rfl)
      (by rw [hc1]; rfl) (by rw [hc1]; rfl), hskipN]
  rw [parseExprF_step_bang hlt hskip hc0 (by rw [hskip1]; exact hlt1), hskip1,
    hinner]
  simp only [extraOf, endsNoneNot, if_true]
  rw [hcanon]
  simp only [Option.some.injEq, Prod.mk.injEq, List.length_cons]
  exact ⟨trivial, by simp only [List.length_cons, List.length_nil]⟩

theorem parsesCanon_notSome {c : Node} (hc : ParsesCanon c) :
    ParsesCanon (Node.notN (some c) none) := by
  intro fuel e post pos hfuel h
  obtain ⟨f, rfl⟩ : ∃ f, fuel = f + 1 :=
    ⟨fuel - 1, by unfold nodeFuel at hfuel; omega⟩
  have hfc : f ≥ nodeFuel c := by unfold nodeFuel at hfuel; omega
  obtain ⟨c0, u, hcu, hc0ws, _⟩ := canonNode_head c
  have hext : extraOf (Node.notN (some c) none) post = extraOf c post := by
    simp [extraOf, endsNoneNot]
  by_cases hs : isScript c
  · -- child is an atom: a space separates `!` from `(`
    have hcanon : canonNode (Node.notN (some c) none)
        = '!' :: ' ' :: canonNode c := by simp [canonNode, hs]
    have hdrop0 : e.drop pos = ('!' :: ' ' :: canonNode c) ++ post := by
      rw [h, hcanon]
    have hlt : pos < e.length := pos_lt_of_drop hdrop0 (by simp)
    have hskip : skipIdx Char.isWhitespace e pos = pos :=
      skipIdx_of_head hdrop0 (by decide)
    have hc0' : charAt e pos = '!' := by
      have := charAt_of_drop hdrop0 0 (by simp)
      simpa [charAt] using this
    have hchild : e.drop (pos + 2) = canonNode c ++ post := by
      rw [drop_pos_add, hdrop0]
      rfl
    have hdrop1 : e.drop (pos + 1) = (' ' :: canonNode c) ++ post := by
      rw [drop_pos_add, hdrop0]
      rfl
    have hskip1 : skipIdx Char.isWhitespace e (pos + 1) = pos + 2 := by
      unfold skipIdx
      rw [hdrop1]
      rw [show ((' ' :: canonNode c) ++ post) = ' ' :: (canonNode c ++ post)
        from rfl]
      rw [show countLeading Char.isWhitespace (' ' :: (canonNode c ++ post))
          = countLeading Char.isWhitespace (canonNode c ++ post) + 1 from by
        simp [countLeading]]
      rw [hcu, show ((c0 :: u) ++ post) = c0 :: (u ++ post) from rfl,
        countLeading_cons_neg hc0ws]
    have hlt1 : pos + 2 < e.length :=
      pos_lt_of_drop (show e.drop (pos + 2) = (c0 :: u) ++ post from by
        rw [hchild, hcu]) (by simp)
    have hinner := hc f e post (pos + 2) hfc hchild
    rw [parseExprF_step_bang hlt hskip hc0' (by rw [hskip1]; exact hlt1), hskip1,
      hinner, hext]
    have hlen : (canonNode (Node.notN (some c) none)).length
        = (canonNode c).length + 2 := by rw [hcanon]; simp
    rw [hlen]
    simp only [Option.some.injEq, Prod.mk.injEq]
    exact ⟨trivial, by omega⟩
  · -- child is an operator or Not: no space after `!`
    have hcanon : canonNode (Node.notN (some c) none)
        = '!' :: canonNode c := by simp [canonNode, hs]
    have hdrop0 : e.drop pos = ('!' :: canonNode c) ++ post := by
      rw [h, hcanon]
    have hlt : pos < e.length := pos_lt_of_drop hdrop0 (by simp)
    have hskip : skipIdx Char.isWhitespace e pos = pos :=
      skipIdx_of_head hdrop0 (by decide)
    have hc0' : charAt e pos = '!' := by
      have := charAt_of_drop hdrop0 0 (by simp)
      simpa [charAt] using this
    have hchild : e.drop (pos + 1) = canonNode c ++ post := by
      rw [drop_pos_add, hdrop0]
      rfl
    have hskip1 : skipIdx Char.isWhitespace e (pos + 1) = pos + 1 :=
      skipIdx_of_head (show e.drop (pos + 1) = (c0 :: u) ++ post from by
        rw [hchild, hcu]) hc0ws
    have hlt1 : pos + 1 < e.length :=
      pos_lt_of_drop (show e.drop (pos + 1) = (c0 :: u) ++ post from by
        rw [hchild, hcu]) (by simp)
    have hinner := hc f e post (pos + 1) hfc hchild
    rw [parseExprF_step_bang hlt hskip hc0' (by rw [hskip1]; exact hlt1), hskip1,
      hinner, hext]
    have hlen : (canonNode (Node.notN (some c) none)).length
        = (canonNode c).length + 1 := by rw [hcanon]; simp
    rw [hlen]
    simp only [Option.some.injEq, Prod.mk.injEq]
    exact ⟨trivial, by omega⟩

theorem nodeFuel_pos (t : Node) : 1 ≤ nodeFuel t := by
  cases t with
  | script n a c => simp [nodeFuel]
  | notN c cache =>
      cases c with
      | none => simp [nodeFuel]
      | some c => simp [nodeFuel]
  | andN b cs c => simp [nodeFuel]
  | orN b cs c => simp [nodeFuel]

theorem childLoop_canon :
    ∀ (cs : List Node), (∀ c ∈ cs, ParsesCanon c) →
      ∀ (fuel : Nat) (e post2 : List Char) (pos : Nat) (acc : List Node)
        (lead : List Char),
        fuel ≥ childrenFuel cs →
        (lead = [] ∨ (lead = [','] ∧ cs ≠ [])) →
        e.drop pos = lead ++ canonChildren cs ++ ' ' :: ']' :: post2 →
        childLoopF fuel e pos acc
          = some (acc ++ cs, pos + lead.length + (canonChildren cs).length + 1) := by
  intro cs
  induction cs with
  | nil =>
      intro _ fuel e post2 pos acc lead hfuel hlead h
      rcases hlead with hl | ⟨_, hne⟩
      · subst hl
        obtain ⟨f, rfl⟩ : ∃ f, fuel = f + 1 :=
          ⟨fuel - 1, by unfold childrenFuel at hfuel; omega⟩
        have h2 : e.drop pos = [' '] ++ (']' :: post2) := by
          rw [h]
          simp [canonChildren]
        have hlt : pos < e.length := pos_lt_of_drop h2 (by simp)
        have hchar : charAt e pos = ' ' := by
          have := charAt_of_drop h2 0 (by simp)
          simpa [charAt] using this
        have hskipc : skipIdx (fun ch => ch.isWhitespace || ch == ',') e pos
            = pos + 1 := by
          unfold skipIdx
          rw [h2]
          rw [show ([' '] ++ (']' :: post2)) = ' ' :: (']' :: post2) from rfl]
          rw [show countLeading (fun ch => ch.isWhitespace || ch == ',')
              (' ' :: (']' :: post2))
              = countLeading (fun ch => ch.isWhitespace || ch == ',')
                (']' :: post2) + 1 from by simp [countLeading]]
          rw [countLeading_cons_neg (by decide)]
        have hdrop1 : e.drop (pos + 1) = [']'] ++ post2 := by
          rw [drop_pos_add, h2]
          rfl
        have hchar1 : charAt e (pos + 1) = ']' := by
          have := charAt_of_drop hdrop1 0 (by simp)
          simpa [charAt] using this
        have hcond : (decide (skipIdx (fun ch => ch.isWhitespace || ch == ',') e pos
            < e.length) &&
            (charAt e (skipIdx (fun ch => ch.isWhitespace || ch == ',') e pos)
              != ']')) = false := by
          rw [hskipc, hchar1]
          simp
        rw [childLoopF_step_close hlt (by rw [hchar]; decide) hcond, hskipc]
        simp [canonChildren]
      · exact absurd rfl hne
  | cons c rest ih =>
      intro HP fuel e post2 pos acc lead hfuel hlead h
      obtain ⟨f, rfl⟩ : ∃ f, fuel = f + 1 :=
        ⟨fuel - 1, by unfold childrenFuel at hfuel; omega⟩
      have hfc : f ≥ nodeFuel c + childrenFuel rest := by
        unfold childrenFuel at hfuel
        omega
      obtain ⟨c0, u, hcu, hc0ws, hc0cases⟩ := canonNode_head c
      have hc0p : ((fun ch => ch.isWhitespace || ch == ',') c0) = false := by
        rcases hc0cases with h1 | h1 | h1 | h1 <;> subst h1 <;> decide
      have hc0ne : c0 ≠ ']' := by
        rcases hc0cases with h1 | h1 | h1 | h1 <;> subst h1 <;> decide
      have hleadall : lead.all (fun ch => ch.isWhitespace || ch == ',') = true := by
        rcases hlead with hl | ⟨hl, _⟩ <;> subst hl <;> decide
      have h' : e.drop pos
          = (lead ++ [' ']) ++ (canonNode c
              ++ ((if rest.isEmpty then [] else ',' :: canonChildren rest)
                ++ ' ' :: ']' :: post2)) := by
        rw [h]
        simp [canonChildren]
      have hlt : pos < e.length := pos_lt_of_drop h' (by simp)
      have hhead : charAt e pos ≠ ']' := by
        rcases hlead with hl | ⟨hl, _⟩ <;> subst hl
        · have h0 := charAt_of_drop h' 0 (by simp)
          simp only [Nat.add_zero] at h0
          rw [h0]
          decide
        · have h0 := charAt_of_drop h' 0 (by simp)
          simp only [Nat.add_zero] at h0
          rw [h0]
          decide
      have hskipc : skipIdx (fun ch => ch.isWhitespace || ch == ',') e pos
          = pos + (lead.length + 1) := by
        unfold skipIdx
        rw [h']
        rw [show ((lead ++ [' ']) ++ (canonNode c
            ++ ((if rest.isEmpty then [] else ',' :: canonChildren rest)
              ++ ' ' :: ']' :: post2)))
            = (lead ++ [' ']) ++ (canonNode c
              ++ ((if rest.isEmpty then [] else ',' :: canonChildren rest)
                ++ ' ' :: ']' :: post2)) from rfl]
        rw [countLeading_append_all (by simp [hleadall])]
        rw [hcu, show ((c0 :: u) ++ ((if rest.isEmpty then []
            else ',' :: canonChildren rest) ++ ' ' :: ']' :: post2))
            = c0 :: (u ++ ((if rest.isEmpty then []
              else ',' :: canonChildren rest) ++ ' ' :: ']' :: post2)) from rfl]
        rw [countLeading_cons_neg hc0p]
        simp
        try omega
      have hdrop1 : e.drop (pos + (lead.length + 1))
          = canonNode c ++ ((if rest.isEmpty then []
              else ',' :: canonChildren rest) ++ ' ' :: ']' :: post2) := by
        rw [drop_pos_add, h']
        rw [List.drop_left' (by simp)]
      have hlt1 : pos + (lead.length + 1) < e.length :=
        pos_lt_of_drop (show e.drop (pos + (lead.length + 1))
          = (c0 :: u) ++ ((if rest.isEmpty then []
              else ',' :: canonChildren rest) ++ ' ' :: ']' :: post2) from by
          rw [hdrop1, hcu]) (by simp)
      have hne1 : charAt e (pos + (lead.length + 1)) ≠ ']' := by
        have h0 := charAt_of_drop (show e.drop (pos + (lead.length + 1))
          = (c0 :: u) ++ ((if rest.isEmpty then []
              else ',' :: canonChildren rest) ++ ' ' :: ']' :: post2) from by
          rw [hdrop1, hcu]) 0 (by simp)
        simp only [Nat.add_zero] at h0
        rw [h0]
        rw [show charAt (c0 :: u) 0 = c0 from rfl]
        exact hc0ne
      have hchild := HP c (by simp) f e
        ((if rest.isEmpty then [] else ',' :: canonChildren rest)
          ++ ' ' :: ']' :: post2)
        (pos + (lead.length + 1)) (by omega) hdrop1
      rw [childLoopF_step_parse hlt hhead (by rw [hskipc]; exact hlt1)
        (by rw [hskipc]; exact hne1), hskipc, hchild]
      have hcclen : (canonChildren (c :: rest)).length
          = 1 + (canonNode c).length
            + (if rest.isEmpty then 0 else 1 + (canonChildren rest).length) := by
        by_cases hr : rest = [] <;> simp [canonChildren, hr] <;> omega
      by_cases hr : rest = []
      · subst hr
        simp only [List.isEmpty_nil, if_true, List.nil_append] at hchild hdrop1 ⊢
        by_cases hen : endsNoneNot c
        · -- the child's trailing junk scan ate the space before the bracket
          have hext : extraOf c (' ' :: ']' :: post2) = 1 := by
            simp only [extraOf, hen, if_true]
            rw [show (' ' :: ']' :: post2) = ' ' :: (']' :: post2) from rfl]
            rw [show countLeading (fun ch => !(structuralChar ch))
                (' ' :: (']' :: post2))
                = countLeading (fun ch => !(structuralChar ch))
                  (']' :: post2) + 1 from by simp [countLeading, structuralChar]]
            rw [countLeading_cons_neg (by decide)]
          obtain ⟨g, rfl⟩ : ∃ g, f = g + 1 := ⟨f - 1, by
            have := nodeFuel_pos c
            omega⟩
          have hdrop2 : e.drop (pos + (lead.length + 1) + ((canonNode c).length + 1))
              = [']'] ++ post2 := by
            rw [drop_pos_add, hdrop1]
            rw [show (canonNode c ++ ' ' :: ']' :: post2)
                = (canonNode c ++ [' ']) ++ (']' :: post2) from by simp]
            rw [List.drop_left' (by simp)]
            rfl
          have hchar2 : charAt e (pos + (lead.length + 1)
              + ((canonNode c).length + 1)) = ']' := by
            have := charAt_of_drop hdrop2 0 (by simp)
            simpa [charAt] using this
          have hcond : (decide (pos + (lead.length + 1) + (canonNode c).length
              + extraOf c (' ' :: ']' :: post2) < e.length) &&
              (charAt e (pos + (lead.length + 1) + (canonNode c).length
                + extraOf c (' ' :: ']' :: post2)) != ']')) = false := by
            rw [hext]
            rw [show pos + (lead.length + 1) + (canonNode c).length + 1
                = pos + (lead.length + 1) + ((canonNode c).length + 1) from by omega]
            rw [hchar2]
            simp
          rw [childLoopF_step_exit hcond]
          rw [hext, hcclen]
          simp only [Option.some.injEq, Prod.mk.injEq, List.append_nil,
            List.isEmpty_nil, if_true]
          exact ⟨trivial, by omega⟩
        · have hext : extraOf c (' ' :: ']' :: post2) = 0 := by
            simp [extraOf, hen]
          have hdrop2 : e.drop (pos + (lead.length + 1) + (canonNode c).length)
              = [] ++ canonChildren ([] : List Node) ++ ' ' :: ']' :: post2 := by
            rw [drop_pos_add, hdrop1, List.drop_left]
            simp [canonChildren]
          have := ih (by intro x hx; simp at hx) f e post2
            (pos + (lead.length + 1) + (canonNode c).length) (acc ++ [c]) []
            (by have := nodeFuel_pos c; unfold childrenFuel; omega)
            (Or.inl rfl) hdrop2
          rw [hext, Nat.add_zero, this]
          rw [hcclen]
          simp only [Option.some.injEq, Prod.mk.injEq, List.append_assoc,
            List.singleton_append, List.length_nil, List.isEmpty_nil, if_true]
          exact ⟨trivial, by simp [canonChildren]; omega⟩
      · have hrne : rest.isEmpty = false := by
          rcases rest with _ | _
          · exact absurd rfl hr
          · rfl
        simp only [hrne, Bool.false_eq_true, if_false] at hchild hdrop1 ⊢
        have hext : extraOf c ((',' :: canonChildren rest) ++ ' ' :: ']' :: post2)
            = 0 := by
          unfold extraOf
          by_cases hen : endsNoneNot c
          · rw [if_pos hen]
            rw [show ((',' :: canonChildren rest) ++ ' ' :: ']' :: post2)
                = ',' :: (canonChildren rest ++ ' ' :: ']' :: post2) from rfl]
            rw [countLeading_cons_neg (by decide)]
          · rw [if_neg hen]
        have hdrop2 : e.drop (pos + (lead.length + 1) + (canonNode c).length)
            = [','] ++ canonChildren rest ++ ' ' :: ']' :: post2 := by
          rw [drop_pos_add, hdrop1, List.drop_left]
          rfl
        have := ih (fun x hx => HP x (by simp [hx])) f e post2
          (pos + (lead.length + 1) + (canonNode c).length) (acc ++ [c]) [',']
          (by omega) (Or.inr ⟨rfl, hr⟩) hdrop2
        rw [hext, Nat.add_zero, this]
        rw [hcclen]
        simp only [Option.some.injEq, Prod.mk.injEq, List.append_assoc,
          List.singleton_append, List.length_singleton, hrne,
          Bool.false_eq_true, if_false]
        exact ⟨trivial, by omega⟩

theorem parseChildren_canon (cs : List Node) (HP : ∀ c ∈ cs, ParsesCanon c) :
    ∀ (f : Nat) (e post : List Char) (pos : Nat),
      f ≥ childrenFuel cs + 1 →
      e.drop pos = ' ' :: '[' :: (canonChildren cs ++ ' ' :: ']' :: post) →
      parseChildrenF f e pos = some (cs, pos + (canonChildren cs).length + 4) := by
  intro f e post pos hf h
  obtain ⟨g, rfl⟩ : ∃ g, f = g + 1 := ⟨f - 1, by omega⟩
  have h3 : e.drop pos
      = [' ', '['] ++ (canonChildren cs ++ ' ' :: ']' :: post) := h
  have hskip : skipIdx Char.isWhitespace e pos = pos + 1 := by
    unfold skipIdx
    rw [h]
    rw [show (' ' :: '[' :: (canonChildren cs ++ ' ' :: ']' :: post))
        = ' ' :: ('[' :: (canonChildren cs ++ ' ' :: ']' :: post)) from rfl]
    rw [show countLeading Char.isWhitespace
        (' ' :: ('[' :: (canonChildren cs ++ ' ' :: ']' :: post)))
        = countLeading Char.isWhitespace
          ('[' :: (canonChildren cs ++ ' ' :: ']' :: post)) + 1 from by
      simp [countLeading]]
    rw [countLeading_cons_neg (by decide)]
  have hdrop1 : e.drop (pos + 1)
      = ['['] ++ (canonChildren cs ++ ' ' :: ']' :: post) := by
    rw [drop_pos_add, h]
    rfl
  have hlt1 : pos + 1 < e.length := pos_lt_of_drop hdrop1 (by simp)
  have hc1 : charAt e (pos + 1) = '[' := by
    have := charAt_of_drop hdrop1 0 (by simp)
    simpa [charAt] using this
  rw [parseChildrenF_step (by rw [hskip]; exact hlt1) (by rw [hskip]; exact hc1),
    hskip]
  have hdrop2 : e.drop (pos + 1 + 1)
      = [] ++ canonChildren cs ++ ' ' :: ']' :: post := by
    rw [drop_pos_add, drop_pos_add, h]
    rfl
  rw [childLoop_canon cs HP g e post (pos + 1 + 1) [] []
    (by omega) (Or.inl rfl) hdrop2]
  simp only [List.nil_append, List.length_nil, Nat.add_zero]
  have hdrop2a : e.drop (pos + 1 + 1)
      = (canonChildren cs ++ [' ']) ++ (']' :: post) := by
    rw [hdrop2]
    simp
  have hdrop3 : e.drop (pos + 1 + 1 + ((canonChildren cs).length + 1))
      = [']'] ++ post := by
    rw [drop_pos_add, hdrop2a, List.drop_left' (by simp)]
    rfl
  have hlt3 : pos + 1 + 1 + ((canonChildren cs).length + 1) < e.length :=
    pos_lt_of_drop hdrop3 (by simp)
  have hc3 : charAt e (pos + 1 + 1 + ((canonChildren cs).length + 1)) = ']' := by
    have := charAt_of_drop hdrop3 0 (by simp)
    simpa [charAt] using this
  have hcond : (decide (pos + 1 + 1 + (canonChildren cs).length + 1 < e.length)
      && (charAt e (pos + 1 + 1 + (canonChildren cs).length + 1) == ']'))
      = true := by
    rw [show pos + 1 + 1 + (canonChildren cs).length + 1
        = pos + 1 + 1 + ((canonChildren cs).length + 1) from by omega]
    rw [hc3]
    simp [hlt3]
  rw [hcond]
  simp only [if_true]
  simp only [Option.some.injEq, Prod.mk.injEq]
  exact ⟨trivial, by omega⟩

theorem parsesCanon_andN (cb : Bool) (cs : List Node)
    (HP : ∀ c ∈ cs, ParsesCanon c) : ParsesCanon (Node.andN cb cs none) := by
  intro fuel e post pos hfuel h
  obtain ⟨f, rfl⟩ : ∃ f, fuel = f + 1 :=
    ⟨fuel - 1, by unfold nodeFuel at hfuel; omega⟩
  have hf : f ≥ childrenFuel cs + 1 := by
    unfold nodeFuel at hfuel
    omega
  have hext : extraOf (Node.andN cb cs none) post = 0 := by
    simp [extraOf, endsNoneNot]
  cases cb with
  | true =>
      have hcanon : canonNode (Node.andN true cs none)
          = '&' :: '&' :: ' ' :: '[' :: (canonChildren cs ++ [' ', ']']) := rfl
      have hlen : (canonNode (Node.andN true cs none)).length
          = (canonChildren cs).length + 6 := by
        rw [hcanon]
        simp
      have h3 : e.drop pos
          = ['&', '&'] ++ (' ' :: '[' :: (canonChildren cs ++ ' ' :: ']' :: post)) := by
        rw [h, hcanon]
        simp
      have hlt : pos < e.length := pos_lt_of_drop h3 (by simp)
      have hskip : skipIdx Char.isWhitespace e pos = pos :=
        skipIdx_of_head h3 (by decide)
      have hdrop1 : e.drop (pos + 1)
          = ['&'] ++ (' ' :: '[' :: (canonChildren cs ++ ' ' :: ']' :: post)) := by
        rw [drop_pos_add, h3]
        rfl
      have hlt1 : pos + 1 < e.length := pos_lt_of_drop hdrop1 (by simp)
      have hc : charAt e pos = '&' := by
        have := charAt_of_drop h3 0 (by simp)
        simpa [charAt] using this
      have hc1 : charAt e (pos + 1) = '&' := by
        have := charAt_of_drop hdrop1 0 (by simp)
        simpa [charAt] using this
      rw [parseExprF_step_and2 hlt hskip hlt1 hc hc1]
      have hdrop2 : e.drop (pos + 2)
          = ' ' :: '[' :: (canonChildren cs ++ ' ' :: ']' :: post) := by
        rw [drop_pos_add, h3]
        rfl
      rw [parseChildren_canon cs HP f e post (pos + 2) hf hdrop2]
      simp only [Option.some.injEq, Prod.mk.injEq]
      exact ⟨trivial, by rw [hext, hlen]; omega⟩
  | false =>
      have hcanon : canonNode (Node.andN false cs none)
          = '&' :: ' ' :: '[' :: (canonChildren cs ++ [' ', ']']) := rfl
      have hlen : (canonNode (Node.andN false cs none)).length
          = (canonChildren cs).length + 5 := by
        rw [hcanon]
        simp
      have h3 : e.drop pos
          = ['&'] ++ (' ' :: '[' :: (canonChildren cs ++ ' ' :: ']' :: post)) := by
        rw [h, hcanon]
        simp
      have hlt : pos < e.length := pos_lt_of_drop h3 (by simp)
      have hskip : skipIdx Char.isWhitespace e pos = pos :=
        skipIdx_of_head h3 (by decide)
      have hdrop1 : e.drop (pos + 1)
          = ' ' :: '[' :: (canonChildren cs ++ ' ' :: ']' :: post) := by
        rw [drop_pos_add, h3]
        rfl
      have hc : charAt e pos = '&' := by
        have := charAt_of_drop h3 0 (by simp)
        simpa [charAt] using this
      have hc1 : (charAt e (pos + 1) == '&') = false := by
        have h0 := charAt_of_drop
          (show e.drop (pos + 1)
            = [' '] ++ ('[' :: (canonChildren cs ++ ' ' :: ']' :: post))
            from hdrop1) 0 (by simp)
        simp only [Nat.add_zero] at h0
        rw [h0]
        decide
      rw [parseExprF_step_and1 hlt hskip hc hc1]
      rw [parseChildren_canon cs HP f e post (pos + 1) hf hdrop1]
      simp only [Option.some.injEq, Prod.mk.injEq]
      exact ⟨trivial, by rw [hext, hlen]; omega⟩

theorem parsesCanon_orN (cb : Bool) (cs : List Node)
    (HP : ∀ c ∈ cs, ParsesCanon c) : ParsesCanon (Node.orN cb cs none) := by
  intro fuel e post pos hfuel h
  obtain ⟨f, rfl⟩ : ∃ f, fuel = f + 1 :=
    ⟨fuel - 1, by unfold nodeFuel at hfuel; omega⟩
  have hf : f ≥ childrenFuel cs + 1 := by
    unfold nodeFuel at hfuel
    omega
  have hext : extraOf (Node.orN cb cs none) post = 0 := by
    simp [extraOf, endsNoneNot]
  cases cb with
  | true =>
      have hcanon : canonNode (Node.orN true cs none)
          = '|' :: '|' :: ' ' :: '[' :: (canonChildren cs ++ [' ', ']']) := rfl
      have hlen : (canonNode (Node.orN true cs none)).length
          = (canonChildren cs).length + 6 := by
        rw [hcanon]
        simp
      have h3 : e.drop pos
          = ['|', '|'] ++ (' ' :: '[' :: (canonChildren cs ++ ' ' :: ']' :: post)) := by
        rw [h, hcanon]
        simp
      have hlt : pos < e.length := pos_lt_of_drop h3 (by simp)
      have hskip : skipIdx Char.isWhitespace e pos = pos :=
        skipIdx_of_head h3 (by decide)
      have hdrop1 : e.drop (pos + 1)
          = ['|'] ++ (' ' :: '[' :: (canonChildren cs ++ ' ' :: ']' :: post)) := by
        rw [drop_pos_add, h3]
        rfl
      have hlt1 : pos + 1 < e.length := pos_lt_of_drop hdrop1 (by simp)
      have hc : charAt e pos = '|' := by
        have := charAt_of_drop h3 0 (by simp)
        simpa [charAt] using this
      have hc1 : charAt e (pos + 1) = '|' := by
        have := charAt_of_drop hdrop1 0 (by simp)
        simpa [charAt] using this
      rw [parseExprF_step_or2 hlt hskip hlt1 hc hc1]
      have hdrop2 : e.drop (pos + 2)
          = ' ' :: '[' :: (canonChildren cs ++ ' ' :: ']' :: post) := by
        rw [drop_pos_add, h3]
        rfl
      rw [parseChildren_canon cs HP f e post (pos + 2) hf hdrop2]
      simp only [Option.some.injEq, Prod.mk.injEq]
      exact ⟨trivial, by rw [hext, hlen]; omega⟩
  | false =>
      have hcanon : canonNode (Node.orN false cs none)
          = '|' :: ' ' :: '[' :: (canonChildren cs ++ [' ', ']']) := rfl
      have hlen : (canonNode (Node.orN false cs none)).length
          = (canonChildren cs).length + 5 := by
        rw [hcanon]
        simp
      have h3 : e.drop pos
          = ['|'] ++ (' ' :: '[' :: (canonChildren cs ++ ' ' :: ']' :: post)) := by
        rw [h, hcanon]
        simp
      have hlt : pos < e.length := pos_lt_of_drop h3 (by simp)
      have hskip : skipIdx Char.isWhitespace e pos = pos :=
        skipIdx_of_head h3 (by decide)
      have hdrop1 : e.drop (pos + 1)
          = ' ' :: '[' :: (canonChildren cs ++ ' ' :: ']' :: post) := by
        rw [drop_pos_add, h3]
        rfl
      have hc : charAt e pos = '|' := by
        have := charAt_of_drop h3 0 (by simp)
        simpa [charAt] using this
      have hc1 : (charAt e (pos + 1) == '|') = false := by
        have h0 := charAt_of_drop
          (show e.drop (pos + 1)
            = [' '] ++ ('[' :: (canonChildren cs ++ ' ' :: ']' :: post))
            from hdrop1) 0 (by simp)
        simp only [Nat.add_zero] at h0
        rw [h0]
        decide
      rw [parseExprF_step_or1 hlt hskip hc hc1]
      rw [parseChildren_canon cs HP f e post (pos + 1) hf hdrop1]
      simp only [Option.some.injEq, Prod.mk.injEq]
      exact ⟨trivial, by rw [hext, hlen]; omega⟩

theorem wfChildren_mem {cs : List Node} {c : Node} (h : wfChildren cs = true)
    (hm : c ∈ cs) : wfNode c = true := by
  induction cs with
  | nil => simp at hm
  | cons a rest ih =>
      simp only [wfChildren, Bool.and_eq_true] at h
      rcases List.mem_cons.mp hm with h1 | h1
      · subst h1
        exact h.1
      · exact ih h.2 h1

theorem parsesCanon_of_wf_aux :
    ∀ (m : Nat) (t : Node), sizeOf t ≤ m → wfNode t = true → ParsesCanon t := by
  intro m
  induction m with
  | zero =>
      intro t hle hwf
      exfalso
      cases t <;> simp at hle
  | succ m ih =>
      intro t hle hwf
      cases t with
      | script n args cache =>
          simp only [wfNode, Bool.and_eq_true] at hwf
          obtain ⟨⟨hn, hargs⟩, hcache⟩ := hwf
          have hcn : cache = none := by
            cases cache with
            | none => rfl
            | some v => simp at hcache
          subst hcn
          exact parsesCanon_script hn hargs
      | notN child cache =>
          cases child with
          | none =>
              simp only [wfNode] at hwf
              have hcn : cache = none := by
                cases cache with
                | none => rfl
                | some v => simp at hwf
              subst hcn
              exact parsesCanon_notNone
          | some c =>
              simp only [wfNode, Bool.and_eq_true] at hwf
              obtain ⟨hc, hcache⟩ := hwf
              have hcn : cache = none := by
                cases cache with
                | none => rfl
                | some v => simp at hcache
              subst hcn
              have hsz : sizeOf c ≤ m := by
                simp at hle
                omega
              exact parsesCanon_notSome (ih c hsz hc)
      | andN cb cs cache =>
          simp only [wfNode, Bool.and_eq_true] at hwf
          obtain ⟨hcs, hcache⟩ := hwf
          have hcn : cache = none := by
            cases cache with
            | none => rfl
            | some v => simp at hcache
          subst hcn
          have hall : ∀ c ∈ cs, ParsesCanon c := by
            intro c hcmem
            have h1 : sizeOf c < sizeOf cs := List.sizeOf_lt_of_mem hcmem
            have h2 : sizeOf cs ≤ m := by
              simp at hle
              omega
            exact ih c (by omega) (wfChildren_mem hcs hcmem)
          exact parsesCanon_andN cb cs hall
      | orN cb cs cache =>
          simp only [wfNode, Bool.and_eq_true] at hwf
          obtain ⟨hcs, hcache⟩ := hwf
          have hcn : cache = none := by
            cases cache with
            | none => rfl
            | some v => simp at hcache
          subst hcn
          have hall : ∀ c ∈ cs, ParsesCanon c := by
            intro c hcmem
            have h1 : sizeOf c < sizeOf cs := List.sizeOf_lt_of_mem hcmem
            have h2 : sizeOf cs ≤ m := by
              simp at hle
              omega
            exact ih c (by omega) (wfChildren_mem hcs hcmem)
          exact parsesCanon_orN cb cs hall

theorem parsesCanon_of_wf (t : Node) (hwf : wfNode t = true) : ParsesCanon t :=
  parsesCanon_of_wf_aux (sizeOf t) t (le_refl _) hwf

/-! ### C6: the effect of each normalization pass on a serialized tree -/

/-- The operator prefix `&&`/`&` (or `||`/`|`). -/
def opStr (b : Bool) (c : Char) : List Char := if b then [c, c] else [c]

mutual

/-- The serialized tree after the `\s*\[\s*` pass: the doubled space of an
empty child list is merged. -/
def o1 : Node → List Char
  | Node.script n args _ =>
      if args = [] then '(' :: n.toList ++ [')']
      else '(' :: n.toList ++ ':' :: strArgs args ++ [')']
  | Node.notN none _ => ['!', 'N', 'o', 'n', 'e']
  | Node.notN (some c) _ => '!' :: o1 c
  | Node.andN cb cs _ =>
      opStr cb '&' ++ ' ' :: '[' ::
        (if cs.isEmpty then [] else ' ' :: o1ch cs) ++ [' ', ']']
  | Node.orN cb cs _ =>
      opStr cb '|' ++ ' ' :: '[' ::
        (if cs.isEmpty then [] else ' ' :: o1ch cs) ++ [' ', ']']

/-- Children after the `[` pass (`", "` joins are untouched). -/
def o1ch : List Node → List Char
  | [] => []
  | c :: rest => o1 c ++ (if rest.isEmpty then [] else ',' :: ' ' :: o1ch rest)

end

mutual

/-- After the `\s*\]\s*` pass: every `]` now carries a trailing space. -/
def o2 : Node → List Char
  | Node.script n args _ =>
      if args = [] then '(' :: n.toList ++ [')']
      else '(' :: n.toList ++ ':' :: strArgs args ++ [')']
  | Node.notN none _ => ['!', 'N', 'o', 'n', 'e']
  | Node.notN (some c) _ => '!' :: o2 c
  | Node.andN cb cs _ =>
      opStr cb '&' ++ ' ' :: '[' ::
        (if cs.isEmpty then [] else ' ' :: o2ch cs) ++ [' ', ']', ' ']
  | Node.orN cb cs _ =>
      opStr cb '|' ++ ' ' :: '[' ::
        (if cs.isEmpty then [] else ' ' :: o2ch cs) ++ [' ', ']', ' ']

/-- Children after the `]` pass. -/
def o2ch : List Node → List Char
  | [] => []
  | c :: rest => o2 c ++ (if rest.isEmpty then [] else ',' :: ' ' :: o2ch rest)

end

/-- Whitespace buffered (not yet emitted) at a node's end after the `(` pass:
the trailing space that pass 2 put after an operator's closing `]`. -/
def p3exit : Node → List Char
  | Node.script _ _ _ => []
  | Node.notN none _ => []
  | Node.notN (some c) _ => p3exit c
  | Node.andN _ _ _ => [' ']
  | Node.orN _ _ _ => [' ']

/-- The pass-3 output's separating space before a child: an atom starts with
the replacement `" ( "` itself, every other child keeps the flushed space. -/
def lead3 (t : Node) : List Char := if isScript t then [] else [' ']

/-- `p3exit` of the last child. -/
def p3last : List Node → List Char
  | [] => []
  | [c] => p3exit c
  | _ :: rest => p3last rest

mutual

/-- After the `\s*\(\s*` pass (buffered trailing whitespace excluded). -/
def o3 : Node → List Char
  | Node.script n args _ =>
      if args = [] then ' ' :: '(' :: ' ' :: n.toList ++ [')']
      else ' ' :: '(' :: ' ' :: n.toList ++ ':' :: strArgs args ++ [')']
  | Node.notN none _ => ['!', 'N', 'o', 'n', 'e']
  | Node.notN (some c) _ => '!' :: o3 c
  | Node.andN cb cs _ =>
      opStr cb '&' ++ ' ' :: '[' :: o3ch cs ++ p3last cs ++ [' ', ']']
  | Node.orN cb cs _ =>
      opStr cb '|' ++ ' ' :: '[' :: o3ch cs ++ p3last cs ++ [' ', ']']

/-- Children after the `(` pass; the last child's buffered space is owned by
the parent. -/
def o3ch : List Node → List Char
  | [] => []
  | [c] => lead3 c ++ o3 c
  | c :: rest => lead3 c ++ o3 c ++ p3exit c ++ ',' :: o3ch rest

end

/-- Whether the pass-4 output of a node ends in a fresh `" ) "` replacement
(the scanner is still in whitespace-skipping state). -/
def exit4 : Node → Bool
  | Node.script _ _ _ => true
  | Node.notN none _ => false
  | Node.notN (some c) _ => exit4 c
  | Node.andN _ _ _ => false
  | Node.orN _ _ _ => false

/-- `exit4` of the last child (`false` for an empty list). -/
def e4l : List Node → Bool
  | [] => false
  | [c] => exit4 c
  | _ :: rest => e4l rest

/-- The closing of an operator node after the `)` pass: a trailing atom's
replacement already ate the space before `]`. -/
def close4 (cs : List Node) : List Char :=
  if e4l cs then [']'] else p3last cs ++ [' ', ']']

mutual

/-- After the `\s*\)\s*` pass. -/
def o4 : Node → List Char
  | Node.script n args _ =>
      if args = [] then ' ' :: '(' :: ' ' :: n.toList ++ [' ', ')', ' ']
      else ' ' :: '(' :: ' ' :: n.toList ++ ':' :: strArgs args ++ [' ', ')', ' ']
  | Node.notN none _ => ['!', 'N', 'o', 'n', 'e']
  | Node.notN (some c) _ => '!' :: o4 c
  | Node.andN cb cs _ => opStr cb '&' ++ ' ' :: '[' :: o4ch cs ++ close4 cs
  | Node.orN cb cs _ => opStr cb '|' ++ ' ' :: '[' :: o4ch cs ++ close4 cs

/-- Children after the `)` pass. -/
def o4ch : List Node → List Char
  | [] => []
  | [c] => lead3 c ++ o4 c
  | c :: rest =>
      lead3 c ++ o4 c ++ (if exit4 c then [] else p3exit c) ++ ',' :: o4ch rest

end

/-- Whitespace buffered at a node's end during the comma pass (the trailing
space of a `" ) "` replacement). -/
def p5exit : Node → List Char
  | Node.script _ _ _ => [' ']
  | Node.notN none _ => []
  | Node.notN (some c) _ => p5exit c
  | Node.andN _ _ _ => []
  | Node.orN _ _ _ => []

/-- `p5exit` of the last child. -/
def p5l : List Node → List Char
  | [] => []
  | [c] => p5exit c
  | _ :: rest => p5l rest

/-- The closing of an operator node after the comma pass. -/
def close5 (cs : List Node) : List Char :=
  p5l cs ++ (if e4l cs then [] else p3last cs ++ [' ']) ++ [']']

mutual

/-- After the comma pass: canonical up to doubled spaces before `]`. -/
def o5 : Node → List Char
  | Node.script n args _ =>
      if args = [] then '(' :: ' ' :: n.toList ++ [' ', ')']
      else '(' :: ' ' :: n.toList ++ ':' :: canonArgs args ++ [' ', ')']
  | Node.notN none _ => ['!', 'N', 'o', 'n', 'e']
  | Node.notN (some c) _ => '!' :: (if isScript c then ' ' :: o5 c else o5 c)
  | Node.andN cb cs _ =>
      opStr cb '&' ++ ' ' :: '[' ::
        (if cs.isEmpty then [' ', ']'] else ' ' :: o5ch cs ++ close5 cs)
  | Node.orN cb cs _ =>
      opStr cb '|' ++ ' ' :: '[' ::
        (if cs.isEmpty then [' ', ']'] else ' ' :: o5ch cs ++ close5 cs)

/-- Children after the comma pass: single-space `", "` joins. -/
def o5ch : List Node → List Char
  | [] => []
  | [c] => o5 c
  | c :: rest => o5 c ++ ',' :: ' ' :: o5ch rest

end

/-- The leading space the comma pass leaves in front of a top-level atom. -/
def wsl (t : Node) : List Char := if isScript t then [' '] else []

theorem subA_nil (c : Char) (r pend : List Char) (sk : Bool) :
    subA c r sk pend [] = pend := by
  cases sk <;> rfl

theorem subA_hit (c : Char) (r pend y : List Char) :
    subA c r false pend (c :: y) = r ++ subA c r true [] y := by
  simp [subA]

theorem subA_ws {c x : Char} (hx : x.isWhitespace = true)
    (hxc : (x == c) = false) (r pend y : List Char) :
    subA c r false pend (x :: y) = subA c r false (pend ++ [x]) y := by
  simp [subA, hx, hxc]

theorem subA_plain {c x : Char} (hx : x.isWhitespace = false)
    (hxc : (x == c) = false) (r pend y : List Char) :
    subA c r false pend (x :: y) = pend ++ x :: subA c r false [] y := by
  simp [subA, hx, hxc]

theorem subA_true_ws {c x : Char} (hx : x.isWhitespace = true)
    (r y : List Char) :
    subA c r true [] (x :: y) = subA c r true [] y := by
  simp [subA, hx]

theorem subA_true_hit {c : Char} (hc : c.isWhitespace = false)
    (r y : List Char) :
    subA c r true [] (c :: y) = r ++ subA c r true [] y := by
  simp [subA, hc]

theorem subA_true_plain {c x : Char} (hx : x.isWhitespace = false)
    (hxc : (x == c) = false) (r y : List Char) :
    subA c r true [] (x :: y) = x :: subA c r false [] y := by
  simp [subA, hx, hxc]

theorem subA_true_flip {c x : Char} (hx : x.isWhitespace = false)
    (hxc : (x == c) = false) (r y : List Char) :
    subA c r true [] (x :: y) = subA c r false [] (x :: y) := by
  rw [subA_true_plain hx hxc, subA_plain hx hxc]
  rfl

theorem subA_spaces {c : Char} (hc : (' ' == c) = false) :
    ∀ (w : List Char), (∀ x ∈ w, x = ' ') →
      ∀ (r pend y : List Char),
        subA c r false pend (w ++ y) = subA c r false (pend ++ w) y := by
  intro w
  induction w with
  | nil => intro _ r pend y; simp
  | cons a w ih =>
      intro hw r pend y
      have ha : a = ' ' := hw a (by simp)
      subst ha
      rw [List.cons_append, subA_ws (by decide) hc,
        ih (fun x hx => hw x (by simp [hx]))]
      simp

theorem subA_true_spaces {c : Char} :
    ∀ (w : List Char), (∀ x ∈ w, x = ' ') →
      ∀ (r y : List Char),
        subA c r true [] (w ++ y) = subA c r true [] y := by
  intro w
  induction w with
  | nil => intro _ r y; simp
  | cons a w ih =>
      intro hw r y
      have ha : a = ' ' := hw a (by simp)
      subst ha
      rw [List.cons_append, subA_true_ws (by decide),
        ih (fun x hx => hw x (by simp [hx]))]

theorem subA_plain_chunk {c : Char} :
    ∀ (w : List Char), w ≠ [] →
      (∀ x ∈ w, x.isWhitespace = false ∧ (x == c) = false) →
      ∀ (r pend y : List Char),
        subA c r false pend (w ++ y) = pend ++ w ++ subA c r false [] y := by
  intro w
  induction w with
  | nil => intro h; exact absurd rfl h
  | cons a w ih =>
      intro _ hw r pend y
      obtain ⟨ha1, ha2⟩ := hw a (by simp)
      rcases w with _ | ⟨b, w⟩
      · rw [List.cons_append, List.nil_append, subA_plain ha1 ha2]
        simp
      · rw [List.cons_append, subA_plain ha1 ha2,
          ih (by simp) (fun x hx => hw x (by simp [hx])) r [] y]
        simp

theorem subA_true_plain_chunk {c : Char} :
    ∀ (w : List Char), w ≠ [] →
      (∀ x ∈ w, x.isWhitespace = false ∧ (x == c) = false) →
      ∀ (r y : List Char),
        subA c r true [] (w ++ y) = w ++ subA c r false [] y := by
  intro w hne hw r y
  rcases w with _ | ⟨a, w⟩
  · exact absurd rfl hne
  · obtain ⟨ha1, ha2⟩ := hw a (by simp)
    rw [List.cons_append, subA_true_flip ha1 ha2, ← List.cons_append,
      subA_plain_chunk (a :: w) (by simp) hw r [] y]
    rfl

theorem structural_not_alnum {c : Char} (h : structuralChar c = true) :
    c.isAlphanum = false := by
  unfold structuralChar at h
  simp only [Bool.or_eq_true, beq_iff_eq] at h
  rcases h with ((((((h | h) | h) | h) | h) | h) | h) <;> subst h <;> decide

theorem alnum_plain {c x : Char} (hc : structuralChar c = true)
    (hx : x.isAlphanum = true) :
    x.isWhitespace = false ∧ (x == c) = false := by
  refine ⟨alphanum_not_ws hx, ?_⟩
  have : x ≠ c := alphanum_ne hx (structural_not_alnum hc)
  simpa using this

theorem tok_plain {c : Char} {n : String} (hc : structuralChar c = true)
    (hn : goodTok n = true) :
    ∀ x ∈ n.toList, x.isWhitespace = false ∧ (x == c) = false := by
  obtain ⟨_, hall⟩ := goodTok_unfold hn
  intro x hx
  exact alnum_plain hc (by
    rw [List.all_eq_true] at hall
    exact hall x hx)

theorem strArgs_chars {args : List String} (h : args.all goodTok = true) :
    ∀ x ∈ strArgs args, x.isAlphanum = true ∨ x = ',' := by
  induction args with
  | nil => intro x hx; simp [strArgs] at hx
  | cons a rest ih =>
      simp only [List.all_cons, Bool.and_eq_true] at h
      intro x hx
      unfold strArgs at hx
      rcases List.mem_append.mp hx with h1 | h1
      · obtain ⟨_, hall⟩ := goodTok_unfold h.1
        rw [List.all_eq_true] at hall
        exact Or.inl (hall x h1)
      · by_cases hr : rest = []
        · subst hr
          simp at h1
        · rw [if_neg hr] at h1
          rcases List.mem_cons.mp h1 with h2 | h2
          · exact Or.inr h2
          · exact ih h.2 x h2

theorem strNode_head (t : Node) :
    ∃ c0 u, strNode t = c0 :: u ∧ c0.isWhitespace = false ∧
      (c0 = '(' ∨ c0 = '!' ∨ c0 = '&' ∨ c0 = '|') := by
  cases t with
  | script n args cache =>
      by_cases ha : args = []
      · exact ⟨'(', n.toList ++ [')'], by simp [strNode, ha], by decide, Or.inl rfl⟩
      · exact ⟨'(', n.toList ++ ':' :: strArgs args ++ [')'],
          by simp [strNode, ha], by decide, Or.inl rfl⟩
  | notN c cache =>
      exact ⟨'!', strOptChild c, by simp [strNode], by decide, Or.inr (Or.inl rfl)⟩
  | andN cb cs cache =>
      cases cb with
      | true =>
          exact ⟨'&', '&' :: ' ' :: '[' :: ' ' :: strChildren cs ++ [' ', ']'],
            by simp [strNode], by decide, Or.inr (Or.inr (Or.inl rfl))⟩
      | false =>
          exact ⟨'&', ' ' :: '[' :: ' ' :: strChildren cs ++ [' ', ']'],
            by simp [strNode], by decide, Or.inr (Or.inr (Or.inl rfl))⟩
  | orN cb cs cache =>
      cases cb with
      | true =>
          exact ⟨'|', '|' :: ' ' :: '[' :: ' ' :: strChildren cs ++ [' ', ']'],
            by simp [strNode], by decide, Or.inr (Or.inr (Or.inr rfl))⟩
      | false =>
          exact ⟨'|', ' ' :: '[' :: ' ' :: strChildren cs ++ [' ', ']'],
            by simp [strNode], by decide, Or.inr (Or.inr (Or.inr rfl))⟩

theorem exit4_p3exit_aux :
    ∀ (m : Nat) (t : Node), sizeOf t ≤ m → exit4 t = true → p3exit t = [] := by
  intro m
  induction m with
  | zero =>
      intro t hle
      exfalso
      cases t <;> simp at hle
  | succ m ih =>
      intro t hle
      cases t with
      | script n args cache => intro _; rfl
      | notN c cache =>
          cases c with
          | none => intro h; simp [exit4] at h
          | some c =>
              intro h
              simp only [exit4] at h
              simp only [p3exit]
              exact ih c (by simp at hle; omega) h
      | andN cb cs cache => intro h; simp [exit4] at h
      | orN cb cs cache => intro h; simp [exit4] at h

theorem exit4_p3exit (t : Node) : exit4 t = true → p3exit t = [] :=
  exit4_p3exit_aux (sizeOf t) t (le_refl _)

theorem e4l_p3last : ∀ cs : List Node, e4l cs = true → p3last cs = [] := by
  intro cs
  induction cs with
  | nil => intro h; simp [e4l] at h
  | cons c rest ih =>
      intro h
      cases rest with
      | nil =>
          simp only [e4l] at h
          simp only [p3last]
          exact exit4_p3exit c h
      | cons b rest2 =>
          simp only [e4l] at h
          simp only [p3last]
          exact ih h

theorem pass1_aux : ∀ m : Nat,
    (∀ t : Node, sizeOf t ≤ m → wfNode t = true → ∀ pend y,
      subA '[' [' ', '[', ' '] false pend (strNode t ++ y)
        = pend ++ o1 t ++ subA '[' [' ', '[', ' '] false [] y)
    ∧ (∀ cs : List Node, cs ≠ [] → sizeOf cs ≤ m → wfChildren cs = true →
        ∀ pend y,
      subA '[' [' ', '[', ' '] false pend (strChildren cs ++ y)
        = pend ++ o1ch cs ++ subA '[' [' ', '[', ' '] false [] y) := by
  intro m
  induction m with
  | zero =>
      constructor
      · intro t hle
        exfalso
        cases t <;> simp at hle
      · intro cs hne hle
        exfalso
        rcases cs with _ | ⟨c, rest⟩
        · exact hne rfl
        · simp at hle
  | succ m ih =>
      constructor
      · intro t hle hwf pend y
        cases t with
        | script n args cache =>
            simp only [wfNode, Bool.and_eq_true] at hwf
            obtain ⟨⟨hn, hargs⟩, _⟩ := hwf
            by_cases ha : args = []
            · simp only [strNode, ha, if_true, o1]
              rw [subA_plain_chunk ('(' :: n.toList ++ [')']) (by simp)
                (by
                  intro x hx
                  rcases List.mem_append.mp hx with h1 | h1
                  · rcases List.mem_cons.mp h1 with h2 | h2
                    · subst h2; exact ⟨by decide, by decide⟩
                    · exact tok_plain (by decide) hn x h2
                  · simp only [List.mem_singleton] at h1
                    subst h1; exact ⟨by decide, by decide⟩)]
            · simp only [strNode, ha, if_false, o1]
              rw [subA_plain_chunk ('(' :: n.toList ++ ':' :: strArgs args ++ [')'])
                (by simp)
                (by
                  intro x hx
                  rcases List.mem_append.mp hx with h1 | h1
                  · rcases List.mem_append.mp h1 with h2 | h2
                    · rcases List.mem_cons.mp h2 with h3 | h3
                      · subst h3; exact ⟨by decide, by decide⟩
                      · exact tok_plain (by decide) hn x h3
                    · rcases List.mem_cons.mp h2 with h3 | h3
                      · subst h3; exact ⟨by decide, by decide⟩
                      · rcases strArgs_chars hargs x h3 with h4 | h4
                        · exact alnum_plain (by decide) h4
                        · subst h4; exact ⟨by decide, by decide⟩
                  · simp only [List.mem_singleton] at h1
                    subst h1; exact ⟨by decide, by decide⟩)]
        | notN child cache =>
            cases child with
            | none =>
                simp only [strNode, strOptChild, o1]
                rw [subA_plain_chunk ['!', 'N', 'o', 'n', 'e'] (by simp)
                  (by decide)]
            | some c =>
                simp only [wfNode, Bool.and_eq_true] at hwf
                simp only [strNode, strOptChild, o1]
                rw [List.cons_append, subA_plain (by decide) (by decide),
                  (ih.1 c (by simp at hle; omega) hwf.1 [] y : _)]
                simp
        | andN cb cs cache =>
            simp only [wfNode, Bool.and_eq_true] at hwf
            have hop : (if cb then ['&', '&'] else ['&']) = opStr cb '&' := rfl
            simp only [strNode, hop, o1]
            rw [show (opStr cb '&' ++ ' ' :: '[' :: ' ' :: strChildren cs
                  ++ [' ', ']']) ++ y
                = opStr cb '&' ++ (' ' :: ('[' :: (' ' ::
                    (strChildren cs ++ ([' ', ']'] ++ y))))) from by simp]
            rw [subA_plain_chunk (opStr cb '&')
                (by cases cb <;> simp [opStr])
                (by cases cb <;> decide)]
            rw [subA_ws (by decide) (by decide), subA_hit, subA_true_ws (by decide)]
            by_cases hcs : cs = []
            · subst hcs
              rw [show strChildren ([] : List Node) ++ ([' ', ']'] ++ y)
                  = ' ' :: (']' :: y) from by simp [strChildren],
                subA_true_ws (by decide), subA_true_plain (by decide) (by decide)]
              simp
            · obtain ⟨c1, rest, rfl⟩ : ∃ c1 rest, cs = c1 :: rest :=
                ⟨cs.head (by simp [hcs]), cs.tail, by simp⟩
              obtain ⟨c0, u, hcu, hc0ws, hc0c⟩ := strNode_head c1
              have hc0ne : (c0 == '[') = false := by
                rcases hc0c with h | h | h | h <;> subst h <;> decide
              have hsc : ∃ u2, strChildren (c1 :: rest) = c0 :: u2 := by
                refine ⟨u ++ (if rest.isEmpty then []
                  else ',' :: ' ' :: strChildren rest), ?_⟩
                simp only [strChildren, hcu, List.cons_append]
              obtain ⟨u2, hsc⟩ := hsc
              rw [hsc, show (c0 :: u2) ++ ([' ', ']'] ++ y)
                  = c0 :: (u2 ++ ([' ', ']'] ++ y)) from rfl,
                subA_true_flip hc0ws hc0ne,
                show c0 :: (u2 ++ ([' ', ']'] ++ y))
                  = (c0 :: u2) ++ ([' ', ']'] ++ y) from rfl, ← hsc,
                (ih.2 (c1 :: rest) (by simp) (by simp at hle ⊢; omega) hwf.1
                  [] ([' ', ']'] ++ y) : _),
                show subA '[' [' ', '[', ' '] false []  ([' ', ']'] ++ y)
                  = subA '[' [' ', '[', ' '] false [] (' ' :: (']' :: y))
                  from rfl,
                subA_ws (by decide) (by decide),
                subA_plain (by decide) (by decide)]
              simp
        | orN cb cs cache =>
            simp only [wfNode, Bool.and_eq_true] at hwf
            have hop : (if cb then ['|', '|'] else ['|']) = opStr cb '|' := rfl
            simp only [strNode, hop, o1]
            rw [show (opStr cb '|' ++ ' ' :: '[' :: ' ' :: strChildren cs
                  ++ [' ', ']']) ++ y
                = opStr cb '|' ++ (' ' :: ('[' :: (' ' ::
                    (strChildren cs ++ ([' ', ']'] ++ y))))) from by simp]
            rw [subA_plain_chunk (opStr cb '|')
                (by cases cb <;> simp [opStr])
                (by cases cb <;> decide)]
            rw [subA_ws (by decide) (by decide), subA_hit, subA_true_ws (by decide)]
            by_cases hcs : cs = []
            · subst hcs
              rw [show strChildren ([] : List Node) ++ ([' ', ']'] ++ y)
                  = ' ' :: (']' :: y) from by simp [strChildren],
                subA_true_ws (by decide), subA_true_plain (by decide) (by decide)]
              simp
            · obtain ⟨c1, rest, rfl⟩ : ∃ c1 rest, cs = c1 :: rest :=
                ⟨cs.head (by simp [hcs]), cs.tail, by simp⟩
              obtain ⟨c0, u, hcu, hc0ws, hc0c⟩ := strNode_head c1
              have hc0ne : (c0 == '[') = false := by
                rcases hc0c with h | h | h | h <;> subst h <;> decide
              have hsc : ∃ u2, strChildren (c1 :: rest) = c0 :: u2 := by
                refine ⟨u ++ (if rest.isEmpty then []
                  else ',' :: ' ' :: strChildren rest), ?_⟩
                simp only [strChildren, hcu, List.cons_append]
              obtain ⟨u2, hsc⟩ := hsc
              rw [hsc, show (c0 :: u2) ++ ([' ', ']'] ++ y)
                  = c0 :: (u2 ++ ([' ', ']'] ++ y)) from rfl,
                subA_true_flip hc0ws hc0ne,
                show c0 :: (u2 ++ ([' ', ']'] ++ y))
                  = (c0 :: u2) ++ ([' ', ']'] ++ y) from rfl, ← hsc,
                (ih.2 (c1 :: rest) (by simp) (by simp at hle ⊢; omega) hwf.1
                  [] ([' ', ']'] ++ y) : _),
                show subA '[' [' ', '[', ' '] false []  ([' ', ']'] ++ y)
                  = subA '[' [' ', '[', ' '] false [] (' ' :: (']' :: y))
                  from rfl,
                subA_ws (by decide) (by decide),
                subA_plain (by decide) (by decide)]
              simp
      · intro cs hne hle hwf pend y
        rcases cs with _ | ⟨c, rest⟩
        · exact absurd rfl hne
        · simp only [wfChildren, Bool.and_eq_true] at hwf
          by_cases hr : rest = []
          · subst hr
            simp only [strChildren, List.isEmpty_nil, if_true, List.append_nil,
              o1ch]
            exact ih.1 c (by simp at hle; omega) hwf.1 pend y
          · have hre : rest.isEmpty = false := by
              rcases rest with _ | _
              · exact absurd rfl hr
              · rfl
            simp only [strChildren, hre, Bool.false_eq_true, if_false, o1ch]
            rw [List.append_assoc,
              (ih.1 c (by simp at hle; omega) hwf.1 pend
                ((',' :: ' ' :: strChildren rest) ++ y) : _),
              show (',' :: ' ' :: strChildren rest) ++ y
                = ',' :: (' ' :: (strChildren rest ++ y)) from by simp,
              subA_plain (by decide) (by decide),
              subA_ws (by decide) (by decide)]
            simp only [List.nil_append]
            rw [(ih.2 rest hr (by simp at hle; omega) hwf.2 [' '] y : _)]
            simp

theorem pass1_full (t : Node) (h : wfNode t = true) :
    subA '[' [' ', '[', ' '] false [] (strNode t) = o1 t := by
  have h2 := (pass1_aux (sizeOf t)).1 t (le_refl _) h [] []
  rw [List.append_nil] at h2
  rw [h2, subA_nil]
  simp

/-- Whether the pass-2 output of a node ends in a fresh `" ] "` replacement
(whitespace-skipping state). -/
def endsRb : Node → Bool
  | Node.script _ _ _ => false
  | Node.notN none _ => false
  | Node.notN (some c) _ => endsRb c
  | Node.andN _ _ _ => true
  | Node.orN _ _ _ => true

/-- `endsRb` of the last child. -/
def endsRbL : List Node → Bool
  | [] => false
  | [c] => endsRb c
  | _ :: rest => endsRbL rest

theorem pass2_aux : ∀ m : Nat,
    (∀ t : Node, sizeOf t ≤ m → wfNode t = true → ∀ pend y,
      subA ']' [' ', ']', ' '] false pend (o1 t ++ y)
        = pend ++ o2 t ++ subA ']' [' ', ']', ' '] (endsRb t) [] y)
    ∧ (∀ cs : List Node, cs ≠ [] → sizeOf cs ≤ m → wfChildren cs = true →
        ∀ pend y,
      subA ']' [' ', ']', ' '] false pend (o1ch cs ++ y)
        = pend ++ o2ch cs ++ subA ']' [' ', ']', ' '] (endsRbL cs) [] y) := by
  intro m
  induction m with
  | zero =>
      constructor
      · intro t hle
        exfalso
        cases t <;> simp at hle
      · intro cs hne hle
        exfalso
        rcases cs with _ | ⟨c, rest⟩
        · exact hne rfl
        · simp at hle
  | succ m ih =>
      constructor
      · intro t hle hwf pend y
        cases t with
        | script n args cache =>
            simp only [wfNode, Bool.and_eq_true] at hwf
            obtain ⟨⟨hn, hargs⟩, _⟩ := hwf
            by_cases ha : args = []
            · simp only [o1, ha, if_true, o2, endsRb]
              rw [subA_plain_chunk ('(' :: n.toList ++ [')']) (by simp)
                (by
                  intro x hx
                  rcases List.mem_append.mp hx with h1 | h1
                  · rcases List.mem_cons.mp h1 with h2 | h2
                    · subst h2; exact ⟨by decide, by decide⟩
                    · exact tok_plain (by decide) hn x h2
                  · simp only [List.mem_singleton] at h1
                    subst h1; exact ⟨by decide, by decide⟩)]
            · simp only [o1, ha, if_false, o2, endsRb]
              rw [subA_plain_chunk ('(' :: n.toList ++ ':' :: strArgs args ++ [')'])
                (by simp)
                (by
                  intro x hx
                  rcases List.mem_append.mp hx with h1 | h1
                  · rcases List.mem_append.mp h1 with h2 | h2
                    · rcases List.mem_cons.mp h2 with h3 | h3
                      · subst h3; exact ⟨by decide, by decide⟩
                      · exact tok_plain (by decide) hn x h3
                    · rcases List.mem_cons.mp h2 with h3 | h3
                      · subst h3; exact ⟨by decide, by decide⟩
                      · rcases strArgs_chars hargs x h3 with h4 | h4
                        · exact alnum_plain (by decide) h4
                        · subst h4; exact ⟨by decide, by decide⟩
                  · simp only [List.mem_singleton] at h1
                    subst h1; exact ⟨by decide, by decide⟩)]
        | notN child cache =>
            cases child with
            | none =>
                simp only [o1, o2, endsRb]
                rw [subA_plain_chunk ['!', 'N', 'o', 'n', 'e'] (by simp)
                  (by decide)]
            | some c =>
                simp only [wfNode, Bool.and_eq_true] at hwf
                simp only [o1, o2, endsRb]
                rw [List.cons_append, subA_plain (by decide) (by decide),
                  (ih.1 c (by simp at hle; omega) hwf.1 [] y : _)]
                simp
        | andN cb cs cache =>
            simp only [wfNode, Bool.and_eq_true] at hwf
            by_cases hcs : cs = []
            · subst hcs
              simp only [o1, o2, endsRb, List.isEmpty_nil, if_true]
              rw [show (opStr cb '&' ++ ' ' :: '[' :: [] ++ [' ', ']']) ++ y
                  = opStr cb '&' ++ (' ' :: ('[' :: (' ' :: (']' :: y))))
                  from by simp]
              rw [subA_plain_chunk (opStr cb '&')
                  (by cases cb <;> simp [opStr]) (by cases cb <;> decide)]
              rw [subA_ws (by decide) (by decide),
                subA_plain (by decide) (by decide),
                subA_ws (by decide) (by decide), subA_hit]
              simp
            · have hre : cs.isEmpty = false := by
                rcases cs with _ | _
                · exact absurd rfl hcs
                · rfl
              simp only [o1, o2, endsRb, hre, Bool.false_eq_true, if_false]
              rw [show (opStr cb '&' ++ ' ' :: '[' :: (' ' :: o1ch cs) ++ [' ', ']']) ++ y
                  = opStr cb '&' ++ (' ' :: ('[' :: (' ' ::
                      (o1ch cs ++ ([' ', ']'] ++ y))))) from by simp]
              rw [subA_plain_chunk (opStr cb '&')
                  (by cases cb <;> simp [opStr]) (by cases cb <;> decide)]
              rw [subA_ws (by decide) (by decide),
                subA_plain (by decide) (by decide),
                subA_ws (by decide) (by decide)]
              simp only [List.nil_append]
              rw [(ih.2 cs hcs (by simp at hle ⊢; omega) hwf.1
                [' '] ([' ', ']'] ++ y) : _)]
              cases hb : endsRbL cs
              · rw [show subA ']' [' ', ']', ' '] false [] ([' ', ']'] ++ y)
                    = subA ']' [' ', ']', ' '] false [] (' ' :: (']' :: y))
                    from rfl,
                  subA_ws (by decide) (by decide), subA_hit]
                simp
              · rw [show ([' ', ']'] ++ y) = ' ' :: (']' :: y) from rfl,
                  subA_true_ws (by decide), subA_true_hit (by decide)]
                simp
        | orN cb cs cache =>
            simp only [wfNode, Bool.and_eq_true] at hwf
            by_cases hcs : cs = []
            · subst hcs
              simp only [o1, o2, endsRb, List.isEmpty_nil, if_true]
              rw [show (opStr cb '|' ++ ' ' :: '[' :: [] ++ [' ', ']']) ++ y
                  = opStr cb '|' ++ (' ' :: ('[' :: (' ' :: (']' :: y))))
                  from by simp]
              rw [subA_plain_chunk (opStr cb '|')
                  (by cases cb <;> simp [opStr]) (by cases cb <;> decide)]
              rw [subA_ws (by decide) (by decide),
                subA_plain (by decide) (by decide),
                subA_ws (by decide) (by decide), subA_hit]
              simp
            · have hre : cs.isEmpty = false := by
                rcases cs with _ | _
                · exact absurd rfl hcs
                · rfl
              simp only [o1, o2, endsRb, hre, Bool.false_eq_true, if_false]
              rw [show (opStr cb '|' ++ ' ' :: '[' :: (' ' :: o1ch cs) ++ [' ', ']']) ++ y
                  = opStr cb '|' ++ (' ' :: ('[' :: (' ' ::
                      (o1ch cs ++ ([' ', ']'] ++ y))))) from by simp]
              rw [subA_plain_chunk (opStr cb '|')
                  (by cases cb <;> simp [opStr]) (by cases cb <;> decide)]
              rw [subA_ws (by decide) (by decide),
                subA_plain (by decide) (by decide),
                subA_ws (by decide) (by decide)]
              simp only [List.nil_append]
              rw [(ih.2 cs hcs (by simp at hle ⊢; omega) hwf.1
                [' '] ([' ', ']'] ++ y) : _)]
              cases hb : endsRbL cs
              · rw [show subA ']' [' ', ']', ' '] false [] ([' ', ']'] ++ y)
                    = subA ']' [' ', ']', ' '] false [] (' ' :: (']' :: y))
                    from rfl,
                  subA_ws (by decide) (by decide), subA_hit]
                simp
              · rw [show ([' ', ']'] ++ y) = ' ' :: (']' :: y) from rfl,
                  subA_true_ws (by decide), subA_true_hit (by decide)]
                simp
      · intro cs hne hle hwf pend y
        rcases cs with _ | ⟨c, rest⟩
        · exact absurd rfl hne
        · simp only [wfChildren, Bool.and_eq_true] at hwf
          by_cases hr : rest = []
          · subst hr
            simp only [o1ch, List.isEmpty_nil, if_true, List.append_nil,
              o2ch, endsRbL]
            exact ih.1 c (by simp at hle; omega) hwf.1 pend y
          · have hre : rest.isEmpty = false := by
              rcases rest with _ | _
              · exact absurd rfl hr
              · rfl
            simp only [o1ch, hre, Bool.false_eq_true, if_false, o2ch]
            rw [List.append_assoc,
              (ih.1 c (by simp at hle; omega) hwf.1 pend
                ((',' :: ' ' :: o1ch rest) ++ y) : _)]
            have hendsRbL : endsRbL (c :: rest) = endsRbL rest := by
              rcases rest with _ | _
              · exact absurd rfl hr
              · rfl
            rw [hendsRbL]
            cases hb : endsRb c
            · rw [show (',' :: ' ' :: o1ch rest) ++ y
                  = ',' :: (' ' :: (o1ch rest ++ y)) from by simp,
                subA_plain (by decide) (by decide),
                subA_ws (by decide) (by decide)]
              simp only [List.nil_append]
              rw [(ih.2 rest hr (by simp at hle; omega) hwf.2 [' '] y : _)]
              simp
            · rw [show (',' :: ' ' :: o1ch rest) ++ y
                  = ',' :: (' ' :: (o1ch rest ++ y)) from by simp,
                subA_true_plain (by decide) (by decide),
                subA_ws (by decide) (by decide)]
              simp only [List.nil_append]
              rw [(ih.2 rest hr (by simp at hle; omega) hwf.2 [' '] y : _)]
              simp

theorem pass2_full (t : Node) (h : wfNode t = true) :
    subA ']' [' ', ']', ' '] false [] (o1 t) = o2 t := by
  have h2 := (pass2_aux (sizeOf t)).1 t (le_refl _) h [] []
  rw [List.append_nil] at h2
  rw [h2, subA_nil]
  simp

theorem pass3_aux : ∀ m : Nat,
    (∀ t : Node, sizeOf t ≤ m → wfNode t = true → ∀ pend y,
      subA '(' [' ', '(', ' '] false pend (o2 t ++ y)
        = (if isScript t then [] else pend) ++ o3 t
            ++ subA '(' [' ', '(', ' '] false (p3exit t) y)
    ∧ (∀ cs : List Node, cs ≠ [] → sizeOf cs ≤ m → wfChildren cs = true →
        ∀ y,
      subA '(' [' ', '(', ' '] false [' '] (o2ch cs ++ y)
        = o3ch cs ++ subA '(' [' ', '(', ' '] false (p3last cs) y) := by
  intro m
  induction m with
  | zero =>
      constructor
      · intro t hle
        exfalso
        cases t <;> simp at hle
      · intro cs hne hle
        exfalso
        rcases cs with _ | ⟨c, rest⟩
        · exact hne rfl
        · simp at hle
  | succ m ih =>
      constructor
      · intro t hle hwf pend y
        cases t with
        | script n args cache =>
            simp only [wfNode, Bool.and_eq_true] at hwf
            obtain ⟨⟨hn, hargs⟩, _⟩ := hwf
            by_cases ha : args = []
            · simp only [o2, ha, if_true, o3, isScript, p3exit]
              rw [show ('(' :: n.toList ++ [')']) ++ y
                  = '(' :: ((n.toList ++ [')']) ++ y) from by simp,
                subA_hit,
                subA_true_plain_chunk (n.toList ++ [')']) (by simp)
                  (by
                    intro x hx
                    rcases List.mem_append.mp hx with h1 | h1
                    · exact tok_plain (by decide) hn x h1
                    · simp only [List.mem_singleton] at h1
                      subst h1; exact ⟨by decide, by decide⟩)]
              simp
            · simp only [o2, ha, if_false, o3, isScript, p3exit]
              rw [show ('(' :: n.toList ++ ':' :: strArgs args ++ [')']) ++ y
                  = '(' :: ((n.toList ++ ':' :: strArgs args ++ [')']) ++ y)
                  from by simp,
                subA_hit,
                subA_true_plain_chunk (n.toList ++ ':' :: strArgs args ++ [')'])
                  (by simp)
                  (by
                    intro x hx
                    rcases List.mem_append.mp hx with h1 | h1
                    · rcases List.mem_append.mp h1 with h2 | h2
                      · exact tok_plain (by decide) hn x h2
                      · rcases List.mem_cons.mp h2 with h3 | h3
                        · subst h3; exact ⟨by decide, by decide⟩
                        · rcases strArgs_chars hargs x h3 with h4 | h4
                          · exact alnum_plain (by decide) h4
                          · subst h4; exact ⟨by decide, by decide⟩
                    · simp only [List.mem_singleton] at h1
                      subst h1; exact ⟨by decide, by decide⟩)]
              simp
        | notN child cache =>
            cases child with
            | none =>
                simp only [o2, o3, isScript, p3exit]
                rw [subA_plain_chunk ['!', 'N', 'o', 'n', 'e'] (by simp)
                  (by decide)]
                simp
            | some c =>
                simp only [wfNode, Bool.and_eq_true] at hwf
                simp only [o2, o3, isScript, p3exit]
                rw [List.cons_append, subA_plain (by decide) (by decide),
                  (ih.1 c (by simp at hle; omega) hwf.1 [] y : _)]
                simp
        | andN cb cs cache =>
            simp only [wfNode, Bool.and_eq_true] at hwf
            by_cases hcs : cs = []
            · subst hcs
              simp only [o2, o3, isScript, p3exit, o3ch, p3last,
                List.isEmpty_nil, if_true]
              rw [show (opStr cb '&' ++ ' ' :: '[' :: [] ++ [' ', ']', ' ']) ++ y
                  = opStr cb '&' ++ (' ' :: ('[' :: (' ' :: (']' ::
                      (' ' :: y))))) from by simp]
              rw [subA_plain_chunk (opStr cb '&')
                  (by cases cb <;> simp [opStr]) (by cases cb <;> decide)]
              rw [subA_ws (by decide) (by decide),
                subA_plain (by decide) (by decide),
                subA_ws (by decide) (by decide),
                subA_plain (by decide) (by decide),
                subA_ws (by decide) (by decide)]
              simp
            · have hre : cs.isEmpty = false := by
                rcases cs with _ | _
                · exact absurd rfl hcs
                · rfl
              simp only [o2, o3, isScript, p3exit, hre, Bool.false_eq_true,
                if_false]
              rw [show (opStr cb '&' ++ ' ' :: '[' :: (' ' :: o2ch cs) ++ [' ', ']', ' ']) ++ y
                  = opStr cb '&' ++ (' ' :: ('[' :: (' ' ::
                      (o2ch cs ++ ([' ', ']', ' '] ++ y))))) from by simp]
              rw [subA_plain_chunk (opStr cb '&')
                  (by cases cb <;> simp [opStr]) (by cases cb <;> decide)]
              rw [subA_ws (by decide) (by decide),
                subA_plain (by decide) (by decide),
                subA_ws (by decide) (by decide)]
              simp only [List.nil_append]
              rw [(ih.2 cs hcs (by simp at hle ⊢; omega) hwf.1
                ([' ', ']', ' '] ++ y) : _)]
              rw [show ([' ', ']', ' '] ++ y) = ' ' :: (']' :: (' ' :: y))
                  from rfl,
                subA_ws (by decide) (by decide),
                subA_plain (by decide) (by decide),
                subA_ws (by decide) (by decide)]
              simp
        | orN cb cs cache =>
            simp only [wfNode, Bool.and_eq_true] at hwf
            by_cases hcs : cs = []
            · subst hcs
              simp only [o2, o3, isScript, p3exit, o3ch, p3last,
                List.isEmpty_nil, if_true]
              rw [show (opStr cb '|' ++ ' ' :: '[' :: [] ++ [' ', ']', ' ']) ++ y
                  = opStr cb '|' ++ (' ' :: ('[' :: (' ' :: (']' ::
                      (' ' :: y))))) from by simp]
              rw [subA_plain_chunk (opStr cb '|')
                  (by cases cb <;> simp [opStr]) (by cases cb <;> decide)]
              rw [subA_ws (by decide) (by decide),
                subA_plain (by decide) (by decide),
                subA_ws (by decide) (by decide),
                subA_plain (by decide) (by decide),
                subA_ws (by decide) (by decide)]
              simp
            · have hre : cs.isEmpty = false := by
                rcases cs with _ | _
                · exact absurd rfl hcs
                · rfl
              simp only [o2, o3, isScript, p3exit, hre, Bool.false_eq_true,
                if_false]
              rw [show (opStr cb '|' ++ ' ' :: '[' :: (' ' :: o2ch cs) ++ [' ', ']', ' ']) ++ y
                  = opStr cb '|' ++ (' ' :: ('[' :: (' ' ::
                      (o2ch cs ++ ([' ', ']', ' '] ++ y))))) from by simp]
              rw [subA_plain_chunk (opStr cb '|')
                  (by cases cb <;> simp [opStr]) (by cases cb <;> decide)]
              rw [subA_ws (by decide) (by decide),
                subA_plain (by decide) (by decide),
                subA_ws (by decide) (by decide)]
              simp only [List.nil_append]
              rw [(ih.2 cs hcs (by simp at hle ⊢; omega) hwf.1
                ([' ', ']', ' '] ++ y) : _)]
              rw [show ([' ', ']', ' '] ++ y) = ' ' :: (']' :: (' ' :: y))
                  from rfl,
                subA_ws (by decide) (by decide),
                subA_plain (by decide) (by decide),
                subA_ws (by decide) (by decide)]
              simp
      · intro cs hne hle hwf y
        rcases cs with _ | ⟨c, rest⟩
        · exact absurd rfl hne
        · simp only [wfChildren, Bool.and_eq_true] at hwf
          by_cases hr : rest = []
          · subst hr
            simp only [o2ch, List.isEmpty_nil, if_true, List.append_nil,
              o3ch, p3last, lead3]
            exact ih.1 c (by simp at hle; omega) hwf.1 [' '] y
          · have hre : rest.isEmpty = false := by
              rcases rest with _ | _
              · exact absurd rfl hr
              · rfl
            obtain ⟨b, rest2, rfl⟩ : ∃ b rest2, rest = b :: rest2 :=
              ⟨rest.head (by simp [hr]), rest.tail, by simp⟩
            have hout : o2ch (c :: b :: rest2)
                = o2 c ++ ',' :: ' ' :: o2ch (b :: rest2) := by
              simp [o2ch]
            rw [hout, List.append_assoc,
              (ih.1 c (by simp at hle; omega) hwf.1 [' ']
                ((',' :: ' ' :: o2ch (b :: rest2)) ++ y) : _)]
            rw [show (',' :: ' ' :: o2ch (b :: rest2)) ++ y
                = ',' :: (' ' :: (o2ch (b :: rest2) ++ y)) from by simp,
              subA_plain (by decide) (by decide),
              subA_ws (by decide) (by decide)]
            simp only [List.nil_append]
            rw [(ih.2 (b :: rest2) (by simp) (by simp at hle ⊢; omega)
              hwf.2 y : _)]
            have hout3 : o3ch (c :: b :: rest2)
                = lead3 c ++ o3 c ++ p3exit c ++ ',' :: o3ch (b :: rest2) := by
              simp [o3ch]
            rw [hout3, show p3last (c :: b :: rest2) = p3last (b :: rest2)
              from rfl]
            simp [lead3]

theorem pass3_full (t : Node) (h : wfNode t = true) :
    subA '(' [' ', '(', ' '] false [] (o2 t) = o3 t ++ p3exit t := by
  have h2 := (pass3_aux (sizeOf t)).1 t (le_refl _) h [] []
  rw [List.append_nil] at h2
  rw [h2, subA_nil]
  simp

theorem p3exit_spaces_aux :
    ∀ (m : Nat) (t : Node), sizeOf t ≤ m → ∀ x ∈ p3exit t, x = ' ' := by
  intro m
  induction m with
  | zero =>
      intro t hle
      exfalso
      cases t <;> simp at hle
  | succ m ih =>
      intro t hle
      cases t with
      | script n args cache => intro x hx; simp [p3exit] at hx
      | notN c cache =>
          cases c with
          | none => intro x hx; simp [p3exit] at hx
          | some c =>
              intro x hx
              simp only [p3exit] at hx
              exact ih c (by simp at hle; omega) x hx
      | andN cb cs cache =>
          intro x hx
          simp only [p3exit, List.mem_singleton] at hx
          exact hx
      | orN cb cs cache =>
          intro x hx
          simp only [p3exit, List.mem_singleton] at hx
          exact hx

theorem p3exit_spaces (t : Node) : ∀ x ∈ p3exit t, x = ' ' :=
  p3exit_spaces_aux (sizeOf t) t (le_refl _)

theorem p3last_spaces : ∀ (cs : List Node), ∀ x ∈ p3last cs, x = ' ' := by
  intro cs
  induction cs with
  | nil => intro x hx; simp [p3last] at hx
  | cons c rest ih =>
      cases rest with
      | nil =>
          intro x hx
          simp only [p3last] at hx
          exact p3exit_spaces c x hx
      | cons b rest2 =>
          intro x hx
          simp only [p3last] at hx
          exact ih x hx

theorem lead3_spaces (t : Node) : ∀ x ∈ lead3 t, x = ' ' := by
  intro x hx
  unfold lead3 at hx
  by_cases h : isScript t
  · rw [if_pos h] at hx
    simp at hx
  · rw [if_neg h] at hx
    simp only [List.mem_singleton] at hx
    exact hx

theorem pass4_aux : ∀ m : Nat,
    (∀ t : Node, sizeOf t ≤ m → wfNode t = true → ∀ pend y,
      subA ')' [' ', ')', ' '] false pend (o3 t ++ y)
        = pend ++ o4 t ++ subA ')' [' ', ')', ' '] (exit4 t) [] y)
    ∧ (∀ cs : List Node, cs ≠ [] → sizeOf cs ≤ m → wfChildren cs = true →
        ∀ y,
      subA ')' [' ', ')', ' '] false [] (o3ch cs ++ y)
        = o4ch cs ++ subA ')' [' ', ')', ' '] (e4l cs) [] y) := by
  intro m
  induction m with
  | zero =>
      constructor
      · intro t hle
        exfalso
        cases t <;> simp at hle
      · intro cs hne hle
        exfalso
        rcases cs with _ | ⟨c, rest⟩
        · exact hne rfl
        · simp at hle
  | succ m ih =>
      constructor
      · intro t hle hwf pend y
        cases t with
        | script n args cache =>
            simp only [wfNode, Bool.and_eq_true] at hwf
            obtain ⟨⟨hn, hargs⟩, _⟩ := hwf
            obtain ⟨hnne, _⟩ := goodTok_unfold hn
            by_cases ha : args = []
            · simp only [o3, ha, if_true, o4, exit4]
              rw [show (' ' :: '(' :: ' ' :: n.toList ++ [')']) ++ y
                  = ' ' :: ('(' :: (' ' :: (n.toList ++ (')' :: y))))
                  from by simp,
                subA_ws (by decide) (by decide),
                subA_plain (by decide) (by decide),
                subA_ws (by decide) (by decide)]
              simp only [List.nil_append]
              rw [subA_plain_chunk n.toList hnne
                (fun x hx => tok_plain (by decide) hn x hx),
                subA_hit]
              simp
            · simp only [o3, ha, if_false, o4, exit4]
              rw [show (' ' :: '(' :: ' ' :: n.toList ++ ':' :: strArgs args
                    ++ [')']) ++ y
                  = ' ' :: ('(' :: (' ' :: ((n.toList ++ ':' :: strArgs args)
                    ++ (')' :: y)))) from by simp,
                subA_ws (by decide) (by decide),
                subA_plain (by decide) (by decide),
                subA_ws (by decide) (by decide)]
              simp only [List.nil_append]
              rw [subA_plain_chunk (n.toList ++ ':' :: strArgs args)
                (by simp [hnne])
                (by
                  intro x hx
                  rcases List.mem_append.mp hx with h1 | h1
                  · exact tok_plain (by decide) hn x h1
                  · rcases List.mem_cons.mp h1 with h2 | h2
                    · subst h2; exact ⟨by decide, by decide⟩
                    · rcases strArgs_chars hargs x h2 with h3 | h3
                      · exact alnum_plain (by decide) h3
                      · subst h3; exact ⟨by decide, by decide⟩),
                subA_hit]
              simp
        | notN child cache =>
            cases child with
            | none =>
                simp only [o3, o4, exit4]
                rw [subA_plain_chunk ['!', 'N', 'o', 'n', 'e'] (by simp)
                  (by decide)]
            | some c =>
                simp only [wfNode, Bool.and_eq_true] at hwf
                simp only [o3, o4, exit4]
                rw [List.cons_append, subA_plain (by decide) (by decide),
                  (ih.1 c (by simp at hle; omega) hwf.1 [] y : _)]
                simp
        | andN cb cs cache =>
            simp only [wfNode, Bool.and_eq_true] at hwf
            by_cases hcs : cs = []
            · subst hcs
              simp only [o3, o3ch, p3last, o4, o4ch, close4, e4l, exit4,
                Bool.false_eq_true, if_false]
              rw [show (opStr cb '&' ++ ' ' :: '[' :: [] ++ [] ++ [' ', ']']) ++ y
                  = opStr cb '&' ++ (' ' :: ('[' :: (' ' :: (']' :: y))))
                  from by simp]
              rw [subA_plain_chunk (opStr cb '&')
                  (by cases cb <;> simp [opStr]) (by cases cb <;> decide)]
              rw [subA_ws (by decide) (by decide),
                subA_plain (by decide) (by decide),
                subA_ws (by decide) (by decide),
                subA_plain (by decide) (by decide)]
              simp
            · simp only [o3, o4, exit4]
              rw [show (opStr cb '&' ++ ' ' :: '[' :: o3ch cs ++ p3last cs
                    ++ [' ', ']']) ++ y
                  = opStr cb '&' ++ (' ' :: ('[' ::
                      (o3ch cs ++ (p3last cs ++ ([' ', ']'] ++ y)))))
                  from by simp]
              rw [subA_plain_chunk (opStr cb '&')
                  (by cases cb <;> simp [opStr]) (by cases cb <;> decide)]
              rw [subA_ws (by decide) (by decide),
                subA_plain (by decide) (by decide)]
              simp only [List.nil_append]
              rw [(ih.2 cs hcs (by simp at hle ⊢; omega) hwf.1
                (p3last cs ++ ([' ', ']'] ++ y)) : _)]
              cases he : e4l cs
              · rw [subA_spaces (by decide) (p3last cs) (p3last_spaces cs)]
                simp only [List.nil_append]
                rw [show ([' ', ']'] ++ y) = ' ' :: (']' :: y) from rfl,
                  subA_ws (by decide) (by decide),
                  subA_plain (by decide) (by decide)]
                simp [close4, he]
              · rw [e4l_p3last cs he]
                simp only [List.nil_append]
                rw [show ([' ', ']'] ++ y) = ' ' :: (']' :: y) from rfl,
                  subA_true_ws (by decide),
                  subA_true_plain (by decide) (by decide)]
                simp [close4, he]
        | orN cb cs cache =>
            simp only [wfNode, Bool.and_eq_true] at hwf
            by_cases hcs : cs = []
            · subst hcs
              simp only [o3, o3ch, p3last, o4, o4ch, close4, e4l, exit4,
                Bool.false_eq_true, if_false]
              rw [show (opStr cb '|' ++ ' ' :: '[' :: [] ++ [] ++ [' ', ']']) ++ y
                  = opStr cb '|' ++ (' ' :: ('[' :: (' ' :: (']' :: y))))
                  from by simp]
              rw [subA_plain_chunk (opStr cb '|')
                  (by cases cb <;> simp [opStr]) (by cases cb <;> decide)]
              rw [subA_ws (by decide) (by decide),
                subA_plain (by decide) (by decide),
                subA_ws (by decide) (by decide),
                subA_plain (by decide) (by decide)]
              simp
            · simp only [o3, o4, exit4]
              rw [show (opStr cb '|' ++ ' ' :: '[' :: o3ch cs ++ p3last cs
                    ++ [' ', ']']) ++ y
                  = opStr cb '|' ++ (' ' :: ('[' ::
                      (o3ch cs ++ (p3last cs ++ ([' ', ']'] ++ y)))))
                  from by simp]
              rw [subA_plain_chunk (opStr cb '|')
                  (by cases cb <;> simp [opStr]) (by cases cb <;> decide)]
              rw [subA_ws (by decide) (by decide),
                subA_plain (by decide) (by decide)]
              simp only [List.nil_append]
              rw [(ih.2 cs hcs (by simp at hle ⊢; omega) hwf.1
                (p3last cs ++ ([' ', ']'] ++ y)) : _)]
              cases he : e4l cs
              · rw [subA_spaces (by decide) (p3last cs) (p3last_spaces cs)]
                simp only [List.nil_append]
                rw [show ([' ', ']'] ++ y) = ' ' :: (']' :: y) from rfl,
                  subA_ws (by decide) (by decide),
                  subA_plain (by decide) (by decide)]
                simp [close4, he]
              · rw [e4l_p3last cs he]
                simp only [List.nil_append]
                rw [show ([' ', ']'] ++ y) = ' ' :: (']' :: y) from rfl,
                  subA_true_ws (by decide),
                  subA_true_plain (by decide) (by decide)]
                simp [close4, he]
      · intro cs hne hle hwf y
        rcases cs with _ | ⟨c, rest⟩
        · exact absurd rfl hne
        · simp only [wfChildren, Bool.and_eq_true] at hwf
          by_cases hr : rest = []
          · subst hr
            simp only [o3ch, o4ch, e4l]
            rw [List.append_assoc,
              subA_spaces (by decide) (lead3 c) (lead3_spaces c)]
            simp only [List.nil_append]
            rw [(ih.1 c (by simp at hle; omega) hwf.1 (lead3 c) y : _)]
          · obtain ⟨b, rest2, rfl⟩ : ∃ b rest2, rest = b :: rest2 :=
              ⟨rest.head (by simp [hr]), rest.tail, by simp⟩
            have hout : o3ch (c :: b :: rest2)
                = lead3 c ++ (o3 c ++ (p3exit c ++ ',' :: o3ch (b :: rest2))) := by
              simp [o3ch]
            rw [hout, List.append_assoc,
              subA_spaces (by decide) (lead3 c) (lead3_spaces c)]
            simp only [List.nil_append]
            rw [show (o3 c ++ (p3exit c ++ ',' :: o3ch (b :: rest2))) ++ y
                = o3 c ++ ((p3exit c ++ ',' :: o3ch (b :: rest2)) ++ y)
                from by simp]
            rw [(ih.1 c (by simp at hle; omega) hwf.1 (lead3 c)
              ((p3exit c ++ ',' :: o3ch (b :: rest2)) ++ y) : _)]
            have hout4 : o4ch (c :: b :: rest2)
                = lead3 c ++ o4 c ++ (if exit4 c then [] else p3exit c)
                  ++ ',' :: o4ch (b :: rest2) := by
              simp [o4ch]
            rw [hout4, show e4l (c :: b :: rest2) = e4l (b :: rest2) from rfl]
            cases hx : exit4 c
            · rw [show (p3exit c ++ ',' :: o3ch (b :: rest2)) ++ y
                  = p3exit c ++ (',' :: (o3ch (b :: rest2) ++ y)) from by simp,
                subA_spaces (by decide) (p3exit c) (p3exit_spaces c)]
              simp only [List.nil_append]
              rw [subA_plain (by decide) (by decide)]
              rw [(ih.2 (b :: rest2) (by simp) (by simp at hle ⊢; omega)
                hwf.2 y : _)]
              simp
            · rw [exit4_p3exit c hx]
              simp only [List.nil_append]
              rw [show (',' :: o3ch (b :: rest2)) ++ y
                  = ',' :: (o3ch (b :: rest2) ++ y) from by simp,
                subA_true_plain (by decide) (by decide),
                (ih.2 (b :: rest2) (by simp) (by simp at hle ⊢; omega)
                  hwf.2 y : _)]
              simp [hx]

theorem subA_all_spaces {c : Char} (hc : (' ' == c) = false)
    (w : List Char) (hw : ∀ x ∈ w, x = ' ') (r pend : List Char) :
    subA c r false pend w = pend ++ w := by
  have h := subA_spaces hc w hw r pend []
  rw [List.append_nil] at h
  rw [h, subA_nil]

theorem pass4_full (t : Node) (h : wfNode t = true) :
    subA ')' [' ', ')', ' '] false [] (o3 t ++ p3exit t)
      = o4 t ++ (if exit4 t then [] else p3exit t) := by
  have h2 := (pass4_aux (sizeOf t)).1 t (le_refl _) h [] (p3exit t)
  rw [h2]
  cases hx : exit4 t
  · rw [subA_all_spaces (by decide) (p3exit t) (p3exit_spaces t)]
    simp
  · rw [exit4_p3exit t hx]
    simp [subA_nil]

theorem lead3_wsl (t : Node) : lead3 t ++ wsl t = [' '] := by
  unfold lead3 wsl
  by_cases h : isScript t <;> simp [h]

theorem o4_head_nonscript (t : Node) (h : isScript t = false) :
    ∃ c0 u, o4 t = c0 :: u ∧ c0.isWhitespace = false ∧ (c0 == ',') = false := by
  cases t with
  | script n args cache => simp [isScript] at h
  | notN c cache =>
      cases c with
      | none => exact ⟨'!', _, rfl, by decide, by decide⟩
      | some c2 => exact ⟨'!', _, rfl, by decide, by decide⟩
  | andN cb cs cache =>
      cases cb with
      | true => exact ⟨'&', _, rfl, by decide, by decide⟩
      | false => exact ⟨'&', _, rfl, by decide, by decide⟩
  | orN cb cs cache =>
      cases cb with
      | true => exact ⟨'|', _, rfl, by decide, by decide⟩
      | false => exact ⟨'|', _, rfl, by decide, by decide⟩

theorem args_comma :
    ∀ (args : List String), args ≠ [] → args.all goodTok = true →
      ∀ y, subA ',' [',', ' '] false [] (strArgs args ++ y)
        = canonArgs args ++ subA ',' [',', ' '] false [] y := by
  intro args
  induction args with
  | nil => intro h; exact absurd rfl h
  | cons a rest ih =>
      intro _ hall y
      simp only [List.all_cons, Bool.and_eq_true] at hall
      obtain ⟨hnne, _⟩ := goodTok_unfold hall.1
      by_cases hr : rest = []
      · subst hr
        rw [show strArgs [a] = a.toList from by simp [strArgs],
          show canonArgs [a] = a.toList from by simp [canonArgs],
          subA_plain_chunk a.toList hnne
            (fun x hx => tok_plain (by decide) hall.1 x hx)]
        simp
      · obtain ⟨b, rest2, rfl⟩ : ∃ b rest2, rest = b :: rest2 :=
          ⟨rest.head (by simp [hr]), rest.tail, by simp⟩
        have hsa : strArgs (a :: b :: rest2)
            = a.toList ++ ',' :: strArgs (b :: rest2) := by
          simp [strArgs]
        have hca : canonArgs (a :: b :: rest2)
            = a.toList ++ ',' :: ' ' :: canonArgs (b :: rest2) := by
          simp [canonArgs]
        rw [hsa, hca,
          show (a.toList ++ ',' :: strArgs (b :: rest2)) ++ y
            = a.toList ++ (',' :: (strArgs (b :: rest2) ++ y)) from by simp,
          subA_plain_chunk a.toList hnne
            (fun x hx => tok_plain (by decide) hall.1 x hx),
          subA_hit]
        have hbl := goodTok_unfold (by
          simp only [List.all_cons, Bool.and_eq_true] at hall
          exact hall.2.1)
        obtain ⟨h0, u, hbu⟩ : ∃ h0 u, b.toList = h0 :: u := by
          rcases hb : b.toList with _ | ⟨h0, u⟩
          · exact absurd hb hbl.1
          · exact ⟨h0, u, rfl⟩
        have h0al : h0.isAlphanum = true := by
          have := hbl.2
          rw [hbu, List.all_cons, Bool.and_eq_true] at this
          exact this.1
        have hsh : ∃ u2, strArgs (b :: rest2) = h0 :: u2 := by
          refine ⟨u ++ (if rest2 = [] then [] else ',' :: strArgs rest2), ?_⟩
          simp only [strArgs, hbu, List.cons_append]
        obtain ⟨u2, hsh⟩ := hsh
        rw [hsh, show (h0 :: u2) ++ y = h0 :: (u2 ++ y) from rfl,
          subA_true_flip (alphanum_not_ws h0al) (alnum_plain (by decide) h0al).2,
          show h0 :: (u2 ++ y) = (h0 :: u2) ++ y from rfl, ← hsh,
          ih (by simp) (by
            simp only [List.all_cons, Bool.and_eq_true] at hall ⊢
            exact hall.2) y]
        simp

theorem pass5_aux : ∀ m : Nat,
    (∀ t : Node, sizeOf t ≤ m → wfNode t = true → ∀ pend y,
      subA ',' [',', ' '] false pend (o4 t ++ y)
        = pend ++ wsl t ++ o5 t ++ subA ',' [',', ' '] false (p5exit t) y)
    ∧ (∀ t : Node, sizeOf t ≤ m → wfNode t = true → ∀ y,
      subA ',' [',', ' '] true [] (o4 t ++ y)
        = o5 t ++ subA ',' [',', ' '] false (p5exit t) y)
    ∧ (∀ cs : List Node, cs ≠ [] → sizeOf cs ≤ m → wfChildren cs = true →
        ∀ y,
      subA ',' [',', ' '] false [] (o4ch cs ++ y)
        = ' ' :: o5ch cs ++ subA ',' [',', ' '] false (p5l cs) y)
    ∧ (∀ cs : List Node, cs ≠ [] → sizeOf cs ≤ m → wfChildren cs = true →
        ∀ y,
      subA ',' [',', ' '] true [] (o4ch cs ++ y)
        = o5ch cs ++ subA ',' [',', ' '] false (p5l cs) y) := by
  intro m
  induction m with
  | zero =>
      refine ⟨?_, ?_, ?_, ?_⟩
      · intro t hle
        exfalso
        cases t <;> simp at hle
      · intro t hle
        exfalso
        cases t <;> simp at hle
      · intro cs hne hle
        exfalso
        rcases cs with _ | ⟨c, rest⟩
        · exact hne rfl
        · simp at hle
      · intro cs hne hle
        exfalso
        rcases cs with _ | ⟨c, rest⟩
        · exact hne rfl
        · simp at hle
  | succ m ih =>
      have hN5f : ∀ t : Node, sizeOf t ≤ m + 1 → wfNode t = true → ∀ pend y,
          subA ',' [',', ' '] false pend (o4 t ++ y)
            = pend ++ wsl t ++ o5 t
                ++ subA ',' [',', ' '] false (p5exit t) y := by
        intro t hle hwf pend y
        cases t with
        | script n args cache =>
            simp only [wfNode, Bool.and_eq_true] at hwf
            obtain ⟨⟨hn, hargs⟩, _⟩ := hwf
            obtain ⟨hnne, _⟩ := goodTok_unfold hn
            by_cases ha : args = []
            · simp only [o4, ha, if_true, o5, wsl, isScript, p5exit, if_true]
              rw [show (' ' :: '(' :: ' ' :: n.toList ++ [' ', ')', ' ']) ++ y
                  = ' ' :: ('(' :: (' ' :: (n.toList
                      ++ (' ' :: (')' :: (' ' :: y)))))) from by simp,
                subA_ws (by decide) (by decide),
                subA_plain (by decide) (by decide),
                subA_ws (by decide) (by decide)]
              simp only [List.nil_append]
              rw [subA_plain_chunk n.toList hnne
                  (fun x hx => tok_plain (by decide) hn x hx),
                subA_ws (by decide) (by decide),
                subA_plain (by decide) (by decide),
                subA_ws (by decide) (by decide)]
              simp
            · simp only [o4, ha, if_false, o5, wsl, isScript, p5exit, if_true]
              rw [show (' ' :: '(' :: ' ' :: n.toList ++ ':' :: strArgs args
                    ++ [' ', ')', ' ']) ++ y
                  = ' ' :: ('(' :: (' ' :: (n.toList ++ (':' ::
                      (strArgs args ++ (' ' :: (')' :: (' ' :: y))))))))
                  from by simp,
                subA_ws (by decide) (by decide),
                subA_plain (by decide) (by decide),
                subA_ws (by decide) (by decide)]
              simp only [List.nil_append]
              rw [subA_plain_chunk n.toList hnne
                  (fun x hx => tok_plain (by decide) hn x hx),
                subA_plain (by decide) (by decide)]
              simp only [List.nil_append]
              rw [show (strArgs args ++ (' ' :: (')' :: (' ' :: y))))
                  = strArgs args ++ ((' ' :: (')' :: (' ' :: y)))) from rfl,
                args_comma args ha hargs,
                subA_ws (by decide) (by decide),
                subA_plain (by decide) (by decide),
                subA_ws (by decide) (by decide)]
              simp
        | notN child cache =>
            cases child with
            | none =>
                simp only [o4, o5, wsl, isScript, p5exit, if_false]
                rw [subA_plain_chunk ['!', 'N', 'o', 'n', 'e'] (by simp)
                  (by decide)]
                simp
            | some c =>
                simp only [wfNode, Bool.and_eq_true] at hwf
                rw [show o4 (Node.notN (some c) cache) = '!' :: o4 c from rfl,
                  show o5 (Node.notN (some c) cache)
                    = '!' :: (if isScript c then ' ' :: o5 c else o5 c)
                    from rfl,
                  show wsl (Node.notN (some c) cache) = [] from rfl,
                  show p5exit (Node.notN (some c) cache) = p5exit c from rfl]
                rw [List.cons_append, subA_plain (by decide) (by decide),
                  ((ih.1) c (by simp at hle; omega) hwf.1 [] y : _)]
                by_cases hsc : isScript c
                · rw [if_pos hsc]
                  simp [wsl, hsc]
                · rw [if_neg hsc]
                  simp [wsl, hsc]
        | andN cb cs cache =>
            simp only [wfNode, Bool.and_eq_true] at hwf
            by_cases hcs : cs = []
            · subst hcs
              simp only [o4, o4ch, close4, e4l, p3last, o5, wsl, isScript,
                p5exit, Bool.false_eq_true, if_false, List.isEmpty_nil, if_true]
              simp only [List.append_assoc, List.cons_append, List.nil_append]
              rw [subA_plain_chunk (opStr cb '&')
                  (by cases cb <;> simp [opStr]) (by cases cb <;> decide)]
              rw [subA_ws (by decide) (by decide),
                subA_plain (by decide) (by decide),
                subA_ws (by decide) (by decide),
                subA_plain (by decide) (by decide)]
              simp
            · have hre : cs.isEmpty = false := by
                rcases cs with _ | _
                · exact absurd rfl hcs
                · rfl
              simp only [o4, o5, wsl, isScript, p5exit, hre,
                Bool.false_eq_true, if_false]
              rw [show (opStr cb '&' ++ ' ' :: '[' :: o4ch cs ++ close4 cs) ++ y
                  = opStr cb '&' ++ (' ' :: ('[' ::
                      (o4ch cs ++ (close4 cs ++ y)))) from by simp]
              rw [subA_plain_chunk (opStr cb '&')
                  (by cases cb <;> simp [opStr]) (by cases cb <;> decide)]
              rw [subA_ws (by decide) (by decide),
                subA_plain (by decide) (by decide)]
              simp only [List.nil_append]
              rw [((ih.2.2.1) cs hcs (by simp at hle ⊢; omega) hwf.1
                (close4 cs ++ y) : _)]
              unfold close4 close5
              cases he : e4l cs
              · simp only [Bool.false_eq_true, if_false]
                rw [show (p3last cs ++ [' ', ']']) ++ y
                    = p3last cs ++ (' ' :: (']' :: y)) from by simp,
                  subA_spaces (by decide) (p3last cs) (p3last_spaces cs),
                  subA_ws (by decide) (by decide),
                  subA_plain (by decide) (by decide)]
                simp
              · simp only [if_true]
                rw [show ([']'] : List Char) ++ y = ']' :: y from rfl,
                  subA_plain (by decide) (by decide)]
                simp
        | orN cb cs cache =>
            simp only [wfNode, Bool.and_eq_true] at hwf
            by_cases hcs : cs = []
            · subst hcs
              simp only [o4, o4ch, close4, e4l, p3last, o5, wsl, isScript,
                p5exit, Bool.false_eq_true, if_false, List.isEmpty_nil, if_true]
              simp only [List.append_assoc, List.cons_append, List.nil_append]
              rw [subA_plain_chunk (opStr cb '|')
                  (by cases cb <;> simp [opStr]) (by cases cb <;> decide)]
              rw [subA_ws (by decide) (by decide),
                subA_plain (by decide) (by decide),
                subA_ws (by decide) (by decide),
                subA_plain (by decide) (by decide)]
              simp
            · have hre : cs.isEmpty = false := by
                rcases cs with _ | _
                · exact absurd rfl hcs
                · rfl
              simp only [o4, o5, wsl, isScript, p5exit, hre,
                Bool.false_eq_true, if_false]
              rw [show (opStr cb '|' ++ ' ' :: '[' :: o4ch cs ++ close4 cs) ++ y
                  = opStr cb '|' ++ (' ' :: ('[' ::
                      (o4ch cs ++ (close4 cs ++ y)))) from by simp]
              rw [subA_plain_chunk (opStr cb '|')
                  (by cases cb <;> simp [opStr]) (by cases cb <;> decide)]
              rw [subA_ws (by decide) (by decide),
                subA_plain (by decide) (by decide)]
              simp only [List.nil_append]
              rw [((ih.2.2.1) cs hcs (by simp at hle ⊢; omega) hwf.1
                (close4 cs ++ y) : _)]
              unfold close4 close5
              cases he : e4l cs
              · simp only [Bool.false_eq_true, if_false]
                rw [show (p3last cs ++ [' ', ']']) ++ y
                    = p3last cs ++ (' ' :: (']' :: y)) from by simp,
                  subA_spaces (by decide) (p3last cs) (p3last_spaces cs),
                  subA_ws (by decide) (by decide),
                  subA_plain (by decide) (by decide)]
                simp
              · simp only [if_true]
                rw [show ([']'] : List Char) ++ y = ']' :: y from rfl,
                  subA_plain (by decide) (by decide)]
                simp
      have hN5t : ∀ t : Node, sizeOf t ≤ m + 1 → wfNode t = true → ∀ y,
          subA ',' [',', ' '] true [] (o4 t ++ y)
            = o5 t ++ subA ',' [',', ' '] false (p5exit t) y := by
        intro t hle hwf y
        by_cases hsc : isScript t
        · obtain ⟨n, args, cache, rfl⟩ : ∃ n args cache,
              t = Node.script n args cache := by
            cases t with
            | script n args cache => exact ⟨n, args, cache, rfl⟩
            | notN c cache => simp [isScript] at hsc
            | andN cb cs cache => simp [isScript] at hsc
            | orN cb cs cache => simp [isScript] at hsc
          obtain ⟨R, hR⟩ : ∃ R, o4 (Node.script n args cache)
              = ' ' :: '(' :: R := by
            by_cases ha : args = []
            · exact ⟨' ' :: n.toList ++ [' ', ')', ' '], by simp [o4, ha]⟩
            · exact ⟨' ' :: n.toList ++ ':' :: strArgs args ++ [' ', ')', ' '],
                by simp [o4, ha]⟩
          have h1 := hN5f (Node.script n args cache) hle hwf [] y
          rw [hR] at h1 ⊢
          rw [show (' ' :: '(' :: R) ++ y = ' ' :: ('(' :: (R ++ y)) from rfl]
            at h1 ⊢
          rw [subA_ws (by decide) (by decide),
            subA_plain (by decide) (by decide)] at h1
          simp only [List.nil_append, wsl, isScript, if_true] at h1
          rw [show ([' '] : List Char)
                ++ ('(' :: subA ',' [',', ' '] false [] (R ++ y))
              = ' ' :: '(' :: subA ',' [',', ' '] false [] (R ++ y) from rfl]
            at h1
          rw [show ([' '] : List Char) ++ o5 (Node.script n args cache)
                ++ subA ',' [',', ' '] false (p5exit (Node.script n args cache)) y
              = ' ' :: (o5 (Node.script n args cache)
                ++ subA ',' [',', ' ']
                  false (p5exit (Node.script n args cache)) y) from by simp]
            at h1
          have h2 := List.cons_injective.eq_iff.mp h1
          rw [subA_true_ws (by decide), subA_true_plain (by decide) (by decide)]
          exact h2
        · obtain ⟨c0, u, hcu, hc0ws, hc0c⟩ :=
            o4_head_nonscript t (by simpa using hsc)
          rw [hcu, show (c0 :: u) ++ y = c0 :: (u ++ y) from rfl,
            subA_true_flip hc0ws hc0c,
            show c0 :: (u ++ y) = (c0 :: u) ++ y from rfl, ← hcu,
            hN5f t hle hwf [] y]
          simp [wsl, hsc]
      have hC5t : ∀ cs : List Node, cs ≠ [] → sizeOf cs ≤ m + 1 →
          wfChildren cs = true → ∀ y,
          subA ',' [',', ' '] true [] (o4ch cs ++ y)
            = o5ch cs ++ subA ',' [',', ' '] false (p5l cs) y := by
        intro cs hne hle hwf y
        rcases cs with _ | ⟨c, rest⟩
        · exact absurd rfl hne
        · simp only [wfChildren, Bool.and_eq_true] at hwf
          by_cases hr : rest = []
          · subst hr
            simp only [o4ch, o5ch, p5l]
            rw [List.append_assoc,
              subA_true_spaces (lead3 c) (lead3_spaces c),
              ((ih.2.1) c (by simp at hle; omega) hwf.1 y : _)]
          · obtain ⟨b, rest2, rfl⟩ : ∃ b rest2, rest = b :: rest2 :=
              ⟨rest.head (by simp [hr]), rest.tail, by simp⟩
            have hout : o4ch (c :: b :: rest2)
                = lead3 c ++ (o4 c ++ ((if exit4 c then [] else p3exit c)
                    ++ ',' :: o4ch (b :: rest2))) := by
              simp [o4ch]
            rw [hout, List.append_assoc,
              subA_true_spaces (lead3 c) (lead3_spaces c)]
            rw [show (o4 c ++ ((if exit4 c then [] else p3exit c)
                  ++ ',' :: o4ch (b :: rest2))) ++ y
                = o4 c ++ (((if exit4 c then [] else p3exit c)
                  ++ ',' :: o4ch (b :: rest2)) ++ y) from by simp,
              ((ih.2.1) c (by simp at hle; omega) hwf.1 _ : _)]
            have hW : ∀ x ∈ (if exit4 c then [] else p3exit c), x = ' ' := by
              by_cases hx : exit4 c
              · simp [hx]
              · rw [if_neg hx]
                exact p3exit_spaces c
            rw [show ((if exit4 c then [] else p3exit c)
                  ++ ',' :: o4ch (b :: rest2)) ++ y
                = (if exit4 c then [] else p3exit c)
                  ++ (',' :: (o4ch (b :: rest2) ++ y)) from by simp,
              subA_spaces (by decide) _ hW, subA_hit,
              ((ih.2.2.2) (b :: rest2) (by simp) (by simp at hle ⊢; omega)
                hwf.2 y : _)]
            have hout5 : o5ch (c :: b :: rest2)
                = o5 c ++ ',' :: ' ' :: o5ch (b :: rest2) := by
              simp [o5ch]
            rw [hout5, show p5l (c :: b :: rest2) = p5l (b :: rest2) from rfl]
            simp
      have hC5f : ∀ cs : List Node, cs ≠ [] → sizeOf cs ≤ m + 1 →
          wfChildren cs = true → ∀ y,
          subA ',' [',', ' '] false [] (o4ch cs ++ y)
            = ' ' :: o5ch cs ++ subA ',' [',', ' '] false (p5l cs) y := by
        intro cs hne hle hwf y
        rcases cs with _ | ⟨c, rest⟩
        · exact absurd rfl hne
        · simp only [wfChildren, Bool.and_eq_true] at hwf
          by_cases hr : rest = []
          · subst hr
            simp only [o4ch, o5ch, p5l]
            rw [List.append_assoc,
              subA_spaces (by decide) (lead3 c) (lead3_spaces c)]
            simp only [List.nil_append]
            rw [((ih.1) c (by simp at hle; omega) hwf.1 (lead3 c) y : _),
              lead3_wsl]
            simp
          · obtain ⟨b, rest2, rfl⟩ : ∃ b rest2, rest = b :: rest2 :=
              ⟨rest.head (by simp [hr]), rest.tail, by simp⟩
            have hout : o4ch (c :: b :: rest2)
                = lead3 c ++ (o4 c ++ ((if exit4 c then [] else p3exit c)
                    ++ ',' :: o4ch (b :: rest2))) := by
              simp [o4ch]
            rw [hout, List.append_assoc,
              subA_spaces (by decide) (lead3 c) (lead3_spaces c)]
            simp only [List.nil_append]
            rw [show (o4 c ++ ((if exit4 c then [] else p3exit c)
                  ++ ',' :: o4ch (b :: rest2))) ++ y
                = o4 c ++ (((if exit4 c then [] else p3exit c)
                  ++ ',' :: o4ch (b :: rest2)) ++ y) from by simp,
              ((ih.1) c (by simp at hle; omega) hwf.1 (lead3 c) _ : _)]
            have hW : ∀ x ∈ (if exit4 c then [] else p3exit c), x = ' ' := by
              by_cases hx : exit4 c
              · simp [hx]
              · rw [if_neg hx]
                exact p3exit_spaces c
            rw [show ((if exit4 c then [] else p3exit c)
                  ++ ',' :: o4ch (b :: rest2)) ++ y
                = (if exit4 c then [] else p3exit c)
                  ++ (',' :: (o4ch (b :: rest2) ++ y)) from by simp,
              subA_spaces (by decide) _ hW, subA_hit,
              ((ih.2.2.2) (b :: rest2) (by simp) (by simp at hle ⊢; omega)
                hwf.2 y : _)]
            have hout5 : o5ch (c :: b :: rest2)
                = o5 c ++ ',' :: ' ' :: o5ch (b :: rest2) := by
              simp [o5ch]
            rw [hout5, show p5l (c :: b :: rest2) = p5l (b :: rest2) from rfl,
              lead3_wsl]
            simp
      exact ⟨hN5f, hN5t, hC5f, hC5t⟩

theorem pass5_full (t : Node) (h : wfNode t = true) :
    subA ',' [',', ' '] false []
        (o4 t ++ (if exit4 t then [] else p3exit t))
      = wsl t ++ o5 t ++ p5exit t ++ (if exit4 t then [] else p3exit t) := by
  have h2 := (pass5_aux (sizeOf t)).1 t (le_refl _) h []
    (if exit4 t then [] else p3exit t)
  rw [h2]
  have hW : ∀ x ∈ (if exit4 t then [] else p3exit t), x = ' ' := by
    by_cases hx : exit4 t
    · simp [hx]
    · rw [if_neg hx]
      exact p3exit_spaces t
  rw [subA_all_spaces (by decide) _ hW]
  simp

theorem exit4_p5exit_aux :
    ∀ (m : Nat) (t : Node), sizeOf t ≤ m → exit4 t = true → p5exit t = [' '] := by
  intro m
  induction m with
  | zero =>
      intro t hle
      exfalso
      cases t <;> simp at hle
  | succ m ih =>
      intro t hle
      cases t with
      | script n args cache => intro _; rfl
      | notN c cache =>
          cases c with
          | none => intro h; simp [exit4] at h
          | some c =>
              intro h
              simp only [exit4] at h
              simp only [p5exit]
              exact ih c (by simp at hle; omega) h
      | andN cb cs cache => intro h; simp [exit4] at h
      | orN cb cs cache => intro h; simp [exit4] at h

theorem exit4_p5exit (t : Node) : exit4 t = true → p5exit t = [' '] :=
  exit4_p5exit_aux (sizeOf t) t (le_refl _)

theorem e4l_p5l : ∀ cs : List Node, e4l cs = true → p5l cs = [' '] := by
  intro cs
  induction cs with
  | nil => intro h; simp [e4l] at h
  | cons c rest ih =>
      cases rest with
      | nil =>
          intro h
          simp only [e4l] at h
          simp only [p5l]
          exact exit4_p5exit c h
      | cons b rest2 =>
          intro h
          simp only [e4l] at h
          simp only [p5l]
          exact ih h

theorem p5exit_spaces_aux :
    ∀ (m : Nat) (t : Node), sizeOf t ≤ m → ∀ x ∈ p5exit t, x = ' ' := by
  intro m
  induction m with
  | zero =>
      intro t hle
      exfalso
      cases t <;> simp at hle
  | succ m ih =>
      intro t hle
      cases t with
      | script n args cache =>
          intro x hx
          simp only [p5exit, List.mem_singleton] at hx
          exact hx
      | notN c cache =>
          cases c with
          | none => intro x hx; simp [p5exit] at hx
          | some c =>
              intro x hx
              simp only [p5exit] at hx
              exact ih c (by simp at hle; omega) x hx
      | andN cb cs cache => intro x hx; simp [p5exit] at hx
      | orN cb cs cache => intro x hx; simp [p5exit] at hx

theorem p5exit_spaces (t : Node) : ∀ x ∈ p5exit t, x = ' ' :=
  p5exit_spaces_aux (sizeOf t) t (le_refl _)

theorem p5l_spaces : ∀ (cs : List Node), ∀ x ∈ p5l cs, x = ' ' := by
  intro cs
  induction cs with
  | nil => intro x hx; simp [p5l] at hx
  | cons c rest ih =>
      cases rest with
      | nil =>
          intro x hx
          simp only [p5l] at hx
          exact p5exit_spaces c x hx
      | cons b rest2 =>
          intro x hx
          simp only [p5l] at hx
          exact ih x hx

theorem collapse_nil (b : Bool) : collapseRun b [] = [] := by
  cases b <;> rfl

theorem collapse_plain {x : Char} (hx : x.isWhitespace = false)
    (b : Bool) (y : List Char) :
    collapseRun b (x :: y) = x :: collapseRun false y := by
  cases b <;> simp [collapseRun, hx]

theorem collapse_ws (y : List Char) :
    collapseRun false (' ' :: y) = ' ' :: collapseRun true y := by
  simp [collapseRun]

theorem collapse_true_ws (y : List Char) :
    collapseRun true (' ' :: y) = collapseRun true y := by
  simp [collapseRun]

theorem collapse_plain_chunk :
    ∀ (w : List Char), w ≠ [] → (∀ x ∈ w, x.isWhitespace = false) →
      ∀ (b : Bool) (y : List Char),
        collapseRun b (w ++ y) = w ++ collapseRun false y := by
  intro w
  induction w with
  | nil => intro h; exact absurd rfl h
  | cons a w ih =>
      intro _ hw b y
      have ha : a.isWhitespace = false := hw a (by simp)
      rcases w with _ | ⟨c, w2⟩
      · rw [List.cons_append, List.nil_append, collapse_plain ha]
        rfl
      · rw [List.cons_append, collapse_plain ha,
          ih (by simp) (fun x hx => hw x (by simp [hx])) false y]
        rfl

theorem collapse_true_spaces :
    ∀ (w : List Char), (∀ x ∈ w, x = ' ') → ∀ (y : List Char),
      collapseRun true (w ++ y) = collapseRun true y := by
  intro w
  induction w with
  | nil => intro _ y; simp
  | cons a w ih =>
      intro hw y
      have ha : a = ' ' := hw a (by simp)
      subst ha
      rw [List.cons_append, collapse_true_ws,
        ih (fun x hx => hw x (by simp [hx]))]

theorem collapse_wsrun :
    ∀ (w : List Char), w ≠ [] → (∀ x ∈ w, x = ' ') → ∀ (y : List Char),
      collapseRun false (w ++ y) = ' ' :: collapseRun true y := by
  intro w hne hw y
  rcases w with _ | ⟨a, w2⟩
  · exact absurd rfl hne
  · have ha : a = ' ' := hw a (by simp)
    subst ha
    rw [List.cons_append, collapse_ws,
      collapse_true_spaces w2 (fun x hx => hw x (by simp [hx]))]

theorem collapse_true_flip {x : Char} (hx : x.isWhitespace = false)
    (y : List Char) :
    collapseRun true (x :: y) = collapseRun false (x :: y) := by
  rw [collapse_plain hx, collapse_plain hx]

theorem canonArgs_collapse :
    ∀ (args : List String), args.all goodTok = true → ∀ y,
      collapseRun false (canonArgs args ++ y)
        = canonArgs args ++ collapseRun false y := by
  intro args
  induction args with
  | nil => intro _ y; simp [canonArgs]
  | cons a rest ih =>
      intro hall y
      simp only [List.all_cons, Bool.and_eq_true] at hall
      obtain ⟨hnne, _⟩ := goodTok_unfold hall.1
      by_cases hr : rest = []
      · subst hr
        rw [show canonArgs [a] = a.toList from by simp [canonArgs],
          collapse_plain_chunk a.toList hnne
            (fun x hx => (tok_plain (show structuralChar ',' = true by decide) hall.1 x hx).1)]
      · obtain ⟨b, rest2, rfl⟩ : ∃ b rest2, rest = b :: rest2 :=
          ⟨rest.head (by simp [hr]), rest.tail, by simp⟩
        have hca : canonArgs (a :: b :: rest2)
            = a.toList ++ ',' :: ' ' :: canonArgs (b :: rest2) := by
          simp [canonArgs]
        rw [hca,
          show (a.toList ++ ',' :: ' ' :: canonArgs (b :: rest2)) ++ y
            = a.toList ++ (',' :: (' ' :: (canonArgs (b :: rest2) ++ y)))
            from by simp,
          collapse_plain_chunk a.toList hnne
            (fun x hx => (tok_plain (show structuralChar ',' = true by decide) hall.1 x hx).1),
          collapse_plain (by decide), collapse_ws]
        have hbl := goodTok_unfold (by
          simp only [List.all_cons, Bool.and_eq_true] at hall
          exact hall.2.1)
        obtain ⟨h0, u, hbu⟩ : ∃ h0 u, b.toList = h0 :: u := by
          rcases hb : b.toList with _ | ⟨h0, u⟩
          · exact absurd hb hbl.1
          · exact ⟨h0, u, rfl⟩
        have h0al : h0.isAlphanum = true := by
          have := hbl.2
          rw [hbu, List.all_cons, Bool.and_eq_true] at this
          exact this.1
        have hsh : ∃ u2, canonArgs (b :: rest2) = h0 :: u2 := by
          refine ⟨u ++ (if rest2 = [] then []
            else ',' :: ' ' :: canonArgs rest2), ?_⟩
          simp only [canonArgs, hbu, List.cons_append]
        obtain ⟨u2, hsh⟩ := hsh
        rw [hsh, show (h0 :: u2) ++ y = h0 :: (u2 ++ y) from rfl,
          collapse_true_flip (alphanum_not_ws h0al),
          show h0 :: (u2 ++ y) = (h0 :: u2) ++ y from rfl, ← hsh,
          ih (by
            simp only [List.all_cons, Bool.and_eq_true] at hall ⊢
            exact hall.2) y]
        simp

theorem o5_head (t : Node) :
    ∃ c0 u, o5 t = c0 :: u ∧ c0.isWhitespace = false := by
  cases t with
  | script n args cache =>
      by_cases ha : args = []
      · exact ⟨'(', ' ' :: n.toList ++ [' ', ')'],
          by simp [o5, ha], by decide⟩
      · exact ⟨'(', ' ' :: n.toList ++ ':' :: canonArgs args ++ [' ', ')'],
          by simp [o5, ha], by decide⟩
  | notN c cache =>
      cases c with
      | none => exact ⟨'!', _, rfl, by decide⟩
      | some c2 => exact ⟨'!', _, rfl, by decide⟩
  | andN cb cs cache =>
      cases cb with
      | true => exact ⟨'&', _, rfl, by decide⟩
      | false => exact ⟨'&', _, rfl, by decide⟩
  | orN cb cs cache =>
      cases cb with
      | true => exact ⟨'|', _, rfl, by decide⟩
      | false => exact ⟨'|', _, rfl, by decide⟩

/-- Canonical children without the leading space (the collapse pass emits
that space itself). -/
def ccT : List Node → List Char
  | [] => []
  | [c] => canonNode c
  | c :: rest => canonNode c ++ ',' :: ' ' :: ccT rest

theorem ccT_canon : ∀ cs : List Node, cs ≠ [] →
    ' ' :: ccT cs = canonChildren cs := by
  intro cs
  induction cs with
  | nil => intro h; exact absurd rfl h
  | cons c rest ih =>
      intro _
      cases rest with
      | nil => simp [ccT, canonChildren]
      | cons b rest2 =>
          have h1 : ccT (c :: b :: rest2)
              = canonNode c ++ ',' :: ' ' :: ccT (b :: rest2) := rfl
          have h2 : canonChildren (c :: b :: rest2)
              = ' ' :: canonNode c ++ ',' :: canonChildren (b :: rest2) := by
            simp [canonChildren]
          rw [h1, h2, ← ih (by simp)]
          simp

theorem collapse_aux : ∀ m : Nat,
    (∀ t : Node, sizeOf t ≤ m → wfNode t = true → ∀ y,
      collapseRun false (o5 t ++ y) = canonNode t ++ collapseRun false y)
    ∧ (∀ cs : List Node, cs ≠ [] → sizeOf cs ≤ m → wfChildren cs = true →
        ∀ y,
      collapseRun false (o5ch cs ++ y) = ccT cs ++ collapseRun false y) := by
  intro m
  induction m with
  | zero =>
      constructor
      · intro t hle
        exfalso
        cases t <;> simp at hle
      · intro cs hne hle
        exfalso
        rcases cs with _ | ⟨c, rest⟩
        · exact hne rfl
        · simp at hle
  | succ m ih =>
      constructor
      · intro t hle hwf y
        cases t with
        | script n args cache =>
            simp only [wfNode, Bool.and_eq_true] at hwf
            obtain ⟨⟨hn, hargs⟩, _⟩ := hwf
            obtain ⟨hnne, _⟩ := goodTok_unfold hn
            by_cases ha : args = []
            · simp only [o5, ha, if_true, canonNode]
              rw [show ('(' :: ' ' :: n.toList ++ [' ', ')']) ++ y
                  = '(' :: (' ' :: (n.toList ++ (' ' :: (')' :: y))))
                  from by simp,
                collapse_plain (by decide), collapse_ws,
                collapse_plain_chunk n.toList hnne
                  (fun x hx => (tok_plain
                    (show structuralChar ',' = true by decide) hn x hx).1),
                collapse_ws, collapse_plain (by decide)]
              simp [opStr]
            · simp only [o5, ha, if_false, canonNode]
              rw [show ('(' :: ' ' :: n.toList ++ ':' :: canonArgs args
                    ++ [' ', ')']) ++ y
                  = '(' :: (' ' :: (n.toList ++ (':' ::
                      (canonArgs args ++ (' ' :: (')' :: y)))))) from by simp,
                collapse_plain (by decide), collapse_ws,
                collapse_plain_chunk n.toList hnne
                  (fun x hx => (tok_plain
                    (show structuralChar ',' = true by decide) hn x hx).1),
                collapse_plain (by decide),
                canonArgs_collapse args hargs,
                collapse_ws, collapse_plain (by decide)]
              simp [opStr]
        | notN child cache =>
            cases child with
            | none =>
                simp only [o5, canonNode]
                rw [collapse_plain_chunk ['!', 'N', 'o', 'n', 'e'] (by simp)
                  (by decide)]
            | some c =>
                simp only [wfNode, Bool.and_eq_true] at hwf
                rw [show o5 (Node.notN (some c) cache)
                    = '!' :: (if isScript c then ' ' :: o5 c else o5 c)
                    from rfl,
                  show canonNode (Node.notN (some c) cache)
                    = '!' :: (if isScript c then ' ' :: canonNode c
                        else canonNode c) from rfl]
                by_cases hsc : isScript c
                · rw [if_pos hsc, if_pos hsc, List.cons_append,
                    List.cons_append, collapse_plain (by decide), collapse_ws]
                  obtain ⟨c0, u, hcu, hc0ws⟩ := o5_head c
                  rw [hcu, show (c0 :: u) ++ y = c0 :: (u ++ y) from rfl,
                    collapse_true_flip hc0ws,
                    show c0 :: (u ++ y) = (c0 :: u) ++ y from rfl, ← hcu,
                    (ih.1 c (by simp at hle; omega) hwf.1 y : _)]
                  simp
                · rw [if_neg hsc, if_neg hsc, List.cons_append,
                    collapse_plain (by decide),
                    (ih.1 c (by simp at hle; omega) hwf.1 y : _)]
                  simp
        | andN cb cs cache =>
            simp only [wfNode, Bool.and_eq_true] at hwf
            by_cases hcs : cs = []
            · subst hcs
              simp only [o5, canonNode, canonChildren, List.isEmpty_nil,
                if_true]
              rw [show (opStr cb '&' ++ ' ' :: '[' :: [' ', ']']) ++ y
                  = opStr cb '&' ++ (' ' :: ('[' :: (' ' :: (']' :: y))))
                  from by simp,
                collapse_plain_chunk (opStr cb '&')
                  (by cases cb <;> simp [opStr]) (by cases cb <;> decide),
                collapse_ws, collapse_plain (by decide),
                collapse_ws, collapse_plain (by decide)]
              simp [opStr]
            · have hre : cs.isEmpty = false := by
                rcases cs with _ | _
                · exact absurd rfl hcs
                · rfl
              simp only [o5, canonNode, hre, Bool.false_eq_true, if_false]
              rw [show (opStr cb '&' ++ ' ' :: '[' ::
                    (' ' :: o5ch cs ++ close5 cs)) ++ y
                  = opStr cb '&' ++ (' ' :: ('[' :: (' ' ::
                      (o5ch cs ++ (close5 cs ++ y))))) from by simp,
                collapse_plain_chunk (opStr cb '&')
                  (by cases cb <;> simp [opStr]) (by cases cb <;> decide),
                collapse_ws, collapse_plain (by decide), collapse_ws]
              obtain ⟨c1, rest, rfl⟩ : ∃ c1 rest, cs = c1 :: rest :=
                ⟨cs.head (by simp [hcs]), cs.tail, by simp⟩
              obtain ⟨c0, u, hcu, hc0ws⟩ := o5_head c1
              have hsh : ∃ u2, o5ch (c1 :: rest) = c0 :: u2 := by
                cases rest with
                | nil => exact ⟨u, by simp [o5ch, hcu]⟩
                | cons b rest2 =>
                    exact ⟨u ++ ',' :: ' ' :: o5ch (b :: rest2),
                      by simp [o5ch, hcu]⟩
              obtain ⟨u2, hsh⟩ := hsh
              rw [hsh, show (c0 :: u2) ++ (close5 (c1 :: rest) ++ y)
                  = c0 :: (u2 ++ (close5 (c1 :: rest) ++ y)) from rfl,
                collapse_true_flip hc0ws,
                show c0 :: (u2 ++ (close5 (c1 :: rest) ++ y))
                  = (c0 :: u2) ++ (close5 (c1 :: rest) ++ y) from rfl, ← hsh,
                (ih.2 (c1 :: rest) (by simp) (by simp at hle ⊢; omega) hwf.1
                  (close5 (c1 :: rest) ++ y) : _)]
              have hW : ∃ W, close5 (c1 :: rest) = W ++ [']'] ∧ W ≠ [] ∧
                  ∀ x ∈ W, x = ' ' := by
                refine ⟨p5l (c1 :: rest) ++ (if e4l (c1 :: rest) then []
                  else p3last (c1 :: rest) ++ [' ']), by simp [close5], ?_, ?_⟩
                · cases he : e4l (c1 :: rest)
                  · simp
                  · rw [e4l_p5l (c1 :: rest) he]
                    simp
                · intro x hx
                  rcases List.mem_append.mp hx with h1 | h1
                  · exact p5l_spaces (c1 :: rest) x h1
                  · by_cases he : e4l (c1 :: rest)
                    · rw [if_pos he] at h1
                      simp at h1
                    · rw [if_neg he] at h1
                      rcases List.mem_append.mp h1 with h2 | h2
                      · exact p3last_spaces (c1 :: rest) x h2
                      · simp only [List.mem_singleton] at h2
                        exact h2
              obtain ⟨W, hWeq, hWne, hWsp⟩ := hW
              rw [hWeq, show (W ++ [']']) ++ y = W ++ (']' :: y) from by simp,
                collapse_wsrun W hWne hWsp, collapse_plain (by decide),
                ← ccT_canon (c1 :: rest) (by simp)]
              simp [opStr]
        | orN cb cs cache =>
            simp only [wfNode, Bool.and_eq_true] at hwf
            by_cases hcs : cs = []
            · subst hcs
              simp only [o5, canonNode, canonChildren, List.isEmpty_nil,
                if_true]
              rw [show (opStr cb '|' ++ ' ' :: '[' :: [' ', ']']) ++ y
                  = opStr cb '|' ++ (' ' :: ('[' :: (' ' :: (']' :: y))))
                  from by simp,
                collapse_plain_chunk (opStr cb '|')
                  (by cases cb <;> simp [opStr]) (by cases cb <;> decide),
                collapse_ws, collapse_plain (by decide),
                collapse_ws, collapse_plain (by decide)]
              simp [opStr]
            · have hre : cs.isEmpty = false := by
                rcases cs with _ | _
                · exact absurd rfl hcs
                · rfl
              simp only [o5, canonNode, hre, Bool.false_eq_true, if_false]
              rw [show (opStr cb '|' ++ ' ' :: '[' ::
                    (' ' :: o5ch cs ++ close5 cs)) ++ y
                  = opStr cb '|' ++ (' ' :: ('[' :: (' ' ::
                      (o5ch cs ++ (close5 cs ++ y))))) from by simp,
                collapse_plain_chunk (opStr cb '|')
                  (by cases cb <;> simp [opStr]) (by cases cb <;> decide),
                collapse_ws, collapse_plain (by decide), collapse_ws]
              obtain ⟨c1, rest, rfl⟩ : ∃ c1 rest, cs = c1 :: rest :=
                ⟨cs.head (by simp [hcs]), cs.tail, by simp⟩
              obtain ⟨c0, u, hcu, hc0ws⟩ := o5_head c1
              have hsh : ∃ u2, o5ch (c1 :: rest) = c0 :: u2 := by
                cases rest with
                | nil => exact ⟨u, by simp [o5ch, hcu]⟩
                | cons b rest2 =>
                    exact ⟨u ++ ',' :: ' ' :: o5ch (b :: rest2),
                      by simp [o5ch, hcu]⟩
              obtain ⟨u2, hsh⟩ := hsh
              rw [hsh, show (c0 :: u2) ++ (close5 (c1 :: rest) ++ y)
                  = c0 :: (u2 ++ (close5 (c1 :: rest) ++ y)) from rfl,
                collapse_true_flip hc0ws,
                show c0 :: (u2 ++ (close5 (c1 :: rest) ++ y))
                  = (c0 :: u2) ++ (close5 (c1 :: rest) ++ y) from rfl, ← hsh,
                (ih.2 (c1 :: rest) (by simp) (by simp at hle ⊢; omega) hwf.1
                  (close5 (c1 :: rest) ++ y) : _)]
              have hW : ∃ W, close5 (c1 :: rest) = W ++ [']'] ∧ W ≠ [] ∧
                  ∀ x ∈ W, x = ' ' := by
                refine ⟨p5l (c1 :: rest) ++ (if e4l (c1 :: rest) then []
                  else p3last (c1 :: rest) ++ [' ']), by simp [close5], ?_, ?_⟩
                · cases he : e4l (c1 :: rest)
                  · simp
                  · rw [e4l_p5l (c1 :: rest) he]
                    simp
                · intro x hx
                  rcases List.mem_append.mp hx with h1 | h1
                  · exact p5l_spaces (c1 :: rest) x h1
                  · by_cases he : e4l (c1 :: rest)
                    · rw [if_pos he] at h1
                      simp at h1
                    · rw [if_neg he] at h1
                      rcases List.mem_append.mp h1 with h2 | h2
                      · exact p3last_spaces (c1 :: rest) x h2
                      · simp only [List.mem_singleton] at h2
                        exact h2
              obtain ⟨W, hWeq, hWne, hWsp⟩ := hW
              rw [hWeq, show (W ++ [']']) ++ y = W ++ (']' :: y) from by simp,
                collapse_wsrun W hWne hWsp, collapse_plain (by decide),
                ← ccT_canon (c1 :: rest) (by simp)]
              simp [opStr]
      · intro cs hne hle hwf y
        rcases cs with _ | ⟨c, rest⟩
        · exact absurd rfl hne
        · simp only [wfChildren, Bool.and_eq_true] at hwf
          by_cases hr : rest = []
          · subst hr
            simp only [o5ch, ccT]
            exact ih.1 c (by simp at hle; omega) hwf.1 y
          · obtain ⟨b, rest2, rfl⟩ : ∃ b rest2, rest = b :: rest2 :=
              ⟨rest.head (by simp [hr]), rest.tail, by simp⟩
            have hout : o5ch (c :: b :: rest2)
                = o5 c ++ ',' :: ' ' :: o5ch (b :: rest2) := rfl
            rw [hout,
              show (o5 c ++ ',' :: ' ' :: o5ch (b :: rest2)) ++ y
                = o5 c ++ (',' :: (' ' :: (o5ch (b :: rest2) ++ y)))
                from by simp,
              (ih.1 c (by simp at hle; omega) hwf.1 _ : _),
              collapse_plain (by decide), collapse_ws]
            obtain ⟨c0, u, hcu, hc0ws⟩ := o5_head b
            have hsh : ∃ u2, o5ch (b :: rest2) = c0 :: u2 := by
              cases rest2 with
              | nil => exact ⟨u, by simp [o5ch, hcu]⟩
              | cons d rest3 =>
                  exact ⟨u ++ ',' :: ' ' :: o5ch (d :: rest3),
                    by simp [o5ch, hcu]⟩
            obtain ⟨u2, hsh⟩ := hsh
            rw [hsh, show (c0 :: u2) ++ y = c0 :: (u2 ++ y) from rfl,
              collapse_true_flip hc0ws,
              show c0 :: (u2 ++ y) = (c0 :: u2) ++ y from rfl, ← hsh,
              (ih.2 (b :: rest2) (by simp) (by simp at hle ⊢; omega)
                hwf.2 y : _)]
            rw [show ccT (c :: b :: rest2)
                = canonNode c ++ ',' :: ' ' :: ccT (b :: rest2) from rfl]
            simp

theorem canonNode_last_aux :
    ∀ (m : Nat) (t : Node), sizeOf t ≤ m →
      ∃ u z, canonNode t = u ++ [z] ∧ (z : Char).isWhitespace = false := by
  intro m
  induction m with
  | zero =>
      intro t hle
      exfalso
      cases t <;> simp at hle
  | succ m ih =>
      intro t hle
      cases t with
      | script n args cache =>
          by_cases ha : args = []
          · exact ⟨'(' :: ' ' :: n.toList ++ [' '], ')',
              by simp [canonNode, ha], by decide⟩
          · exact ⟨'(' :: ' ' :: n.toList ++ ':' :: canonArgs args ++ [' '],
              ')', by simp [canonNode, ha], by decide⟩
      | notN child cache =>
          cases child with
          | none => exact ⟨['!', 'N', 'o', 'n'], 'e', rfl, by decide⟩
          | some c =>
              obtain ⟨u, z, hu, hz⟩ := ih c (by simp at hle; omega)
              refine ⟨'!' :: (if isScript c then ' ' :: u else u), z, ?_, hz⟩
              rw [show canonNode (Node.notN (some c) cache)
                  = '!' :: (if isScript c then ' ' :: canonNode c
                      else canonNode c) from rfl, hu]
              by_cases hsc : isScript c <;> simp [hsc]
      | andN cb cs cache =>
          exact ⟨(if cb then ['&', '&'] else ['&'])
              ++ ' ' :: '[' :: canonChildren cs ++ [' '], ']',
            by simp [canonNode], by decide⟩
      | orN cb cs cache =>
          exact ⟨(if cb then ['|', '|'] else ['|'])
              ++ ' ' :: '[' :: canonChildren cs ++ [' '], ']',
            by simp [canonNode], by decide⟩

theorem canonNode_last (t : Node) :
    ∃ u z, canonNode t = u ++ [z] ∧ (z : Char).isWhitespace = false :=
  canonNode_last_aux (sizeOf t) t (le_refl _)

theorem dropWhile_all_nil {p : Char → Bool} {a : List Char}
    (ha : ∀ c ∈ a, p c = true) : a.dropWhile p = [] := by
  induction a with
  | nil => rfl
  | cons x rest ih =>
      rw [List.dropWhile_cons, ha x (by simp)]
      simp only [if_true]
      exact ih (fun c hc => ha c (by simp [hc]))

theorem pyStrip_wrap {a x b : List Char}
    (ha : ∀ c ∈ a, (c : Char).isWhitespace = true)
    (hb : ∀ c ∈ b, (c : Char).isWhitespace = true)
    (hne : x ≠ [])
    (hh : ∀ c, x.head? = some c → (c : Char).isWhitespace = false)
    (hl : ∀ c, x.getLast? = some c → (c : Char).isWhitespace = false) :
    pyStrip (a ++ x ++ b) = x := by
  unfold pyStrip
  have h1 : (a ++ x ++ b).dropWhile Char.isWhitespace = x ++ b := by
    rw [List.append_assoc, List.dropWhile_append, dropWhile_all_nil ha]
    simp only [List.isEmpty_nil, if_true]
    apply dropWhile_eq_self_of_head
    intro c hc
    rcases x with _ | ⟨x0, xs⟩
    · exact absurd rfl hne
    · simp only [List.cons_append, List.head?_cons, Option.some.injEq] at hc
      exact hc ▸ hh x0 rfl
  rw [h1]
  have h2 : (x ++ b).reverse = b.reverse ++ x.reverse := by simp
  rw [h2, List.dropWhile_append, dropWhile_all_nil
    (fun c hc => hb c (List.mem_reverse.mp hc))]
  simp only [List.isEmpty_nil, if_true]
  rw [dropWhile_eq_self_of_head (fun c hc => hl c (by
    rwa [List.head?_reverse] at hc))]
  exact List.reverse_reverse x

theorem collapse_spaces_ws {w : List Char} (hw : ∀ x ∈ w, x = ' ') :
    ∀ c ∈ collapseRun false w, (c : Char).isWhitespace = true := by
  rcases w with _ | ⟨e, es⟩
  · intro c hc
    rw [collapse_nil] at hc
    simp at hc
  · intro c hc
    rw [← List.append_nil (e :: es), collapse_wsrun (e :: es) (by simp) hw,
      collapse_nil] at hc
    simp only [List.mem_singleton] at hc
    subst hc
    decide

theorem normalize_strNode (t : Node) (h : wfNode t = true) :
    normalizeExpr (strNode t) = canonNode t := by
  have h0 : normalizeExpr (strNode t)
      = pyStrip (collapseRun false (subA ',' [',', ' '] false []
          (subA ')' [' ', ')', ' '] false []
            (subA '(' [' ', '(', ' '] false []
              (subA ']' [' ', ']', ' '] false []
                (subA '[' [' ', '[', ' '] false [] (strNode t))))))) := rfl
  rw [h0, pass1_full t h, pass2_full t h, pass3_full t h, pass4_full t h,
    pass5_full t h]
  have hE2 : ∀ x ∈ p5exit t ++ (if exit4 t then [] else p3exit t), x = ' ' := by
    intro x hx
    rcases List.mem_append.mp hx with h1 | h1
    · exact p5exit_spaces t x h1
    · by_cases he : exit4 t
      · rw [if_pos he] at h1
        simp at h1
      · rw [if_neg he] at h1
        exact p3exit_spaces t x h1
  obtain ⟨c0, u, hcu, hc0ws, _⟩ := canonNode_head t
  obtain ⟨v, z, hvz, hzws⟩ := canonNode_last t
  have hh : ∀ c, (canonNode t).head? = some c → (c : Char).isWhitespace = false := by
    intro c hc
    rw [hcu] at hc
    simp only [List.head?_cons, Option.some.injEq] at hc
    exact hc ▸ hc0ws
  have hl : ∀ c, (canonNode t).getLast? = some c →
      (c : Char).isWhitespace = false := by
    intro c hc
    rw [hvz, List.getLast?_concat] at hc
    simp only [Option.some.injEq] at hc
    exact hc ▸ hzws
  have hcne : canonNode t ≠ [] := by
    rw [hcu]
    simp
  by_cases hsc : isScript t
  · have hwsl : wsl t = [' '] := by simp [wsl, hsc]
    rw [hwsl,
      show ([' '] ++ o5 t ++ p5exit t
          ++ (if exit4 t then [] else p3exit t) : List Char)
        = ' ' :: (o5 t ++ (p5exit t
            ++ (if exit4 t then [] else p3exit t))) from by simp,
      collapse_ws]
    obtain ⟨d0, w, hdw, hd0ws⟩ := o5_head t
    rw [hdw, show (d0 :: w) ++ (p5exit t ++ (if exit4 t then []
          else p3exit t)) = d0 :: (w ++ (p5exit t ++ (if exit4 t then []
          else p3exit t))) from rfl,
      collapse_true_flip hd0ws,
      show d0 :: (w ++ (p5exit t ++ (if exit4 t then [] else p3exit t)))
        = (d0 :: w) ++ (p5exit t ++ (if exit4 t then [] else p3exit t))
        from rfl, ← hdw,
      ((collapse_aux (sizeOf t)).1 t (le_refl _) h _ : _)]
    rw [show (' ' :: (canonNode t ++ collapseRun false (p5exit t
          ++ (if exit4 t then [] else p3exit t))) : List Char)
        = [' '] ++ canonNode t ++ collapseRun false (p5exit t
          ++ (if exit4 t then [] else p3exit t)) from by simp]
    exact pyStrip_wrap (by intro c hc; simp at hc; subst hc; decide)
      (collapse_spaces_ws hE2) hcne hh hl
  · have hwsl : wsl t = [] := by simp [wsl, hsc]
    rw [hwsl,
      show (([] : List Char) ++ o5 t ++ p5exit t
          ++ (if exit4 t then [] else p3exit t))
        = o5 t ++ (p5exit t ++ (if exit4 t then [] else p3exit t))
        from by simp,
      ((collapse_aux (sizeOf t)).1 t (le_refl _) h _ : _)]
    rw [show (canonNode t ++ collapseRun false (p5exit t
          ++ (if exit4 t then [] else p3exit t)) : List Char)
        = [] ++ canonNode t ++ collapseRun false (p5exit t
          ++ (if exit4 t then [] else p3exit t)) from by simp]
    exact pyStrip_wrap (by intro c hc; simp at hc)
      (collapse_spaces_ws hE2) hcne hh hl

theorem count_zero_of_ne {c : Char} {l : List Char}
    (h : ∀ x ∈ l, x ≠ c) : l.count c = 0 := by
  rw [List.count_eq_zero]
  intro hc
  exact h c hc rfl

theorem tok_count_zero {c : Char} {n : String} (hc : c.isAlphanum = false)
    (hn : goodTok n = true) : n.data.count c = 0 := by
  obtain ⟨_, hall⟩ := goodTok_unfold hn
  rw [List.all_eq_true] at hall
  exact count_zero_of_ne (fun x hx => alphanum_ne (hall x hx) hc)

theorem strArgs_count_zero {c : Char} (hc : c.isAlphanum = false)
    (hcc : c ≠ ',') {args : List String} (h : args.all goodTok = true) :
    (strArgs args).count c = 0 := by
  apply count_zero_of_ne
  intro x hx
  rcases strArgs_chars h x hx with h1 | h1
  · exact alphanum_ne h1 hc
  · subst h1
    exact fun he => hcc he.symm

theorem strNode_counts_aux : ∀ m : Nat,
    (∀ t : Node, sizeOf t ≤ m → wfNode t = true →
      (strNode t).count '[' = (strNode t).count ']'
        ∧ (strNode t).count '(' = (strNode t).count ')')
    ∧ (∀ cs : List Node, sizeOf cs ≤ m → wfChildren cs = true →
      (strChildren cs).count '[' = (strChildren cs).count ']'
        ∧ (strChildren cs).count '(' = (strChildren cs).count ')') := by
  intro m
  induction m with
  | zero =>
      constructor
      · intro t hle
        exfalso
        cases t <;> simp at hle
      · intro cs hle hwf
        rcases cs with _ | ⟨c, rest⟩
        · simp [strChildren]
        · exfalso
          simp at hle
  | succ m ih =>
      constructor
      · intro t hle hwf
        cases t with
        | script n args cache =>
            simp only [wfNode, Bool.and_eq_true] at hwf
            obtain ⟨⟨hn, hargs⟩, _⟩ := hwf
            by_cases ha : args = []
            · simp only [strNode, ha, if_true]
              simp [List.count_append, List.count_cons,
                tok_count_zero (show ('[' : Char).isAlphanum = false
                  by decide) hn,
                tok_count_zero (show (']' : Char).isAlphanum = false
                  by decide) hn,
                tok_count_zero (show ('(' : Char).isAlphanum = false
                  by decide) hn,
                tok_count_zero (show (')' : Char).isAlphanum = false
                  by decide) hn]
            · simp only [strNode, ha, if_false]
              simp [List.count_append, List.count_cons,
                tok_count_zero (show ('[' : Char).isAlphanum = false
                  by decide) hn,
                tok_count_zero (show (']' : Char).isAlphanum = false
                  by decide) hn,
                tok_count_zero (show ('(' : Char).isAlphanum = false
                  by decide) hn,
                tok_count_zero (show (')' : Char).isAlphanum = false
                  by decide) hn,
                strArgs_count_zero (show ('[' : Char).isAlphanum = false
                  by decide) (by decide) hargs,
                strArgs_count_zero (show (']' : Char).isAlphanum = false
                  by decide) (by decide) hargs,
                strArgs_count_zero (show ('(' : Char).isAlphanum = false
                  by decide) (by decide) hargs,
                strArgs_count_zero (show (')' : Char).isAlphanum = false
                  by decide) (by decide) hargs]
        | notN child cache =>
            cases child with
            | none => simp [strNode, strOptChild]
            | some c =>
                simp only [wfNode, Bool.and_eq_true] at hwf
                have hih := ih.1 c (by simp at hle; omega) hwf.1
                simp only [strNode, strOptChild]
                simp [List.count_cons, hih.1, hih.2]
        | andN cb cs cache =>
            simp only [wfNode, Bool.and_eq_true] at hwf
            have hih := ih.2 cs (by simp at hle ⊢; omega) hwf.1
            cases cb <;>
              simp [strNode, List.count_append, List.count_cons,
                hih.1, hih.2]
        | orN cb cs cache =>
            simp only [wfNode, Bool.and_eq_true] at hwf
            have hih := ih.2 cs (by simp at hle ⊢; omega) hwf.1
            cases cb <;>
              simp [strNode, List.count_append, List.count_cons,
                hih.1, hih.2]
      · intro cs hle hwf
        rcases cs with _ | ⟨c, rest⟩
        · simp [strChildren]
        · simp only [wfChildren, Bool.and_eq_true] at hwf
          have h1 := ih.1 c (by simp at hle; omega) hwf.1
          have h2 := ih.2 rest (by simp at hle ⊢; omega) hwf.2
          by_cases hr : rest = []
          · subst hr
            simp [strChildren, h1.1, h1.2]
          · have hre : rest.isEmpty = false := by
              rcases rest with _ | _
              · exact absurd rfl hr
              · rfl
            simp [strChildren, hre, List.count_append, List.count_cons,
              h1.1, h1.2, h2.1, h2.2]

theorem strNode_counts (t : Node) (h : wfNode t = true) :
    (strNode t).count '[' = (strNode t).count ']'
      ∧ (strNode t).count '(' = (strNode t).count ')' :=
  (strNode_counts_aux (sizeOf t)).1 t (le_refl _) h

theorem findPre_isPrefix :
    ∀ (l pat : List Char) (k : Nat), findPre pat l = some k →
      ∃ r, l.drop k = pat ++ r := by
  intro l
  induction l with
  | nil =>
      intro pat k h
      unfold findPre at h
      by_cases hp : pat = []
      · rw [if_pos hp] at h
        simp only [Option.some.injEq] at h
        subst h
        exact ⟨[], by simp [hp]⟩
      · rw [if_neg hp] at h
        exact absurd h (by simp)
  | cons c rest ih =>
      intro pat k h
      unfold findPre at h
      by_cases hp : pat.isPrefixOf (c :: rest)
      · rw [if_pos hp] at h
        simp only [Option.some.injEq] at h
        subst h
        obtain ⟨r, hr⟩ := List.isPrefixOf_iff_prefix.mp hp
        exact ⟨r, by simp [← hr]⟩
      · rw [if_neg hp] at h
        rcases hf : findPre pat rest with _ | k2
        · rw [hf] at h
          simp at h
        · rw [hf] at h
          simp at h
          subst h
          obtain ⟨r, hr⟩ := ih pat k2 hf
          exact ⟨r, by simpa using hr⟩

theorem pyFind_ofNat {e pat : List Char} {start j : Nat}
    (h : pyFind e pat start = Int.ofNat j) :
    start ≤ j ∧ ∃ r, e.drop j = pat ++ r := by
  unfold pyFind at h
  rcases hf : findPre pat (e.drop start) with _ | k
  · rw [hf] at h
    simp at h
  · rw [hf] at h
    simp only [Int.ofNat_eq_coe, Nat.cast_inj] at h
    have hj : j = start + k := by omega
    subst hj
    obtain ⟨r, hr⟩ := findPre_isPrefix (e.drop start) pat k hf
    refine ⟨by omega, r, ?_⟩
    rw [drop_pos_add]
    exact hr

/-- Every occurrence of `op`'s leading character is immediately followed
either by its duplicate and then `" ["`, or directly by `" ["`. -/
def POp (c : Char) (e : List Char) : Prop :=
  ∀ j r, e.drop j = c :: r →
    (∃ r2, r = c :: ' ' :: '[' :: r2) ∨ (∃ r2, r = ' ' :: '[' :: r2)

theorem POp_nil (c : Char) : POp c [] := by
  intro j r h
  simp at h

theorem POp_cons_ne {c a : Char} (hne : a ≠ c) {l : List Char}
    (h : POp c l) : POp c (a :: l) := by
  intro j r hj
  cases j with
  | zero =>
      simp only [List.drop_zero, List.cons.injEq] at hj
      exact absurd hj.1 hne
  | succ j2 =>
      rw [show (a :: l).drop (j2 + 1) = l.drop j2 from rfl] at hj
      exact h j2 r hj

theorem POp_chunk_ne {c : Char} :
    ∀ (w : List Char), (∀ x ∈ w, x ≠ c) → ∀ {l : List Char},
      POp c l → POp c (w ++ l) := by
  intro w
  induction w with
  | nil => intro _ l h; simpa using h
  | cons a w2 ih =>
      intro hw l h
      rw [List.cons_append]
      exact POp_cons_ne (hw a (by simp))
        (ih (fun x hx => hw x (by simp [hx])) h)

theorem POp_double {c : Char} {Z2 Z : List Char}
    (hZ : Z = ' ' :: '[' :: Z2) (h : POp c Z) : POp c (c :: c :: Z) := by
  intro j r hj
  cases j with
  | zero =>
      simp only [List.drop_zero, List.cons.injEq] at hj
      exact Or.inl ⟨Z2, by rw [← hj.2, hZ]⟩
  | succ j2 =>
      cases j2 with
      | zero =>
          rw [show (c :: c :: Z).drop 1 = c :: Z from rfl] at hj
          simp only [List.cons.injEq] at hj
          exact Or.inr ⟨Z2, by rw [← hj.2, hZ]⟩
      | succ j3 =>
          rw [show (c :: c :: Z).drop (j3 + 2) = Z.drop j3 from rfl] at hj
          exact h j3 r hj

theorem POp_single {c : Char} {Z2 Z : List Char}
    (hZ : Z = ' ' :: '[' :: Z2) (h : POp c Z) : POp c (c :: Z) := by
  intro j r hj
  cases j with
  | zero =>
      simp only [List.drop_zero, List.cons.injEq] at hj
      exact Or.inr ⟨Z2, by rw [← hj.2, hZ]⟩
  | succ j2 =>
      rw [show (c :: Z).drop (j2 + 1) = Z.drop j2 from rfl] at hj
      exact h j2 r hj

theorem POp_strNode_aux : ∀ m : Nat,
    (∀ (c : Char), (c = '&' ∨ c = '|') → ∀ t : Node, sizeOf t ≤ m →
      wfNode t = true → ∀ y, POp c y → POp c (strNode t ++ y))
    ∧ (∀ (c : Char), (c = '&' ∨ c = '|') → ∀ cs : List Node, sizeOf cs ≤ m →
      wfChildren cs = true → ∀ y, POp c y → POp c (strChildren cs ++ y)) := by
  intro m
  induction m with
  | zero =>
      constructor
      · intro c hc t hle
        exfalso
        cases t <;> simp at hle
      · intro c hc cs hle hwf y hy
        rcases cs with _ | ⟨c1, rest⟩
        · simpa [strChildren] using hy
        · exfalso
          simp at hle
  | succ m ih =>
      have hcal : ∀ (c : Char), (c = '&' ∨ c = '|') → c.isAlphanum = false := by
        intro c hc
        rcases hc with rfl | rfl <;> decide
      constructor
      · intro c hc t hle hwf y hy
        cases t with
        | script n args cache =>
            simp only [wfNode, Bool.and_eq_true] at hwf
            obtain ⟨⟨hn, hargs⟩, _⟩ := hwf
            obtain ⟨_, hall⟩ := goodTok_unfold hn
            rw [List.all_eq_true] at hall
            apply POp_chunk_ne (strNode (Node.script n args cache)) _ hy
            intro x hx
            by_cases ha : args = []
            · simp only [strNode, ha, if_true] at hx
              rcases List.mem_cons.mp hx with h1 | h1
              · subst h1; rcases hc with rfl | rfl <;> decide
              · rcases List.mem_append.mp h1 with h2 | h2
                · exact alphanum_ne (hall x h2) (hcal c hc)
                · simp only [List.mem_singleton] at h2
                  subst h2; rcases hc with rfl | rfl <;> decide
            · simp only [strNode, ha, if_false] at hx
              rcases List.mem_cons.mp hx with h1 | h1
              · subst h1; rcases hc with rfl | rfl <;> decide
              · rcases List.mem_append.mp h1 with h2 | h2
                · rcases List.mem_append.mp h2 with h3 | h3
                  · exact alphanum_ne (hall x h3) (hcal c hc)
                  · rcases List.mem_cons.mp h3 with h4 | h4
                    · subst h4; rcases hc with rfl | rfl <;> decide
                    · rcases strArgs_chars hargs x h4 with h5 | h5
                      · exact alphanum_ne h5 (hcal c hc)
                      · subst h5; rcases hc with rfl | rfl <;> decide
                · simp only [List.mem_singleton] at h2
                  subst h2; rcases hc with rfl | rfl <;> decide
        | notN child cache =>
            cases child with
            | none =>
                apply POp_chunk_ne (strNode (Node.notN none cache)) _ hy
                intro x hx
                rw [show strNode (Node.notN none cache)
                    = ['!', 'N', 'o', 'n', 'e'] from rfl] at hx
                fin_cases hx <;> rcases hc with rfl | rfl <;> decide
            | some c2 =>
                simp only [wfNode, Bool.and_eq_true] at hwf
                rw [show strNode (Node.notN (some c2) cache)
                    = '!' :: strNode c2 from rfl,
                  show ('!' :: strNode c2) ++ y = '!' :: (strNode c2 ++ y)
                    from rfl]
                exact POp_cons_ne (by rcases hc with rfl | rfl <;> decide)
                  (ih.1 c hc c2 (by simp at hle; omega) hwf.1 y hy)
        | andN cb cs cache =>
            simp only [wfNode, Bool.and_eq_true] at hwf
            have hinner : POp c (' ' :: ('[' :: (' ' ::
                (strChildren cs ++ (' ' :: (']' :: y)))))) := by
              apply POp_cons_ne (by rcases hc with rfl | rfl <;> decide)
              apply POp_cons_ne (by rcases hc with rfl | rfl <;> decide)
              apply POp_cons_ne (by rcases hc with rfl | rfl <;> decide)
              apply ih.2 c hc cs (by simp at hle ⊢; omega) hwf.1
              apply POp_cons_ne (by rcases hc with rfl | rfl <;> decide)
              apply POp_cons_ne (by rcases hc with rfl | rfl <;> decide)
              exact hy
            rw [show strNode (Node.andN cb cs cache) ++ y
                = (if cb then ['&', '&'] else ['&'])
                  ++ (' ' :: ('[' :: (' ' ::
                    (strChildren cs ++ (' ' :: (']' :: y)))))) from by
              simp [strNode]]
            rcases hc with rfl | rfl
            · cases cb
              · simp only [Bool.false_eq_true, if_false]
                rw [show (['&'] : List Char) ++ (' ' :: ('[' :: (' ' ::
                      (strChildren cs ++ (' ' :: (']' :: y))))))
                    = '&' :: (' ' :: ('[' :: (' ' ::
                      (strChildren cs ++ (' ' :: (']' :: y)))))) from rfl]
                exact POp_single rfl hinner
              · simp only [if_true]
                rw [show (['&', '&'] : List Char) ++ (' ' :: ('[' :: (' ' ::
                      (strChildren cs ++ (' ' :: (']' :: y))))))
                    = '&' :: '&' :: (' ' :: ('[' :: (' ' ::
                      (strChildren cs ++ (' ' :: (']' :: y)))))) from rfl]
                exact POp_double rfl hinner
            · apply POp_chunk_ne _ _ hinner
              intro x hx
              cases cb <;> simp at hx <;> subst hx <;> decide
        | orN cb cs cache =>
            simp only [wfNode, Bool.and_eq_true] at hwf
            have hinner : POp c (' ' :: ('[' :: (' ' ::
                (strChildren cs ++ (' ' :: (']' :: y)))))) := by
              apply POp_cons_ne (by rcases hc with rfl | rfl <;> decide)
              apply POp_cons_ne (by rcases hc with rfl | rfl <;> decide)
              apply POp_cons_ne (by rcases hc with rfl | rfl <;> decide)
              apply ih.2 c hc cs (by simp at hle ⊢; omega) hwf.1
              apply POp_cons_ne (by rcases hc with rfl | rfl <;> decide)
              apply POp_cons_ne (by rcases hc with rfl | rfl <;> decide)
              exact hy
            rw [show strNode (Node.orN cb cs cache) ++ y
                = (if cb then ['|', '|'] else ['|'])
                  ++ (' ' :: ('[' :: (' ' ::
                    (strChildren cs ++ (' ' :: (']' :: y)))))) from by
              simp [strNode]]
            rcases hc with rfl | rfl
            · apply POp_chunk_ne _ _ hinner
              intro x hx
              cases cb <;> simp at hx <;> subst hx <;> decide
            · cases cb
              · simp only [Bool.false_eq_true, if_false]
                rw [show (['|'] : List Char) ++ (' ' :: ('[' :: (' ' ::
                      (strChildren cs ++ (' ' :: (']' :: y))))))
                    = '|' :: (' ' :: ('[' :: (' ' ::
                      (strChildren cs ++ (' ' :: (']' :: y)))))) from rfl]
                exact POp_single rfl hinner
              · simp only [if_true]
                rw [show (['|', '|'] : List Char) ++ (' ' :: ('[' :: (' ' ::
                      (strChildren cs ++ (' ' :: (']' :: y))))))
                    = '|' :: '|' :: (' ' :: ('[' :: (' ' ::
                      (strChildren cs ++ (' ' :: (']' :: y)))))) from rfl]
                exact POp_double rfl hinner
      · intro c hc cs hle hwf y hy
        rcases cs with _ | ⟨c1, rest⟩
        · simpa [strChildren] using hy
        · simp only [wfChildren, Bool.and_eq_true] at hwf
          by_cases hr : rest = []
          · subst hr
            rw [show strChildren [c1] ++ y = strNode c1 ++ y from by
              simp [strChildren]]
            exact ih.1 c hc c1 (by simp at hle; omega) hwf.1 y hy
          · have hre : rest.isEmpty = false := by
              rcases rest with _ | _
              · exact absurd rfl hr
              · rfl
            rw [show strChildren (c1 :: rest) ++ y
                = strNode c1 ++ (',' :: (' ' :: (strChildren rest ++ y)))
                from by simp [strChildren, hre]]
            apply ih.1 c hc c1 (by simp at hle; omega) hwf.1
            apply POp_cons_ne (by rcases hc with rfl | rfl <;> decide)
            apply POp_cons_ne (by rcases hc with rfl | rfl <;> decide)
            exact ih.2 c hc rest (by simp at hle ⊢; omega) hwf.2 y hy

theorem validateOpsF_step (e op : List Char) (f i : Nat) :
    validateOpsF e op (f + 1) i
      = match pyFind e op i with
        | Int.negSucc _ => true
        | Int.ofNat j =>
            if op.length == 1 && decide (j + 1 < e.length) &&
                (charAt e (j + 1) == charAt e j) then
              validateOpsF e op f (j + 1)
            else
              if skipIdx Char.isWhitespace e (j + op.length) ≥ e.length
                  ∨ charAt e (skipIdx Char.isWhitespace e (j + op.length))
                    ≠ '[' then
                false
              else validateOpsF e op f (j + op.length) := by
  conv_lhs => unfold validateOpsF

theorem validateOpsF_true (e op : List Char) (hop : op ≠ [])
    (H : ∀ j r, e.drop j = op ++ r →
      ((op.length == 1) = true ∧ j + 1 < e.length
          ∧ charAt e (j + 1) = charAt e j)
      ∨ (skipIdx Char.isWhitespace e (j + op.length) < e.length ∧
          charAt e (skipIdx Char.isWhitespace e (j + op.length)) = '[')) :
    ∀ (fuel i : Nat), i ≤ e.length → fuel ≥ e.length + 1 - i →
      validateOpsF e op fuel i = true := by
  intro fuel
  induction fuel with
  | zero =>
      intro i hi hf
      exfalso
      omega
  | succ f ihf =>
      intro i hi hf
      rcases hfind : pyFind e op i with j | nneg
      · rw [validateOpsF_step, hfind]
        obtain ⟨hij, r, hr⟩ := pyFind_ofNat hfind
        have hjlt : j < e.length :=
          pos_lt_of_drop hr (by simp [hop])
        have hjlen : j + op.length ≤ e.length := by
          have h1 := length_of_drop_eq hr (by simp [hop])
          simp only [List.length_append] at h1
          omega
        cases hcond : (op.length == 1 && decide (j + 1 < e.length) &&
            (charAt e (j + 1) == charAt e j))
        · show (if (op.length == 1 && decide (j + 1 < e.length) &&
              (charAt e (j + 1) == charAt e j)) = true then
                validateOpsF e op f (j + 1)
              else
                if skipIdx Char.isWhitespace e (j + op.length) ≥ e.length
                    ∨ charAt e (skipIdx Char.isWhitespace e (j + op.length))
                      ≠ '[' then false
                else validateOpsF e op f (j + op.length)) = true
          rw [hcond]
          simp only [Bool.false_eq_true, if_false]
          rcases H j r hr with ⟨h1, h2, h3⟩ | ⟨hk1, hk2⟩
          · exfalso
            rw [h1, decide_eq_true h2, show (charAt e (j + 1)
                == charAt e j) = true from by simp [h3]] at hcond
            simp at hcond
          · rw [if_neg (by
              push_neg
              exact ⟨by omega, hk2⟩)]
            exact ihf (j + op.length) (by omega) (by
              have hol : 1 ≤ op.length := by
                rcases op with _ | _
                · exact absurd rfl hop
                · simp
              omega)
        · show (if (op.length == 1 && decide (j + 1 < e.length) &&
              (charAt e (j + 1) == charAt e j)) = true then
                validateOpsF e op f (j + 1)
              else
                if skipIdx Char.isWhitespace e (j + op.length) ≥ e.length
                    ∨ charAt e (skipIdx Char.isWhitespace e (j + op.length))
                      ≠ '[' then false
                else validateOpsF e op f (j + op.length)) = true
          rw [hcond]
          simp only [if_true]
          exact ihf (j + 1) (by omega) (by omega)
      · simp [validateOpsF_step, hfind]

theorem validate_scan2 (e : List Char) (c : Char) (hcne : c ≠ ' ')
    (hP : POp c e) :
    ∀ (fuel : Nat), fuel ≥ e.length + 1 →
      validateOpsF e [c, c] fuel 0 = true := by
  intro fuel hf
  apply validateOpsF_true e [c, c] (by simp) _ fuel 0 (by omega) (by omega)
  intro j r hj
  rw [show ([c, c] : List Char).length = 2 from rfl]
  have hj' : e.drop j = c :: (c :: r) := by simpa using hj
  rcases hP j (c :: r) hj' with ⟨r2, hr2⟩ | ⟨r2, hr2⟩
  · simp only [List.cons.injEq, true_and] at hr2
    subst hr2
    have hd2 : e.drop (j + 2) = [' '] ++ ('[' :: r2) := by
      rw [drop_pos_add, hj']
      rfl
    have hskip : skipIdx Char.isWhitespace e (j + 2) = j + 3 := by
      unfold skipIdx
      rw [hd2]
      rw [show ([' '] ++ ('[' :: r2)) = ' ' :: ('[' :: r2) from rfl]
      rw [show countLeading Char.isWhitespace (' ' :: ('[' :: r2))
          = countLeading Char.isWhitespace ('[' :: r2) + 1 from by
        simp [countLeading]]
      rw [countLeading_cons_neg (by decide)]
    have hd3 : e.drop (j + 3) = ['['] ++ r2 := by
      rw [drop_pos_add, hj']
      rfl
    refine Or.inr ⟨?_, ?_⟩
    · rw [hskip]
      exact pos_lt_of_drop hd3 (by simp)
    · rw [hskip]
      have := charAt_of_drop hd3 0 (by simp)
      simpa [charAt] using this
  · exfalso
    have hc : c = ' ' := by
      have h0 := congrArg (fun l => l.head?) hr2
      simpa using h0
    exact hcne hc

theorem validate_scan1 (e : List Char) (c : Char)
    (hP : POp c e) :
    ∀ (fuel : Nat), fuel ≥ e.length + 1 →
      validateOpsF e [c] fuel 0 = true := by
  intro fuel hf
  apply validateOpsF_true e [c] (by simp) _ fuel 0 (by omega) (by omega)
  intro j r hj
  rw [show ([c] : List Char).length = 1 from rfl]
  have hj' : e.drop j = c :: r := by simpa using hj
  rcases hP j r hj' with ⟨r2, hr2⟩ | ⟨r2, hr2⟩
  · subst hr2
    have hlen := length_of_drop_eq hj' (by simp)
    simp only [List.length_cons] at hlen
    have hd1 : e.drop (j + 1) = [c] ++ (' ' :: '[' :: r2) := by
      rw [drop_pos_add, hj']
      rfl
    refine Or.inl ⟨rfl, by omega, ?_⟩
    have h1 : charAt e (j + 1) = c := by
      have := charAt_of_drop hd1 0 (by simp)
      simpa [charAt] using this
    have h0 : charAt e j = c := by
      have := charAt_of_drop (show e.drop j = [c] ++ (c :: ' ' :: '[' :: r2)
        from by simpa using hj') 0 (by simp)
      simpa [charAt] using this
    rw [h1, h0]
  · subst hr2
    have hd1 : e.drop (j + 1) = [' '] ++ ('[' :: r2) := by
      rw [drop_pos_add, hj']
      rfl
    have hskip : skipIdx Char.isWhitespace e (j + 1) = j + 2 := by
      unfold skipIdx
      rw [hd1]
      rw [show ([' '] ++ ('[' :: r2)) = ' ' :: ('[' :: r2) from rfl]
      rw [show countLeading Char.isWhitespace (' ' :: ('[' :: r2))
          = countLeading Char.isWhitespace ('[' :: r2) + 1 from by
        simp [countLeading]]
      rw [countLeading_cons_neg (by decide)]
    have hd2 : e.drop (j + 2) = ['['] ++ r2 := by
      rw [drop_pos_add, hj']
      rfl
    refine Or.inr ⟨?_, ?_⟩
    · rw [hskip]
      exact pos_lt_of_drop hd2 (by simp)
    · rw [hskip]
      have := charAt_of_drop hd2 0 (by simp)
      simpa [charAt] using this

theorem validate_strNode (t : Node) (h : wfNode t = true) :
    validate_expression_format (strNode t) = true := by
  have hcounts := strNode_counts t h
  have hAmp : POp '&' (strNode t) := by
    have := (POp_strNode_aux (sizeOf t)).1 '&' (Or.inl rfl) t (le_refl _) h
      [] (POp_nil '&')
    simpa using this
  have hPipe : POp '|' (strNode t) := by
    have := (POp_strNode_aux (sizeOf t)).1 '|' (Or.inr rfl) t (le_refl _) h
      [] (POp_nil '|')
    simpa using this
  unfold validate_expression_format
  rw [hcounts.1, hcounts.2,
    validate_scan2 (strNode t) '&' (by decide) hAmp
      ((strNode t).length + 2) (by omega),
    validate_scan2 (strNode t) '|' (by decide) hPipe
      ((strNode t).length + 2) (by omega),
    validate_scan1 (strNode t) '&' hAmp
      ((strNode t).length + 2) (by omega),
    validate_scan1 (strNode t) '|' hPipe
      ((strNode t).length + 2) (by omega)]
  simp

theorem parse_strNode (t : Node) (hwf : wfNode t = true) :
    parse_logical_expression (nodeFuel t) (strNode t) = some (some t) := by
  have hPC := parsesCanon_of_wf t hwf (nodeFuel t) (canonNode t) [] 0
    (le_refl _) (by simp)
  unfold parse_logical_expression
  rw [validate_strNode t hwf]
  simp only [Bool.not_true, Bool.false_eq_true, if_false]
  rw [normalize_strNode t hwf, hPC]

/-- C6: the claimed parse/serialize/re-parse round trip fails in general
(quoted or comma-containing arguments are re-serialized without quoting), but
holds for every parsed tree whose atoms carry nonempty alphanumeric names and
arguments: re-parsing the serialization returns the same tree. -/
theorem serialize_reparse_roundtrip (s : List Char) (fuel : Nat) (t : Node)
    (hp : parse_logical_expression fuel s = some (some t))
    (hwf : wfNode t = true) :
    parse_logical_expression (nodeFuel t) (strNode t) = some (some t) :=
  parse_strNode t hwf

/-- C6 counterexample: `(A:"x,y")` parses to an atom with the single argument
`x, y` (normalization puts a space after the quoted comma), whose
serialization `(A:x, y)` re-parses to a two-argument atom. -/
theorem serialize_reparse_counterexample :
    parse_logical_expression 50 ("(A:\"x,y\")".toList)
        = some (some (Node.script "A" ["x, y"] none))
      ∧ parse_logical_expression 50 (strNode (Node.script "A" ["x, y"] none))
        = some (some (Node.script "A" ["x", "y"] none))
      ∧ Node.script "A" ["x", "y"] none ≠ Node.script "A" ["x, y"] none := by
  refine ⟨rfl, rfl, ?_⟩
  intro h
  injection h with h1 h2
  simp at h2

theorem serialize_reparse_roundtrip_witness :
    parse_logical_expression
        (nodeFuel (Node.andN true [Node.script "A" [] none] none))
        (strNode (Node.andN true [Node.script "A" [] none] none))
      = some (some (Node.andN true [Node.script "A" [] none] none)) :=
  serialize_reparse_roundtrip ("&& [ (A) ]".toList) 50
    (Node.andN true [Node.script "A" [] none] none) rfl rfl
